import Mathlib

set_option maxHeartbeats 1600000

/-!
Verification of the grid core of the Epic-Dungeon-Crawler repository:
a shallow embedding of `game/tile.py`, `game/pathfinding.py` and the
generation / field-of-view parts of `game/world/dungeon.py`, together
with proofs and refutations of the specified properties.

Machine integers are modelled by `Int`/`Nat` (Python integers are
unbounded, so no wrap-around is needed); Python lists are Lean `List`s;
Python dicts are association lists with in-place update; the `heapq`
min-heap is modelled as a multiset of entries popped by minimum
lexicographic key, which is exactly `heapq`'s observable behaviour since
an entry `(f, (x, y))` is compared lexicographically and the algorithm
never pushes two entries with the same node.  Fallible operations
(exceptions, unbounded loops) return `Option`, `none` marking a raised
exception or divergence.
-/

namespace DungeonCrawler

/-- A grid coordinate, Python tuple `(x, y)`. -/
abbrev Pos := Int × Int

/-! ## Tile model (`game/tile.py`) -/

/-- `TileType` enumeration of `tile.py`. -/
inductive TileType
  | wall
  | floor
  | water
  | lava
  | door
  | stairsDown
  | stairsUp
deriving DecidableEq, Repr

/-- One dungeon tile (`tile.py`, class `Tile`).  The `entity` field of the
source is rendering-only state never read by the core and is omitted. -/
structure Tile where
  type : TileType := TileType.wall
  variant : Nat := 0
  explored : Bool := false
  visible : Bool := false
deriving DecidableEq, Repr

/-- `Tile.is_walkable`: floor, door and both stairs can be walked on. -/
def Tile.is_walkable (t : Tile) : Bool :=
  match t.type with
  | TileType.floor => true
  | TileType.door => true
  | TileType.stairsDown => true
  | TileType.stairsUp => true
  | _ => false

/-- `Tile.is_transparent`: every type except wall lets sight through. -/
def Tile.is_transparent (t : Tile) : Bool :=
  match t.type with
  | TileType.wall => false
  | _ => true

/-! ## Pathfinding (`game/pathfinding.py`) -/

/-- `heuristic`: Manhattan distance. -/
def heuristic (a b : Pos) : Nat :=
  (a.1 - b.1).natAbs + (a.2 - b.2).natAbs

/-- `len(grid)` in `astar`. -/
def gridHeight (grid : List (List Bool)) : Nat := grid.length

/-- `len(grid[0]) if grid_height > 0 else 0` in `astar`. -/
def gridWidth (grid : List (List Bool)) : Nat :=
  match grid with
  | [] => 0
  | row :: _ => row.length

/-- The bounds check `0 <= x < W and 0 <= y < H` used throughout. -/
def inBoundsB (W H : Nat) (p : Pos) : Bool :=
  decide (0 ≤ p.1) && decide (p.1 < (W : Int)) &&
  decide (0 ≤ p.2) && decide (p.2 < (H : Int))

/-- `grid[y][x]` on a walkability mask.  Only evaluated after an
`inBoundsB` check, where it coincides with Python list indexing. -/
def walkAt (grid : List (List Bool)) (p : Pos) : Bool :=
  (grid.getD p.2.toNat []).getD p.1.toNat false

/-- Python dict lookup on an association list. -/
def alookup {α : Type} : List (Pos × α) → Pos → Option α
  | [], _ => none
  | (k, v) :: t, p => if k = p then some v else alookup t p

/-- Python dict store `d[p] = v` on an association list (in-place
overwrite keeps keys unique). -/
def aupdate {α : Type} : List (Pos × α) → Pos → α → List (Pos × α)
  | [], p, v => [(p, v)]
  | (k, w) :: t, p, v => if k = p then (p, v) :: t else (k, w) :: aupdate t p v

/-- Lexicographic comparison of heap entries `(f, (x, y))`, Python's
tuple order used by `heapq`. -/
def entryLe (a b : Nat × Pos) : Bool :=
  if a.1 ≠ b.1 then decide (a.1 < b.1)
  else if a.2.1 ≠ b.2.1 then decide (a.2.1 < b.2.1)
  else decide (a.2.2 ≤ b.2.2)

/-- `heapq.heappop`: remove the least entry (entries are totally ordered
because no node occurs twice). -/
def popMin : List (Nat × Pos) → Option ((Nat × Pos) × List (Nat × Pos))
  | [] => none
  | e :: t =>
    match popMin t with
    | none => some (e, [])
    | some (m, rest) =>
      if entryLe e m then some (e, t) else some (m, e :: rest)

/-- Mutable state of the `astar` main loop. -/
structure AState where
  openSet : List (Nat × Pos)
  closedSet : List Pos
  gScore : List (Pos × Nat)
  fScore : List (Pos × Nat)
  cameFrom : List (Pos × Pos)
deriving Repr

/-- `directions = [(0, -1), (1, 0), (0, 1), (-1, 0)]`. -/
def directions : List Pos := [(0, -1), (1, 0), (0, 1), (-1, 0)]

/-- Body of `astar`'s `for dx, dy in directions` loop: bounds, walkability
and closed-set filtering, then relaxation and conditional push.  `gc` is
`g_score[current]`, read before the loop (the neighbour updates of one
expansion never touch the key `current`, so the pre-read is faithful). -/
def relax (grid : List (List Bool)) (W H : Nat) (goal : Pos) (current : Pos)
    (gc : Nat) (s : AState) (d : Pos) : AState :=
  let neighbor : Pos := (current.1 + d.1, current.2 + d.2)
  if ¬ inBoundsB W H neighbor then s
  else if ¬ walkAt grid neighbor ∨ neighbor ∈ s.closedSet then s
  else
    let tg := gc + 1
    let better :=
      match alookup s.gScore neighbor with
      | none => true
      | some gn => decide (tg < gn)
    if better then
      let f := tg + heuristic neighbor goal
      { s with
        cameFrom := aupdate s.cameFrom neighbor current
        gScore := aupdate s.gScore neighbor tg
        fScore := aupdate s.fScore neighbor f
        openSet :=
          if neighbor ∈ s.openSet.map Prod.snd then s.openSet
          else s.openSet ++ [(f, neighbor)] }
    else s

/-- Path reconstruction: `path = [current]; while current in came_from:
current = came_from[current]; path.append(current); path.reverse()`.
The accumulator builds the reversed list directly; `none` models
divergence of the `while` (impossible, the parent chain is acyclic). -/
def reconstruct (cameFrom : List (Pos × Pos)) :
    Nat → Pos → List Pos → Option (List Pos)
  | 0, _, _ => none
  | fuel + 1, current, acc =>
    match alookup cameFrom current with
    | some prev => reconstruct cameFrom fuel prev (prev :: acc)
    | none => some acc

/-- The `while open_set:` loop of `astar`.  `none` models divergence
(never reached: the fuel passed by `astar` is proved sufficient). -/
def astarLoop (grid : List (List Bool)) (W H : Nat) (goal : Pos) :
    Nat → AState → Option (List Pos)
  | 0, _ => none
  | fuel + 1, s =>
    match popMin s.openSet with
    | none => some []
    | some (e, rest) =>
      let current := e.2
      if current = goal then
        reconstruct s.cameFrom (s.cameFrom.length + 1) current [current]
      else
        let gc := (alookup s.gScore current).getD 0
        let s1 : AState :=
          { s with openSet := rest, closedSet := current :: s.closedSet }
        astarLoop grid W H goal fuel
          (directions.foldl (relax grid W H goal current gc) s1)

/-- Fuel bound for the main loop: every iteration pops one heap entry and
each node is pushed at most once, so `W*H + 2` iterations always suffice;
we keep a safety factor. -/
def astarFuel (W H : Nat) : Nat := 5 * (W * H) + 6

/-- `astar(grid, start, goal)` of `pathfinding.py`. -/
def astar (grid : List (List Bool)) (start goal : Pos) : Option (List Pos) :=
  let H := gridHeight grid
  let W := gridWidth grid
  if ¬ inBoundsB W H start ∨ ¬ inBoundsB W H goal then some []
  else if start = goal then some [start]
  else if ¬ walkAt grid goal then some []
  else
    astarLoop grid W H goal (astarFuel W H)
      { openSet := [(heuristic start goal, start)]
        closedSet := []
        gScore := [(start, 0)]
        fScore := [(start, heuristic start goal)]
        cameFrom := [] }

/-! ## Reference breadth-first search

Modelled from the spec: the testable property "A* optimality" asks that
the returned path length equal the true shortest 4-directional path
length "verifiable by brute-force BFS on small test grids"; this is that
reference BFS over the same walkability mask. -/

/-- The four neighbours of a cell, in the expansion order of the source. -/
def neighbors4 (p : Pos) : List Pos :=
  directions.map (fun d => (p.1 + d.1, p.2 + d.2))

/-- One BFS level expansion over walkable in-bounds unvisited cells. -/
def bfsAux (grid : List (List Bool)) (W H : Nat) (goal : Pos) :
    Nat → List Pos → List Pos → Nat → Option Nat
  | 0, _, _, _ => none
  | fuel + 1, vis, frontier, d =>
    if frontier = [] then none
    else if goal ∈ frontier then some d
    else
      let vis' := vis ++ frontier
      let frontier' :=
        ((frontier.flatMap neighbors4).filter
          (fun n => inBoundsB W H n && walkAt grid n &&
            decide (n ∉ vis'))).dedup
      bfsAux grid W H goal fuel vis' frontier' (d + 1)

/-- Length (number of unit steps) of a shortest 4-directional walkable
path from `start` to `goal`; `none` when `goal` is unreachable.  Like the
source's `astar`, the walkability of `start` itself is not consulted. -/
def bfsDist (grid : List (List Bool)) (start goal : Pos) : Option Nat :=
  bfsAux grid (gridWidth grid) (gridHeight grid) goal
    (gridWidth grid * gridHeight grid + 1) [] [start] 0

/-! ## Dungeon grid state (`game/world/dungeon.py`) -/

/-- The tile grid of a `Dungeon` together with its declared dimensions
(`self.width`, `self.height`); the constructor builds `grid` as `height`
rows of `width` default tiles. -/
structure DState where
  width : Nat
  height : Nat
  grid : List (List Tile)
deriving Repr, DecidableEq

/-- `grid` is `height` rows of `width` tiles, as the constructor makes it. -/
def DState.Rect (d : DState) : Prop :=
  d.grid.length = d.height ∧ ∀ row ∈ d.grid, row.length = d.width

/-- Resolve a Python list index: nonnegative indices address from the
front, negative ones wrap from the back, anything else raises. -/
def pyNat (len : Nat) (i : Int) : Option Nat :=
  if 0 ≤ i then if i < (len : Int) then some i.toNat else none
  else if 0 ≤ i + len then some (i + len).toNat else none

/-- Python `l[i]` with wrap-around and `IndexError` as `none`. -/
def pyIdx {α : Type} (l : List α) (i : Int) : Option α :=
  (pyNat l.length i).bind fun n => l.get? n

/-- Python `l[i] = a`. -/
def pySet {α : Type} (l : List α) (i : Int) (a : α) : Option (List α) :=
  (pyNat l.length i).map fun n => l.set n a

/-- `self.grid[y][x].field = ...` : row lookup, tile lookup, in-place
field mutation; both lookups may raise. -/
def modifyTile (g : List (List Tile)) (x y : Int) (f : Tile → Tile) :
    Option (List (List Tile)) :=
  (pyIdx g y).bind fun row =>
  (pyIdx row x).bind fun t =>
  (pySet row x (f t)).bind fun row' => pySet g y row'

/-- In-place update at known-in-range indices. -/
def listModify {α : Type} (f : α → α) : Nat → List α → List α
  | _, [] => []
  | 0, a :: t => f a :: t
  | n + 1, a :: t => a :: listModify f n t

/-- `self.grid[y][x] ...` for indices already checked to be in
`[0,width) × [0,height)` (plain nonnegative indexing). -/
def gridModify (g : List (List Tile)) (x y : Nat) (f : Tile → Tile) :
    List (List Tile) :=
  listModify (fun row => listModify f x row) y g

/-- Read `self.grid[y][x]` at indices already checked in range. -/
def tileAt (g : List (List Tile)) (x y : Nat) : Tile :=
  (g.getD y []).getD x {}

/-- `range(a, b)` over integers. -/
def intRange (a b : Int) : List Int :=
  (List.range (b - a).toNat).map fun (i : Nat) => a + (i : Int)

/-! ### Line of sight (`Dungeon.has_line_of_sight`) -/

/-- Walking state of Bresenham's loop: the moving point `(x, y)` and the
error accumulator. -/
structure LosState where
  x : Int
  y : Int
  err : Int
deriving Repr, DecidableEq

/-- One iteration of the Bresenham stepping: `e2 = 2*err` is read once,
then the `x` and `y` sub-steps both test it. -/
def losStep (dx dy sx sy : Int) (s : LosState) : LosState :=
  let e2 := 2 * s.err
  let s1 := if e2 > -dy then { s with err := s.err - dy, x := s.x + sx } else s
  if e2 < dx then { s1 with err := s1.err + dx, y := s1.y + sy } else s1

/-- The `while x0 != x1 or y0 != y1` loop: blocked when the current cell
is in bounds and not transparent (out-of-bounds cells are skipped, i.e.
never block).  `none` models divergence; the fuel `dx + dy + 1` passed by
`has_line_of_sight` is proved sufficient. -/
def losWalk (g : List (List Tile)) (W H : Nat) (x1 y1 dx dy sx sy : Int) :
    Nat → LosState → Option Bool
  | 0, _ => none
  | fuel + 1, s =>
    if s.x = x1 ∧ s.y = y1 then some true
    else if inBoundsB W H (s.x, s.y) ∧
        ¬ (tileAt g s.x.toNat s.y.toNat).is_transparent ∧
        (s.x ≠ x1 ∨ s.y ≠ y1) then some false
    else losWalk g W H x1 y1 dx dy sx sy fuel (losStep dx dy sx sy s)

/-- `Dungeon.has_line_of_sight(x0, y0, x1, y1)`. -/
def has_line_of_sight (d : DState) (x0 y0 x1 y1 : Int) : Option Bool :=
  let dx : Int := (x1 - x0).natAbs
  let dy : Int := (y1 - y0).natAbs
  let sx : Int := if x0 < x1 then 1 else -1
  let sy : Int := if y0 < y1 then 1 else -1
  losWalk d.grid d.width d.height x1 y1 dx dy sx sy (dx + dy + 1).toNat
    { x := x0, y := y0, err := dx - dy }

/-! ### Field of view (`Dungeon.compute_fov`) -/

/-- `visible_tiles.add(p)` : Python set insertion, modelled as a
duplicate-free list. -/
def insertPos (l : List Pos) (p : Pos) : List Pos :=
  if p ∈ l then l else l ++ [p]

/-- The per-pass visibility reset of `compute_fov`. -/
def resetVis (g : List (List Tile)) : List (List Tile) :=
  g.map fun row => row.map fun t => { t with visible := false }

/-- The marking mutation of `compute_fov`. -/
def fovMark : Tile → Tile := fun t => { t with visible := true, explored := true }

/-- Body of the square scan of `compute_fov` for one cell `(x, y)` (both
already clamped into bounds by the ranges): circular cutoff, then the
ray cast, then marking.  The float test `sqrt((x-px)^2+(y-py)^2) >
radius` is exact integer comparison `d2 > radius^2` for grid-scale
values (`sqrt` is monotone and double rounding cannot cross an integer
gap at this magnitude); a negative radius makes the test always true. -/
def fovCell (d : DState) (px py radius : Int) (st : List (List Tile) × List Pos)
    (x y : Int) : Option (List (List Tile) × List Pos) :=
  if radius < 0 ∨ (x - px) ^ 2 + (y - py) ^ 2 > radius ^ 2 then some st
  else
    (has_line_of_sight { width := d.width, height := d.height, grid := st.1 }
        px py x y).bind fun sight =>
    if sight then
      some (gridModify st.1 x.toNat y.toNat fovMark, insertPos st.2 (x, y))
    else some st

/-- `Dungeon.compute_fov(player_x, player_y, radius)`: reset every
`visible` flag, mark the player's cell (Python indexing: negative
coordinates wrap, out-of-range ones raise `IndexError`, modelled as
`none`), then scan the clamped square around the player.  Returns the
updated grid state and the set of visible tiles. -/
def compute_fov (d : DState) (px py radius : Int) :
    Option (DState × List Pos) :=
  (modifyTile (resetVis d.grid) px py fovMark).bind
    fun g1 =>
  let ys := intRange (max 0 (py - radius)) (min (d.height : Int) (py + radius + 1))
  let xs := intRange (max 0 (px - radius)) (min (d.width : Int) (px + radius + 1))
  (ys.foldlM (fun st y => xs.foldlM (fun st x => fovCell d px py radius st x y) st)
      (g1, [(px, py)])).map
    fun st => ({ d with grid := st.1 }, st.2)

/-- `Dungeon.is_position_valid(x, y)` (short-circuit: the grid is only
read once both bounds checks passed). -/
def is_position_valid (d : DState) (x y : Int) : Bool :=
  inBoundsB d.width d.height (x, y) &&
  (tileAt d.grid x.toNat y.toNat).is_walkable

/-! ## Level generation (`Dungeon.generate` and helpers)

Randomness is modelled by an explicit stream `σ : Nat → Nat` of draws
together with the index of the next unread slot; every call of a
`random` primitive reads one slot, so each concrete run of the Python
code corresponds to some stream.  `random.randint(a, b)` yields
`a + σ k % (b - a + 1)` (and raises, i.e. `none`, when `a > b`);
`random.choice(l)` yields the element at index `σ k % len l`;
a comparison `random.random() < p` with constant `0 < p < 1` is a draw
whose two outcomes are both reachable, modelled as `σ k % 2 == 0` (the
numeric threshold only fixes a probability, which the all-streams model
abstracts away). -/

/-- `random.randint(a, b)`. -/
def randint (σ : Nat → Nat) (a b : Int) (k : Nat) : Option (Int × Nat) :=
  if a ≤ b then some (a + (σ k % (b - a + 1).toNat : Nat), k + 1) else none

/-- A two-outcome draw: `random.choice([True, False])` or
`random.random() < p`. -/
def randBool (σ : Nat → Nat) (k : Nat) : Bool × Nat :=
  (σ k % 2 == 0, k + 1)

/-- `random.choice` on a list of length `n`: the chosen index. -/
def choiceIdx (σ : Nat → Nat) (n : Nat) (k : Nat) : Option (Nat × Nat) :=
  if n = 0 then none else some (σ k % n, k + 1)

/-- A generation-time room rectangle (class `Room`).  The `room_type`
and `connected` attributes never influence the grid or the rectangle:
`room_type` is a cosmetic tag and `connected` is rebuilt from scratch by
`ensure_connectivity`, whose flags are modelled as a separate list. -/
structure Room where
  x : Int
  y : Int
  width : Int
  height : Int
deriving DecidableEq, Repr

instance : Inhabited Room := ⟨⟨0, 0, 0, 0⟩⟩

/-- `Room.center`: `(x + width // 2, y + height // 2)` with Python floor
division. -/
def Room.center (r : Room) : Pos :=
  (r.x + Int.fdiv r.width 2, r.y + Int.fdiv r.height 2)

/-- `Room.overlaps(other, buffer)`. -/
def Room.overlaps (r other : Room) (buffer : Int) : Bool :=
  decide (r.x < other.x + other.width + buffer) &&
  decide (r.x + r.width + buffer > other.x) &&
  decide (r.y < other.y + other.height + buffer) &&
  decide (r.y + r.height + buffer > other.y)

/-- `self.grid[y][x] = Tile(TileType.FLOOR)` at generation-time indices
(the generator only ever carves inside the grid). -/
def carveCell (g : List (List Tile)) (x y : Int) : List (List Tile) :=
  gridModify g x.toNat y.toNat fun _ => { type := TileType.floor }

/-- `Dungeon.add_room` (the carving part; the list append is done by the
caller in this model). -/
def add_room (g : List (List Tile)) (room : Room) : List (List Tile) :=
  (intRange room.y (room.y + room.height)).foldl
    (fun g y =>
      (intRange room.x (room.x + room.width)).foldl
        (fun g x => carveCell g x y) g)
    g

/-- `Dungeon.create_h_tunnel(x1, x2, y)`. -/
def create_h_tunnel (g : List (List Tile)) (x1 x2 y : Int) : List (List Tile) :=
  (intRange (min x1 x2) (max x1 x2 + 1)).foldl (fun g x => carveCell g x y) g

/-- `Dungeon.create_v_tunnel(y1, y2, x)`. -/
def create_v_tunnel (g : List (List Tile)) (y1 y2 x : Int) : List (List Tile) :=
  (intRange (min y1 y2) (max y1 y2 + 1)).foldl (fun g y => carveCell g x y) g

/-- `Dungeon.connect_rooms(room1, room2)`: an L-shaped corridor between
the centers, orientation chosen by one draw.  (The `connected` flags the
source sets here are tracked by the callers that need them.) -/
def connect_rooms (σ : Nat → Nat) (g : List (List Tile)) (room1 room2 : Room)
    (k : Nat) : List (List Tile) × Nat :=
  let c1 := room1.center
  let c2 := room2.center
  let bk := randBool σ k
  if bk.1 then
    (create_v_tunnel (create_h_tunnel g c1.1 c2.1 c1.2) c1.2 c2.2 c2.1, bk.2)
  else
    (create_h_tunnel (create_v_tunnel g c1.2 c2.2 c1.1) c1.1 c2.1 c2.2, bk.2)

/-- The room-placement loop of `generate` (`for _ in range(max_attempts)`
with the `rooms_created >= max_rooms` break).  `rooms` is `self.rooms`,
which on a retry still holds the rooms of the failed previous passes;
`created` is the per-call counter `rooms_created`, reset to `0` by each
`generate` call. -/
def placeLoop (σ : Nat → Nat) (W H maxRooms : Nat) (roomMin roomMax : Int) :
    Nat → List (List Tile) → List Room → Nat → Nat →
    Option (List (List Tile) × List Room × Nat)
  | 0, g, rooms, _, k => some (g, rooms, k)
  | att + 1, g, rooms, created, k =>
    if created ≥ maxRooms then some (g, rooms, k)
    else
      (randint σ roomMin roomMax k).bind fun wk =>
      (randint σ roomMin roomMax wk.2).bind fun hk =>
      (randint σ 1 ((W : Int) - wk.1 - 2) hk.2).bind fun xk =>
      (randint σ 1 ((H : Int) - hk.1 - 2) xk.2).bind fun yk =>
      let newRoom : Room := { x := xk.1, y := yk.1, width := wk.1, height := hk.1 }
      if rooms.all (fun r => ¬ newRoom.overlaps r 1) then
        let g' := add_room g newRoom
        let rooms' := rooms ++ [newRoom]
        if rooms'.length > 1 then
          (choiceIdx σ rooms.length yk.2).bind fun ik =>
          let prev := rooms.getD ik.1 default
          let gk := connect_rooms σ g' newRoom prev ik.2
          placeLoop σ W H maxRooms roomMin roomMax att gk.1 rooms'
            (created + 1) gk.2
        else
          placeLoop σ W H maxRooms roomMin roomMax att g' rooms'
            (created + 1) yk.2
      else
        placeLoop σ W H maxRooms roomMin roomMax att g rooms created yk.2

/-- Squared center distance; the source compares
`math.sqrt((cx2-cx1)**2 + (cy2-cy1)**2)` with strict `<`, which for
grid-scale integers orders exactly like the squared distance (`sqrt` is
strictly monotone and double rounding cannot merge distinct values of
this magnitude). -/
def dist2 (a b : Pos) : Int := (b.1 - a.1) ^ 2 + (b.2 - a.2) ^ 2

/-- The closest (connected, unconnected) room pair of
`ensure_connectivity`: scan in room-list order, strictly smaller
distance wins, so the first pair attaining the minimum is kept. -/
def closestPair (rooms : List Room) (conn : List Bool) : Option (Nat × Nat) :=
  let idx := List.range rooms.length
  let connIdx := idx.filter fun i => conn.getD i false
  let unconnIdx := idx.filter fun i => ¬ conn.getD i false
  let pairs := connIdx.flatMap fun i => unconnIdx.map fun j => (i, j)
  (pairs.foldl
    (fun best p =>
      let dd := dist2 ((rooms.getD p.1 default).center)
        ((rooms.getD p.2 default).center)
      match best with
      | none => some (p, dd)
      | some qm => if dd < qm.2 then some (p, dd) else some qm)
    none).map Prod.fst

/-- The `while not all(room.connected ...)` loop of
`ensure_connectivity`; `conn` carries the rooms' `connected` flags.
Each pass connects one previously unconnected room, so the fuel
`rooms.length + 1` passed by `ensure_connectivity` is sufficient and the
`none` (divergence) branch is unreachable. -/
def ensureLoop (σ : Nat → Nat) (rooms : List Room) :
    Nat → List (List Tile) → List Bool → Nat →
    Option (List (List Tile) × List Bool × Nat)
  | 0, _, _, _ => none
  | fuel + 1, g, conn, k =>
    if conn.all (fun b => b) then some (g, conn, k)
    else
      let connIdx := (List.range rooms.length).filter fun i => conn.getD i false
      let unconnIdx := (List.range rooms.length).filter fun i => ¬ conn.getD i false
      if connIdx.isEmpty then some (g, conn, k)
      else if unconnIdx.isEmpty then some (g, conn, k)
      else
        match closestPair rooms conn with
        | some ij =>
          let gk := connect_rooms σ g (rooms.getD ij.1 default)
            (rooms.getD ij.2 default) k
          ensureLoop σ rooms fuel gk.1 ((conn.set ij.1 true).set ij.2 true) gk.2
        | none =>
          (choiceIdx σ connIdx.length k).bind fun ck =>
          (choiceIdx σ unconnIdx.length ck.2).bind fun uk =>
          let i := connIdx.getD ck.1 0
          let j := unconnIdx.getD uk.1 0
          let gk := connect_rooms σ g (rooms.getD i default) (rooms.getD j default) uk.2
          ensureLoop σ rooms fuel gk.1 ((conn.set i true).set j true) gk.2

/-- The extra random connections at the end of `ensure_connectivity`
(`max(1, len(rooms) // 10)` passes).  Placed rooms are pairwise
non-overlapping, hence distinct as values, so Python's object identity
test `room1 != room2` coincides with value inequality. -/
def extraLoop (σ : Nat → Nat) (rooms : List Room) :
    Nat → List (List Tile) → Nat → Option (List (List Tile) × Nat)
  | 0, g, k => some (g, k)
  | n + 1, g, k =>
    (choiceIdx σ rooms.length k).bind fun ik =>
    (choiceIdx σ rooms.length ik.2).bind fun jk =>
    let room1 := rooms.getD ik.1 default
    let room2 := rooms.getD jk.1 default
    if room1 ≠ room2 then
      let gk := connect_rooms σ g room1 room2 jk.2
      extraLoop σ rooms n gk.1 gk.2
    else
      extraLoop σ rooms n g jk.2

/-- `Dungeon.ensure_connectivity`: reset all `connected` flags, mark room
0 connected, run the closest-pair loop, then add the extra loops. -/
def ensure_connectivity (σ : Nat → Nat) (g : List (List Tile))
    (rooms : List Room) (k : Nat) : Option (List (List Tile) × Nat) :=
  let conn0 := (List.replicate rooms.length false).set 0 true
  (ensureLoop σ rooms (rooms.length + 1) g conn0 k).bind fun gck =>
  extraLoop σ rooms (max 1 (rooms.length / 10)) gck.1 gck.2.2

def orthoDirs : List Pos := [(0, -1), (1, 0), (0, 1), (-1, 0)]

def diagDirs : List Pos := [(1, 1), (-1, 1), (1, -1), (-1, -1)]

/-- Count neighbouring wall tiles in the given directions (indices stay
inside the grid because the scan covers only interior cells). -/
def wallCount (g : List (List Tile)) (x y : Int) (dirs : List Pos) : Nat :=
  (dirs.filter fun d =>
    (tileAt g (x + d.1).toNat (y + d.2).toNat).type = TileType.wall).length

/-- One cell of the `add_doors` scan; the random draw happens only when
the orthogonal wall count is exactly 2 (Python's short-circuit `and`). -/
def doorCell (σ : Nat → Nat) (st : List (List Tile) × Nat) (x y : Int) :
    List (List Tile) × Nat :=
  if (tileAt st.1 x.toNat y.toNat).type = TileType.floor then
    if wallCount st.1 x y orthoDirs = 2 then
      let bk := randBool σ st.2
      if bk.1 then
        if wallCount st.1 x y diagDirs ≥ 2 then
          (gridModify st.1 x.toNat y.toNat fun _ => { type := TileType.door }, bk.2)
        else (st.1, bk.2)
      else (st.1, bk.2)
    else st
  else st

/-- `Dungeon.add_doors`: row-major scan of the interior. -/
def add_doors (σ : Nat → Nat) (W H : Nat) (g : List (List Tile)) (k : Nat) :
    List (List Tile) × Nat :=
  (intRange 1 ((H : Int) - 1)).foldl
    (fun st y => (intRange 1 ((W : Int) - 1)).foldl
      (fun st x => doorCell σ st x y) st)
    (g, k)

/-- One cell of `add_floor_variants`; the draw happens only on floor
tiles, and `random.randint(1, 2)` is inlined as `1 + σ k % 2`. -/
def variantCell (σ : Nat → Nat) (st : List (List Tile) × Nat) (x y : Int) :
    List (List Tile) × Nat :=
  if (tileAt st.1 x.toNat y.toNat).type = TileType.floor then
    let bk := randBool σ st.2
    if bk.1 then
      let v : Nat := 1 + σ bk.2 % 2
      (gridModify st.1 x.toNat y.toNat (fun t => { t with variant := v }), bk.2 + 1)
    else (st.1, bk.2)
  else st

/-- `Dungeon.add_floor_variants`: row-major scan of the whole grid. -/
def add_floor_variants (σ : Nat → Nat) (W H : Nat) (g : List (List Tile))
    (k : Nat) : List (List Tile) × Nat :=
  (intRange 0 (H : Int)).foldl
    (fun st y => (intRange 0 (W : Int)).foldl
      (fun st x => variantCell σ st x y) st)
    (g, k)

/-- `Dungeon.generate(max_rooms, room_min_size, room_max_size)` for a
`width × height` dungeon.  The source restarts itself by an *unbounded*
recursive call whenever `len(self.rooms) < 5`; the recursion depth is
the `retries` fuel, `none` meaning that no depth suffices up to the
given fuel.  Each call resets only the grid: `self.rooms` (the `rooms0`
argument) is *retained* across retries, so rooms of failed passes still
block placements, count toward the minimum-5 check, and stay in the
final room list.  `place_entities` is omitted: it only fills the enemy
and item lists and never touches the grid or the room list. -/
def generateF (σ : Nat → Nat) (W H maxRooms : Nat) (roomMin roomMax : Int) :
    Nat → List Room → Nat → Option (List (List Tile) × List Room × Nat)
  | 0, _, _ => none
  | retries + 1, rooms0, k =>
    let g0 : List (List Tile) :=
      List.replicate H (List.replicate W { type := TileType.wall })
    (placeLoop σ W H maxRooms roomMin roomMax (maxRooms * 5) g0 rooms0 0
        k).bind
      fun grk =>
    let rooms := grk.2.1
    if rooms.length < 5 then
      generateF σ W H maxRooms roomMin roomMax retries rooms grk.2.2
    else
      (ensure_connectivity σ grk.1 rooms grk.2.2).bind fun gk =>
      -- rooms[0] becomes the entrance and rooms[-1] the exit; only the
      -- stairs tile written at the exit's center affects the grid
      let g2 :=
        if rooms.length > 1 then
          let c := (rooms.getLast?.getD default).center
          gridModify gk.1 c.1.toNat c.2.toNat fun _ => { type := TileType.stairsDown }
        else gk.1
      let g3 := add_doors σ W H g2 gk.2
      let g4 := add_floor_variants σ W H g3.1 g3.2
      some (g4.1, rooms, g4.2)

/-- Top-level `generate`: the dungeon grid state and the room list.
`self.rooms` is `[]` at the first call (set by `__init__`). -/
def generate (σ : Nat → Nat) (W H maxRooms : Nat) (roomMin roomMax : Int)
    (retries : Nat) : Option (DState × List Room) :=
  (generateF σ W H maxRooms roomMin roomMax retries [] 0).map
    fun grk => ({ width := W, height := H, grid := grk.1 }, grk.2.1)

/-! ## Concrete instances used by refutations -/

/-- A 4 × 5 walkability mask with walls at `(1, 0)` and `(2, 3)` on which
the source's A* returns a path of 8 cells although the shortest path has
6 cells: the relaxation of a node already in the open set updates its
`g_score` but not its frozen heap priority, so the goal is popped before
the improved route has been propagated. -/
def c2Grid : List (List Bool) :=
  [[true, false, true, true],
   [true, true, true, true],
   [true, true, true, true],
   [true, true, false, true],
   [true, true, true, true]]

/-- A single non-walkable cell. -/
def c5Grid : List (List Bool) := [[false]]

/-- A 1 × 3 mask whose start cell is a wall. -/
def c9Grid : List (List Bool) := [[false, true, true]]

/-- A 2 × 2 all-floor dungeon grid. -/
def c6D : DState :=
  { width := 2, height := 2
    grid := [[{ type := TileType.floor }, { type := TileType.floor }],
             [{ type := TileType.floor }, { type := TileType.floor }]] }

/-- A 1-row, 2-column all-floor dungeon grid. -/
def c7D : DState :=
  { width := 2, height := 1
    grid := [[{ type := TileType.floor }, { type := TileType.floor }]] }

/-! ## C2 -/

/-- C2: refuted on the code (code bug).  On `c2Grid` from `(3, 0)` to
`(2, 4)` a 4-directional walkable path of 5 steps exists (the reference
BFS returns 5, i.e. 6 cells), yet `astar` returns an 8-cell path, so the
returned length does not equal the true shortest length even though a
path exists.  This contradicts the spec's "A* optimality" property and
the function's own docstring ("find the shortest path"). -/
theorem c2_astar_suboptimal :
    astar c2Grid (3, 0) (2, 4) =
      some [(3, 0), (2, 0), (2, 1), (2, 2), (1, 2), (1, 3), (1, 4), (2, 4)] ∧
    bfsDist c2Grid (3, 0) (2, 4) = some 5 ∧
    ((astar c2Grid (3, 0) (2, 4)).getD []).length ≠ 5 + 1 := by
  refine ⟨by decide, by decide, by decide⟩

/-! ## C5 -/

/-- C5, counterexample: with `start = goal = (0,0)` on a grid whose only
cell is not walkable, the goal cell is in bounds and not walkable, yet
`astar` returns `[start]` rather than the empty list the claim
prescribes: the `start == goal` early return precedes the goal
walkability test. -/
theorem c5_counterexample :
    walkAt c5Grid (0, 0) = false ∧
    astar c5Grid (0, 0) (0, 0) = some [(0, 0)] ∧
    astar c5Grid (0, 0) (0, 0) ≠ some [] := by
  refine ⟨by decide, by decide, by decide⟩

/-- C5, amended: the three early returns in source order.  Out-of-bounds
start or goal gives `[]`; an in-bounds `start == goal` gives `[start]`
even when that cell is not walkable; only for `start ≠ goal` does a
non-walkable goal give `[]`. -/
theorem c5_early_returns (grid : List (List Bool)) (start goal : Pos) :
    (¬ (inBoundsB (gridWidth grid) (gridHeight grid) start = true ∧
        inBoundsB (gridWidth grid) (gridHeight grid) goal = true) →
      astar grid start goal = some []) ∧
    (inBoundsB (gridWidth grid) (gridHeight grid) start = true →
      inBoundsB (gridWidth grid) (gridHeight grid) goal = true →
      start = goal → astar grid start goal = some [start]) ∧
    (inBoundsB (gridWidth grid) (gridHeight grid) start = true →
      inBoundsB (gridWidth grid) (gridHeight grid) goal = true →
      start ≠ goal → walkAt grid goal = false →
      astar grid start goal = some []) := by
  refine ⟨fun h => ?_, fun hs hg he => ?_, fun hs hg hne hw => ?_⟩
  · rw [astar]
    have : ¬ inBoundsB (gridWidth grid) (gridHeight grid) start = true ∨
        ¬ inBoundsB (gridWidth grid) (gridHeight grid) goal = true := by
      by_contra hc
      push_neg at hc
      exact h ⟨hc.1, hc.2⟩
    rcases this with h1 | h1 <;> simp [h1]
  · rw [astar]
    simp [hs, hg, he]
  · rw [astar]
    simp [hs, hg, hne, hw]

/-- C5 witness: the theorem applied at concrete inputs. -/
theorem c5_early_returns_witness :
    astar [[true, true]] (5, 0) (1, 0) = some [] ∧
    astar [[true, true]] (1, 0) (1, 0) = some [(1, 0)] ∧
    astar [[true, false]] (0, 0) (1, 0) = some [] := by
  refine ⟨(c5_early_returns [[true, true]] (5, 0) (1, 0)).1 (by decide),
    (c5_early_returns [[true, true]] (1, 0) (1, 0)).2.1 (by decide) (by decide) rfl,
    (c5_early_returns [[true, false]] (0, 0) (1, 0)).2.2 (by decide) (by decide)
      (by decide) (by decide)⟩

/-! ## C6, counterexample -/

/-- C6, counterexample: the observer `(2, 0)` is outside the 2 × 2 grid,
and `compute_fov` raises `IndexError` (modelled as `none`) instead of
returning a visible set: `self.grid[player_y][player_x]` performs no
clamping.  (Negative coordinates do not crash but wrap, Python-style;
nothing is clamped either way.) -/
theorem c6_counterexample :
    compute_fov c6D 2 0 1 = none ∧
    compute_fov c6D (-1) 0 1 ≠ none := by
  refine ⟨by decide, by decide⟩

/-! ## C7, counterexample -/

/-- C7, counterexample: walking the sight line from `(-2, 0)` to
`(1, 0)` on a 2 × 1 grid passes through the out-of-bounds cell
`(-1, 0)`, which the claim says must block sight; the code skips the
bounds-failing cell instead and reports a clear line of sight. -/
theorem c7_counterexample :
    inBoundsB c7D.width c7D.height (-1, 0) = false ∧
    has_line_of_sight c7D (-2) 0 1 0 = some true := by
  refine ⟨by decide, by decide⟩

/-! ## C8 -/

/-- Room shape invariant of the C8 failing input: on a 10 × 10 grid with
`room_min_size = room_max_size = 6` every candidate room is a 6 × 6
square with corner in `{1, 2} × {1, 2}`. -/
def C8Room (r : Room) : Prop :=
  r.width = 6 ∧ r.height = 6 ∧ 1 ≤ r.x ∧ r.x ≤ 2 ∧ 1 ≤ r.y ∧ r.y ≤ 2

theorem c8Room_overlaps {a b : Room} (ha : C8Room a) (hb : C8Room b) :
    a.overlaps b 1 = true := by
  obtain ⟨haw, hah, hax1, hax2, hay1, hay2⟩ := ha
  obtain ⟨hbw, hbh, hbx1, hbx2, hby1, hby2⟩ := hb
  simp only [Room.overlaps, Bool.and_eq_true, decide_eq_true_eq]
  refine ⟨⟨⟨by omega, by omega⟩, by omega⟩, by omega⟩

/-- On the C8 parameters, the placement loop always succeeds and never
accumulates a second room: any two candidate rooms overlap within the
1-tile buffer (this includes rooms retained from failed passes). -/
theorem c8_placeLoop (σ : Nat → Nat) :
    ∀ (att : Nat) (g : List (List Tile)) (rooms : List Room)
      (created k : Nat),
      rooms.length ≤ 1 → (∀ r ∈ rooms, C8Room r) →
      ∃ g' rooms' k',
        placeLoop σ 10 10 15 6 6 att g rooms created k =
          some (g', rooms', k') ∧
        rooms'.length ≤ 1 ∧ ∀ r ∈ rooms', C8Room r := by
  intro att
  induction att with
  | zero =>
    intro g rooms created k hlen hC8
    exact ⟨g, rooms, k, rfl, hlen, hC8⟩
  | succ att ih =>
    intro g rooms created k hlen hC8
    rw [placeLoop]
    by_cases hmax : created ≥ 15
    · rw [if_pos hmax]
      exact ⟨g, rooms, k, rfl, hlen, hC8⟩
    · rw [if_neg hmax]
      have h66 : ∀ j, randint σ 6 6 j = some (6, j + 1) := by
        intro j; simp [randint]
      have h12 : ∀ j, randint σ 1 2 j =
          some ((1 + (σ j % 2 : Nat) : Int), j + 1) := by
        intro j; simp [randint]
      have harg : ((10 : Nat) : Int) - 6 - 2 = 2 := by norm_num
      simp only [h66, Option.some_bind, harg, h12]
      have hnewC8 : C8Room
          { x := (1 + (σ (k + 1 + 1) % 2 : Nat) : Int),
            y := (1 + (σ (k + 1 + 1 + 1) % 2 : Nat) : Int),
            width := 6, height := 6 } := by
        have := Nat.mod_lt (σ (k + 1 + 1)) (show 0 < 2 by norm_num)
        have := Nat.mod_lt (σ (k + 1 + 1 + 1)) (show 0 < 2 by norm_num)
        refine ⟨rfl, rfl, ?_, ?_, ?_, ?_⟩ <;> simp <;> omega
      rcases rooms with _ | ⟨r, rest⟩
      · simp only [List.all_nil, List.nil_append, List.length_cons,
          List.length_nil]
        rw [if_pos trivial, if_neg (by norm_num)]
        exact ih _ _ _ _ (by simp)
          (by intro r hr; simp at hr; rw [hr]; exact hnewC8)
      · have hrest : rest = [] := by
          have : rest.length = 0 := by
            simp only [List.length_cons] at hlen
            omega
          exact List.length_eq_zero.mp this
        subst hrest
        have hov := c8Room_overlaps hnewC8 (hC8 r (by simp))
        simp only [List.all_cons, List.all_nil, hov]
        simp only [decide_not, Bool.not_true, Bool.and_true,
          decide_eq_true_eq]
        rw [if_neg (by simp)]
        exact ih g [r] _ _ hlen hC8

/-- The unbounded recursion of C8, for any retained room list of the
shape the parameters can produce. -/
theorem c8_generateF_none (σ : Nat → Nat) :
    ∀ (retries : Nat) (rooms0 : List Room) (k : Nat),
      rooms0.length ≤ 1 → (∀ r ∈ rooms0, C8Room r) →
      generateF σ 10 10 15 6 6 retries rooms0 k = none := by
  intro retries
  induction retries with
  | zero => intro rooms0 k _ _; rfl
  | succ retries ih =>
    intro rooms0 k hlen hC8
    rw [generateF]
    obtain ⟨g', rooms', k', hpl, hlen', hC8'⟩ :=
      c8_placeLoop σ (15 * 5)
        (List.replicate 10 (List.replicate 10 { type := TileType.wall }))
        rooms0 0 k hlen hC8
    rw [hpl]
    simp only [Option.some_bind]
    rw [if_pos (by omega)]
    exact ih rooms' k' hlen' hC8'

/-- C8: refuted on the code (code bug).  With a 10 × 10 grid and
6 × 6 rooms at most one room is ever present (rooms retained from
failed passes block every further candidate), so `generate` calls
itself recursively forever: for every recursion depth (`retries` fuel)
and every random stream the model returns `none` from the initial empty
room list of `__init__`.  The spec instead demands a bounded retry
count whose exhaustion is reported as a fatal configuration error; in
CPython the recursion ends in a `RecursionError` that
`Dungeon.__init__` silently swallows. -/
theorem c8_generate_unbounded_retry (σ : Nat → Nat) :
    ∀ (retries k : Nat), generateF σ 10 10 15 6 6 retries [] k = none := by
  intro retries k
  exact c8_generateF_none σ retries [] k (by simp) (by simp)

/-! ## Bresenham walk analysis

The loop state of `has_line_of_sight` is analysed in step coordinates:
after `i` x-steps and `j` y-steps the point is
`(x0 + sx*i, y0 + sy*j)` and the error accumulator is
`dx - dy - i*dy + j*dx`.  The walk never overshoots (`i ≤ dx`, `j ≤ dy`),
advances every iteration, and can only enter the quadrant at or beyond
an exact lattice point of the line through that very point. -/

theorem losStep_ij (x0 y0 dx dy sx sy i j : Int)
    (hdx : 0 ≤ dx) (hdy : 0 ≤ dy)
    (hi0 : 0 ≤ i) (hidx : i ≤ dx) (hj0 : 0 ≤ j) (hjdy : j ≤ dy)
    (hne : ¬ (i = dx ∧ j = dy)) :
    ∃ i' j',
      losStep dx dy sx sy
          { x := x0 + sx * i, y := y0 + sy * j, err := dx - dy - i * dy + j * dx } =
        { x := x0 + sx * i', y := y0 + sy * j',
          err := dx - dy - i' * dy + j' * dx } ∧
      0 ≤ i' ∧ i' ≤ dx ∧ 0 ≤ j' ∧ j' ≤ dy ∧
      i ≤ i' ∧ i' ≤ i + 1 ∧ j ≤ j' ∧ j' ≤ j + 1 ∧ i + j < i' + j' ∧
      ((2 * (dx - dy - i * dy + j * dx) > -dy) ↔ i' = i + 1) ∧
      ((2 * (dx - dy - i * dy + j * dx) < dx) ↔ j' = j + 1) := by
  set e2 : Int := 2 * (dx - dy - i * dy + j * dx) with he2
  have hstep : losStep dx dy sx sy
      { x := x0 + sx * i, y := y0 + sy * j, err := dx - dy - i * dy + j * dx } =
      { x := x0 + sx * i + (if e2 > -dy then sx else 0),
        y := y0 + sy * j + (if e2 < dx then sy else 0),
        err := dx - dy - i * dy + j * dx + (if e2 > -dy then -dy else 0) +
          (if e2 < dx then dx else 0) } := by
    simp only [losStep, he2]
    by_cases h1 : 2 * (dx - dy - i * dy + j * dx) > -dy <;>
      by_cases h2 : 2 * (dx - dy - i * dy + j * dx) < dx <;>
        simp [h1, h2] <;> ring_nf
  by_cases h1 : e2 > -dy <;> by_cases h2 : e2 < dx
  · -- both sub-steps fire
    have hilt : i < dx := by
      rcases lt_or_eq_of_le hidx with h | h
      · exact h
      · exfalso
        subst h
        have hjlt : j < dy := by
          rcases lt_or_eq_of_le hjdy with h' | h'
          · exact h'
          · exact absurd ⟨rfl, h'⟩ hne
        have hp : 0 ≤ i * (dy - 1 - j) := mul_nonneg hi0 (by omega)
        rw [he2] at h1
        nlinarith [h1, hp]
    have hjlt : j < dy := by
      rcases lt_or_eq_of_le hjdy with h | h
      · exact h
      · exfalso
        subst h
        have hp : 0 ≤ j * (dx - 1 - i) := mul_nonneg hj0 (by omega)
        rw [he2] at h2
        nlinarith [h2, hp]
    refine ⟨i + 1, j + 1, ?_, by omega, by omega, by omega, by omega, by omega,
      by omega, by omega, by omega, by omega, ?_, ?_⟩
    · rw [hstep]
      simp only [if_pos h1, if_pos h2, LosState.mk.injEq]
      refine ⟨by ring, by ring, by ring⟩
    · exact iff_of_true h1 rfl
    · exact iff_of_true h2 rfl
  · -- only the x sub-step fires
    have hilt : i < dx := by
      rcases lt_or_eq_of_le hidx with h | h
      · exact h
      · exfalso
        subst h
        have hjlt : j < dy := by
          rcases lt_or_eq_of_le hjdy with h' | h'
          · exact h'
          · exact absurd ⟨rfl, h'⟩ hne
        have hp : 0 ≤ i * (dy - 1 - j) := mul_nonneg hi0 (by omega)
        rw [he2] at h1
        nlinarith [h1, hp]
    refine ⟨i + 1, j, ?_, by omega, by omega, by omega, by omega, by omega,
      by omega, by omega, by omega, by omega, ?_, ?_⟩
    · rw [hstep]
      simp only [if_pos h1, if_neg h2, LosState.mk.injEq]
      refine ⟨by ring, by ring, by ring⟩
    · exact iff_of_true h1 rfl
    · exact iff_of_false h2 (by omega)
  · -- only the y sub-step fires
    have hjlt : j < dy := by
      rcases lt_or_eq_of_le hjdy with h | h
      · exact h
      · exfalso
        subst h
        have hp : 0 ≤ j * (dx - 1 - i) := mul_nonneg hj0 (by omega)
        rw [he2] at h2
        nlinarith [h2, hp]
    refine ⟨i, j + 1, ?_, by omega, by omega, by omega, by omega, by omega,
      by omega, by omega, by omega, by omega, ?_, ?_⟩
    · rw [hstep]
      simp only [if_neg h1, if_pos h2, LosState.mk.injEq]
      refine ⟨by ring, by ring, by ring⟩
    · exact iff_of_false h1 (by omega)
    · exact iff_of_true h2 rfl
  · -- neither fires: impossible away from the target
    exfalso
    have hdd : dx + dy ≤ 0 := by
      rw [he2] at h1 h2
      omega
    have hdx0 : dx = 0 := by omega
    have hdy0 : dy = 0 := by omega
    exact hne ⟨by omega, by omega⟩

theorem los_target_iff (x0 y0 dx dy sx sy i j : Int)
    (hsx : sx = 1 ∨ sx = -1) (hsy : sy = 1 ∨ sy = -1) :
    (x0 + sx * i = x0 + sx * dx ∧ y0 + sy * j = y0 + sy * dy) ↔
      (i = dx ∧ j = dy) := by
  constructor
  · rintro ⟨hx, hy⟩
    constructor
    · rcases hsx with h | h <;> subst h <;> omega
    · rcases hsy with h | h <;> subst h <;> omega
  · rintro ⟨hi, hj⟩
    exact ⟨by rw [hi], by rw [hj]⟩

/-- The Bresenham loop of `has_line_of_sight` always terminates within
its fuel: from step state `(i, j)` at most `(dx - i) + (dy - j)` more
iterations happen. -/
theorem losWalk_isSome (g : List (List Tile)) (W H : Nat)
    (x0 y0 dx dy sx sy : Int)
    (hdx : 0 ≤ dx) (hdy : 0 ≤ dy)
    (hsx : sx = 1 ∨ sx = -1) (hsy : sy = 1 ∨ sy = -1) :
    ∀ (fuel : Nat) (i j : Int), 0 ≤ i → i ≤ dx → 0 ≤ j → j ≤ dy →
      (dx - i) + (dy - j) < (fuel : Int) →
      (losWalk g W H (x0 + sx * dx) (y0 + sy * dy) dx dy sx sy fuel
        { x := x0 + sx * i, y := y0 + sy * j,
          err := dx - dy - i * dy + j * dx }).isSome := by
  intro fuel
  induction fuel with
  | zero => intro i j hi0 hidx hj0 hjdy hm; exfalso; omega
  | succ fuel ih =>
    intro i j hi0 hidx hj0 hjdy hm
    rw [losWalk]
    by_cases htgt : (x0 + sx * i = x0 + sx * dx ∧ y0 + sy * j = y0 + sy * dy)
    · rw [if_pos htgt]; rfl
    · rw [if_neg htgt]
      by_cases hblk : inBoundsB W H (x0 + sx * i, y0 + sy * j) = true ∧
          ¬ (tileAt g (x0 + sx * i).toNat (y0 + sy * j).toNat).is_transparent = true ∧
          (x0 + sx * i ≠ x0 + sx * dx ∨ y0 + sy * j ≠ y0 + sy * dy)
      · rw [if_pos hblk]; rfl
      · rw [if_neg hblk]
        have hne : ¬ (i = dx ∧ j = dy) := fun h =>
          htgt ((los_target_iff x0 y0 dx dy sx sy i j hsx hsy).mpr h)
        obtain ⟨i', j', heq, hi'0, hi'dx, hj'0, hj'dy, _, _, _, _, hlt, _, _⟩ :=
          losStep_ij x0 y0 dx dy sx sy i j hdx hdy hi0 hidx hj0 hjdy hne
        rw [heq]
        exact ih i' j' hi'0 hi'dx hj'0 hj'dy (by push_cast at hm ⊢; omega)

/-- `has_line_of_sight` never diverges. -/
theorem has_line_of_sight_isSome (d : DState) (x0 y0 x1 y1 : Int) :
    (has_line_of_sight d x0 y0 x1 y1).isSome := by
  rw [has_line_of_sight]
  have habs : ∀ a : Int, (a.natAbs : Int) = |a| := fun a => (Int.abs_eq_natAbs a).symm
  set sx : Int := if x0 < x1 then 1 else -1 with hsxdef
  set sy : Int := if y0 < y1 then 1 else -1 with hsydef
  set dx : Int := ((x1 - x0).natAbs : Int) with hdxdef
  set dy : Int := ((y1 - y0).natAbs : Int) with hdydef
  have hdx : 0 ≤ dx := by positivity
  have hdy : 0 ≤ dy := by positivity
  have hsx : sx = 1 ∨ sx = -1 := by
    rw [hsxdef]; split <;> simp
  have hsy : sy = 1 ∨ sy = -1 := by
    rw [hsydef]; split <;> simp
  have hx1 : x1 = x0 + sx * dx := by
    rw [hsxdef, hdxdef, habs]
    by_cases h : x0 < x1
    · rw [if_pos h, abs_of_nonneg (by omega)]; ring
    · rw [if_neg h, abs_of_nonpos (by omega)]; ring
  have hy1 : y1 = y0 + sy * dy := by
    rw [hsydef, hdydef, habs]
    by_cases h : y0 < y1
    · rw [if_pos h, abs_of_nonneg (by omega)]; ring
    · rw [if_neg h, abs_of_nonpos (by omega)]; ring
  have h0 : ({ x := x0, y := y0, err := dx - dy } : LosState) =
      { x := x0 + sx * 0, y := y0 + sy * 0, err := dx - dy - 0 * dy + 0 * dx } := by
    simp
  rw [hx1, hy1, h0]
  exact losWalk_isSome d.grid d.width d.height x0 y0 dx dy sx sy hdx hdy hsx hsy
    (dx + dy + 1).toNat 0 0 le_rfl hdx le_rfl hdy
    (by rw [Int.toNat_of_nonneg (by omega)]; omega)

/-- Occlusion core: if an exact lattice point `(a, b)` of the walked line
(`a * dy = b * dx`, within the step rectangle, distinct from the target)
holds a non-transparent in-bounds tile, the walk can never report a
clear line of sight: starting from any step state inside the lower
quadrant of `(a, b)`, the walk can only leave that quadrant through
`(a, b)` itself, where it is blocked. -/
theorem losWalk_ne_true (g : List (List Tile)) (W H : Nat)
    (x0 y0 dx dy sx sy a b : Int)
    (hdx : 0 ≤ dx) (hdy : 0 ≤ dy)
    (hsx : sx = 1 ∨ sx = -1) (hsy : sy = 1 ∨ sy = -1)
    (hab : a * dy = b * dx)
    (ha0 : 0 ≤ a) (hadx : a ≤ dx) (hb0 : 0 ≤ b) (hbdy : b ≤ dy)
    (hne : ¬ (a = dx ∧ b = dy))
    (hin : inBoundsB W H (x0 + sx * a, y0 + sy * b) = true)
    (hop : (tileAt g (x0 + sx * a).toNat (y0 + sy * b).toNat).is_transparent = false) :
    ∀ (fuel : Nat) (i j : Int), 0 ≤ i → i ≤ a → 0 ≤ j → j ≤ b →
      losWalk g W H (x0 + sx * dx) (y0 + sy * dy) dx dy sx sy fuel
        { x := x0 + sx * i, y := y0 + sy * j,
          err := dx - dy - i * dy + j * dx } ≠ some true := by
  intro fuel
  induction fuel with
  | zero => intro i j _ _ _ _; rw [losWalk]; exact fun h => Option.noConfusion h
  | succ fuel ih =>
    intro i j hi0 hia hj0 hjb
    rw [losWalk]
    by_cases htgt : (x0 + sx * i = x0 + sx * dx ∧ y0 + sy * j = y0 + sy * dy)
    · exfalso
      obtain ⟨hi, hj⟩ := (los_target_iff x0 y0 dx dy sx sy i j hsx hsy).mp htgt
      exact hne ⟨by omega, by omega⟩
    · rw [if_neg htgt]
      by_cases hij : i = a ∧ j = b
      · -- the walk is standing on the occluding tile: blocked
        obtain ⟨hi, hj⟩ := hij
        subst hi; subst hj
        dsimp only
        rw [if_pos ?_]
        · decide
        · refine ⟨hin, by simp [hop], ?_⟩
          by_cases hidx : i = dx
          · right
            intro hy
            refine hne ⟨hidx, ?_⟩
            rcases hsy with h | h <;> rw [h] at hy <;> omega
          · left
            intro hx
            refine hidx ?_
            rcases hsx with h | h <;> rw [h] at hx <;> omega
      · -- strictly inside the lower quadrant: step and recurse
        have hne' : ¬ (i = dx ∧ j = dy) := fun h =>
          htgt ((los_target_iff x0 y0 dx dy sx sy i j hsx hsy).mpr h)
        obtain ⟨i', j', heq, hi'0, hi'dx, hj'0, hj'dy, hii', hi'i1, hjj', hj'j1,
            hlt, hxiff, hyiff⟩ :=
          losStep_ij x0 y0 dx dy sx sy i j hdx hdy hi0 (by omega) hj0 (by omega) hne'
        have hi'a : i' ≤ a := by
          by_cases hia' : i = a
          · subst hia'
            have hjb' : j < b := by
              rcases lt_or_eq_of_le hjb with h | h
              · exact h
              · exact absurd ⟨rfl, h⟩ hij
            have hnox : ¬ (2 * (dx - dy - i * dy + j * dx) > -dy) := by
              intro hx
              have hp : 0 ≤ dx * (b - 1 - j) := mul_nonneg hdx (by omega)
              have hp' : dx * (b - 1 - j) = b * dx - dx - j * dx := by ring
              linarith [hab, hdy]
            have : ¬ i' = i + 1 := fun h => hnox (hxiff.mpr h)
            omega
          · omega
        have hj'b : j' ≤ b := by
          by_cases hjb' : j = b
          · subst hjb'
            have hia'' : i < a := by
              rcases lt_or_eq_of_le hia with h | h
              · exact h
              · exact absurd ⟨h, rfl⟩ hij
            have hnoy : ¬ (2 * (dx - dy - i * dy + j * dx) < dx) := by
              intro hy
              have hp : 0 ≤ dy * (a - 1 - i) := mul_nonneg hdy (by omega)
              have hp' : dy * (a - 1 - i) = a * dy - dy - i * dy := by ring
              linarith [hab, hdx]
            have : ¬ j' = j + 1 := fun h => hnoy (hyiff.mpr h)
            omega
          · omega
        split
        · decide
        · rw [heq]
          exact ih i' j' hi'0 hi'a hj'0 hj'b

/-! ## Grid update lemmas -/

theorem listModify_length {α : Type} (f : α → α) :
    ∀ (n : Nat) (l : List α), (listModify f n l).length = l.length
  | n, [] => by cases n <;> rfl
  | 0, _ :: _ => rfl
  | n + 1, a :: t => by
    simp only [listModify, List.length_cons, listModify_length f n t]

theorem getD_listModify {α : Type} (f : α → α) (d : α) :
    ∀ (n m : Nat) (l : List α),
      (listModify f n l).getD m d =
        if n = m ∧ m < l.length then f (l.getD m d) else l.getD m d
  | _, _, [] => by simp [listModify]
  | 0, 0, a :: t => by simp [listModify]
  | 0, m + 1, a :: t => by simp [listModify]
  | n + 1, 0, a :: t => by simp [listModify]
  | n + 1, m + 1, a :: t => by
    simp only [listModify, List.getD_cons_succ, List.length_cons]
    rw [getD_listModify f d n m t]
    refine if_congr ?_ rfl rfl
    constructor <;> intro h <;> exact ⟨by omega, by omega⟩

theorem getD_map_of {α β : Type} (f : α → β) (d : β) (d' : α) :
    ∀ (n : Nat) (l : List α),
      (l.map f).getD n d = if n < l.length then f (l.getD n d') else d
  | _, [] => by simp
  | 0, a :: t => by simp
  | n + 1, a :: t => by
    simp only [List.map_cons, List.getD_cons_succ, List.length_cons]
    rw [getD_map_of f d d' n t]
    refine if_congr ?_ rfl rfl
    omega

theorem get?_eq_some_getD {α : Type} (d : α) :
    ∀ (n : Nat) (l : List α), n < l.length → l.get? n = some (l.getD n d)
  | _, [], h => by simp at h
  | 0, a :: t, _ => rfl
  | n + 1, a :: t, h => by
    simp only [List.get?_cons_succ, List.getD_cons_succ]
    exact get?_eq_some_getD d n t (by simpa using h)

theorem listModify_eq_set {α : Type} (f : α → α) (d : α) :
    ∀ (n : Nat) (l : List α), n < l.length →
      listModify f n l = l.set n (f (l.getD n d))
  | _, [], h => by simp at h
  | 0, a :: t, _ => rfl
  | n + 1, a :: t, h => by
    simp only [listModify, List.getD_cons_succ]
    rw [listModify_eq_set f d n t (by simpa using h)]
    rfl

/-- Reading across a single-cell update. -/
theorem tileAt_gridModify (g : List (List Tile)) (x y x' y' : Nat)
    (f : Tile → Tile) :
    tileAt (gridModify g x y f) x' y' =
      if y = y' ∧ y' < g.length ∧ x = x' ∧ x' < (g.getD y' []).length
      then f (tileAt g x' y') else tileAt g x' y' := by
  unfold tileAt gridModify
  rw [getD_listModify]
  by_cases h1 : y = y' ∧ y' < g.length
  · rw [if_pos h1, getD_listModify]
    by_cases h2 : x = x' ∧ x' < (g.getD y' []).length
    · rw [if_pos h2, if_pos ⟨h1.1, h1.2, h2.1, h2.2⟩]
    · rw [if_neg h2, if_neg (by tauto)]
  · rw [if_neg h1, if_neg (by tauto)]

/-- The visibility reset at the top of `compute_fov`, read pointwise. -/
theorem tileAt_reset (g : List (List Tile)) (x y : Nat) :
    tileAt (resetVis g) x y = { tileAt g x y with visible := false } := by
  unfold tileAt resetVis
  rw [getD_map_of _ _ []]
  by_cases h1 : y < g.length
  · rw [if_pos h1, getD_map_of _ _ ({} : Tile)]
    by_cases h2 : x < (g.getD y []).length
    · rw [if_pos h2]
    · rw [if_neg h2, List.getD_eq_default _ _ (by omega)]
  · rw [if_neg h1]
    have hrow : (g.getD y []) = [] := List.getD_eq_default _ _ (by omega)
    rw [hrow]
    rfl

/-- `modifyTile` at plainly in-bounds indices is a `gridModify`. -/
theorem modifyTile_inbounds (g : List (List Tile)) (x y : Int) (f : Tile → Tile)
    (hy0 : 0 ≤ y) (hy : y.toNat < g.length) (hx0 : 0 ≤ x)
    (hx : x.toNat < (g.getD y.toNat []).length) :
    modifyTile g x y f = some (gridModify g x.toNat y.toNat f) := by
  unfold modifyTile pyIdx pySet pyNat
  have hyl : y < (g.length : Int) := by omega
  have hrow : g.get? y.toNat = some (g.getD y.toNat []) :=
    get?_eq_some_getD [] _ _ hy
  rw [if_pos hy0, if_pos hyl]
  simp only [Option.some_bind, hrow]
  have hxl : x < ((g.getD y.toNat []).length : Int) := by omega
  have ht : (g.getD y.toNat []).get? x.toNat =
      some ((g.getD y.toNat []).getD x.toNat {}) :=
    get?_eq_some_getD {} _ _ hx
  rw [if_pos hx0, if_pos hxl]
  simp only [Option.some_bind, ht, Option.map_some']
  congr 1
  unfold gridModify
  rw [listModify_eq_set (fun row => listModify f x.toNat row) [] _ _ hy,
    listModify_eq_set f {} _ _ hx]

/-- Monadic fold preservation: a step function that succeeds and
preserves an invariant gives a succeeding fold preserving it. -/
theorem foldlM_option_invariant {α β : Type} (P : β → Prop)
    (f : β → α → Option β) :
    ∀ (l : List α) (b : β), P b →
      (∀ st e, e ∈ l → P st → ∃ st', f st e = some st' ∧ P st') →
      ∃ st', l.foldlM f b = some st' ∧ P st'
  | [], b, hb, _ => ⟨b, rfl, hb⟩
  | e :: t, b, hb, hstep => by
    obtain ⟨b', hb', hPb'⟩ := hstep b e (by simp) hb
    simp only [List.foldlM_cons, hb', Option.some_bind]
    exact foldlM_option_invariant P f t b' hPb'
      (fun st e' he' hP => hstep st e' (by simp [he']) hP)

theorem insertPos_mem (l : List Pos) (p q : Pos) (h : q ∈ l) :
    q ∈ insertPos l p := by
  unfold insertPos
  split
  · exact h
  · exact List.mem_append_left _ h

theorem insertPos_self (l : List Pos) (p : Pos) : p ∈ insertPos l p := by
  unfold insertPos
  split
  · assumption
  · simp

theorem pyNat_lt {len : Nat} {i : Int} {n : Nat} (h : pyNat len i = some n) :
    n < len := by
  unfold pyNat at h
  split at h
  · split at h
    · have := Option.some.inj h
      omega
    · exact absurd h (by simp)
  · split at h
    · have := Option.some.inj h
      omega
    · exact absurd h (by simp)

theorem pyIdx_getD {α : Type} {l : List α} {i : Int} {a : α} (d : α)
    (h : pyIdx l i = some a) :
    ∃ n, pyNat l.length i = some n ∧ n < l.length ∧ a = l.getD n d := by
  unfold pyIdx at h
  cases hn : pyNat l.length i with
  | none => rw [hn] at h; exact absurd h (by simp)
  | some n =>
    rw [hn] at h
    simp only [Option.some_bind] at h
    have hlt := pyNat_lt hn
    rw [get?_eq_some_getD d _ _ hlt] at h
    exact ⟨n, rfl, hlt, (Option.some.inj h).symm⟩

/-- Inverting a successful `modifyTile`: it is a `gridModify` at resolved
in-range indices. -/
theorem modifyTile_some_inv {g : List (List Tile)} {x y : Int}
    {f : Tile → Tile} {g' : List (List Tile)}
    (h : modifyTile g x y f = some g') :
    ∃ nx ny, ny < g.length ∧ nx < (g.getD ny []).length ∧
      g' = gridModify g nx ny f := by
  unfold modifyTile at h
  cases hrow : pyIdx g y with
  | none => rw [hrow] at h; exact absurd h (by simp)
  | some row =>
    rw [hrow] at h
    simp only [Option.some_bind] at h
    obtain ⟨ny, hny, hnylt, hroweq⟩ := pyIdx_getD [] hrow
    cases ht : pyIdx row x with
    | none => rw [ht] at h; exact absurd h (by simp)
    | some t =>
      rw [ht] at h
      obtain ⟨nx, hnx, hnxlt, hteq⟩ := pyIdx_getD ({} : Tile) ht
      simp only [Option.some_bind, pySet] at h
      rw [hnx, hny] at h
      simp only [Option.map_some', Option.some_bind] at h
      refine ⟨nx, ny, hnylt, by rw [← hroweq]; exact hnxlt, ?_⟩
      rw [← Option.some.inj h]
      unfold gridModify
      rw [listModify_eq_set (fun row => listModify f nx row) [] _ _ hnylt,
        listModify_eq_set f {} _ _ (by rw [← hroweq]; exact hnxlt), ← hroweq,
        ← hteq]

/-- Inverting one `fovCell`: the grid is unchanged or marked at the
scanned cell, and the set is unchanged or gains the scanned cell. -/
theorem fovCell_inv {d : DState} {px py r : Int}
    {st st' : List (List Tile) × List Pos} {x y : Int}
    (h : fovCell d px py r st x y = some st') :
    st' = st ∨
      st' = (gridModify st.1 x.toNat y.toNat fovMark, insertPos st.2 (x, y)) := by
  unfold fovCell at h
  split at h
  · exact Or.inl (Option.some.inj h).symm
  · cases hlos : has_line_of_sight
        { width := d.width, height := d.height, grid := st.1 } px py x y with
    | none => rw [hlos] at h; exact absurd h (by simp)
    | some sight =>
      rw [hlos] at h
      simp only [Option.some_bind] at h
      split at h
      · exact Or.inr (Option.some.inj h).symm
      · exact Or.inl (Option.some.inj h).symm

/-- Relation transport along a successful monadic fold. -/
theorem foldlM_option_rel {α β : Type} (R : β → β → Prop)
    (hrefl : ∀ b, R b b) (htrans : ∀ a b c, R a b → R b c → R a c)
    (f : β → α → Option β) :
    ∀ (l : List α) (b st' : β), l.foldlM f b = some st' →
      (∀ st e st'', e ∈ l → f st e = some st'' → R st st'') → R b st'
  | [], b, st', h, _ => by
    simp only [List.foldlM_nil] at h
    exact Option.some.inj h ▸ hrefl b
  | e :: t, b, st', h, hstep => by
    simp only [List.foldlM_cons] at h
    cases hb : f b e with
    | none => rw [hb] at h; exact absurd h (by simp)
    | some b' =>
      rw [hb] at h
      simp only [Option.bind_eq_bind, Option.some_bind] at h
      exact htrans _ _ _ (hstep b e b' (by simp) hb)
        (foldlM_option_rel R hrefl htrans f t b' st' h
          (fun st e' st'' he' => hstep st e' st'' (by simp [he'])))

theorem intRange_mem {a b v : Int} (h : v ∈ intRange a b) : a ≤ v ∧ v < b := by
  unfold intRange at h
  simp only [List.mem_map, List.mem_range] at h
  obtain ⟨i, hi, rfl⟩ := h
  omega

theorem is_transparent_congr {t t' : Tile} (h : t.type = t'.type) :
    t.is_transparent = t'.is_transparent := by
  unfold Tile.is_transparent
  rw [h]

theorem is_walkable_congr {t t' : Tile} (h : t.type = t'.type) :
    t.is_walkable = t'.is_walkable := by
  unfold Tile.is_walkable
  rw [h]

/-- An observer standing on a non-transparent in-bounds tile blocks every
ray at its very first step: the walk checks the starting cell itself. -/
theorem has_line_of_sight_start_blocked (d : DState) (px py tx ty : Int)
    (hin : inBoundsB d.width d.height (px, py) = true)
    (hop : (tileAt d.grid px.toNat py.toNat).is_transparent = false)
    (hne : ¬ (px = tx ∧ py = ty)) :
    has_line_of_sight d px py tx ty = some false := by
  show losWalk d.grid d.width d.height tx ty ((tx - px).natAbs : Int)
      ((ty - py).natAbs : Int) (if px < tx then 1 else -1)
      (if py < ty then 1 else -1)
      ((((tx - px).natAbs : Int) + ((ty - py).natAbs : Int) + 1).toNat)
      { x := px, y := py,
        err := ((tx - px).natAbs : Int) - ((ty - py).natAbs : Int) } = some false
  have hfuel : ∃ m, (((tx - px).natAbs : Int) + ((ty - py).natAbs : Int) + 1).toNat
      = m + 1 := by
    refine ⟨(((tx - px).natAbs : Int) + ((ty - py).natAbs : Int)).toNat, ?_⟩
    omega
  obtain ⟨m, hm⟩ := hfuel
  have hc3 : px ≠ tx ∨ py ≠ ty := by
    by_cases h : px = tx
    · exact Or.inr fun hy => hne ⟨h, hy⟩
    · exact Or.inl h
  rw [hm, losWalk]
  rw [if_neg hne, if_pos ⟨hin, by simp [hop], hc3⟩]

/-- A ray from a point to itself is trivially clear (the loop body never
runs). -/
theorem has_line_of_sight_self (d : DState) (x0 y0 : Int) :
    has_line_of_sight d x0 y0 x0 y0 = some true := by
  show losWalk d.grid d.width d.height x0 y0 ((x0 - x0).natAbs : Int)
      ((y0 - y0).natAbs : Int) (if x0 < x0 then 1 else -1)
      (if y0 < y0 then 1 else -1)
      ((((x0 - x0).natAbs : Int) + ((y0 - y0).natAbs : Int) + 1).toNat)
      { x := x0, y := y0,
        err := ((x0 - x0).natAbs : Int) - ((y0 - y0).natAbs : Int) } = some true
  rw [show (((x0 - x0).natAbs : Int) + ((y0 - y0).natAbs : Int) + 1).toNat = 1
    from by simp, losWalk, if_pos ⟨rfl, rfl⟩]

/-- C4 core at the `has_line_of_sight` level: a non-transparent in-bounds
tile exactly on the segment from the observer to the target (and distinct
from the target) forces a blocked ray. -/
theorem has_line_of_sight_wall_blocked (d : DState) (px py tx ty wx wy : Int)
    (hcol : (wx - px) * (ty - py) = (wy - py) * (tx - px))
    (hbx1 : min px tx ≤ wx) (hbx2 : wx ≤ max px tx)
    (hby1 : min py ty ≤ wy) (hby2 : wy ≤ max py ty)
    (hwne : ¬ (wx = tx ∧ wy = ty))
    (hin : inBoundsB d.width d.height (wx, wy) = true)
    (hop : (tileAt d.grid wx.toNat wy.toNat).is_transparent = false) :
    has_line_of_sight d px py tx ty = some false := by
  have habs : ∀ a : Int, (a.natAbs : Int) = |a| := fun a => (Int.abs_eq_natAbs a).symm
  set sx : Int := if px < tx then 1 else -1 with hsxdef
  set sy : Int := if py < ty then 1 else -1 with hsydef
  set dx : Int := ((tx - px).natAbs : Int) with hdxdef
  set dy : Int := ((ty - py).natAbs : Int) with hdydef
  have hdx : 0 ≤ dx := by positivity
  have hdy : 0 ≤ dy := by positivity
  have hsx : sx = 1 ∨ sx = -1 := by rw [hsxdef]; split <;> simp
  have hsy : sy = 1 ∨ sy = -1 := by rw [hsydef]; split <;> simp
  have hx1 : tx = px + sx * dx := by
    rw [hsxdef, hdxdef, habs]
    by_cases h : px < tx
    · rw [if_pos h, abs_of_nonneg (by omega)]; ring
    · rw [if_neg h, abs_of_nonpos (by omega)]; ring
  have hy1 : ty = py + sy * dy := by
    rw [hsydef, hdydef, habs]
    by_cases h : py < ty
    · rw [if_pos h, abs_of_nonneg (by omega)]; ring
    · rw [if_neg h, abs_of_nonpos (by omega)]; ring
  set a : Int := sx * (wx - px) with hadef
  set b : Int := sy * (wy - py) with hbdef
  have hwx : px + sx * a = wx := by
    rw [hadef]; rcases hsx with h | h <;> rw [h] <;> ring
  have hwy : py + sy * b = wy := by
    rw [hbdef]; rcases hsy with h | h <;> rw [h] <;> ring
  have hax : 0 ≤ a ∧ a ≤ dx := by
    have hxd : sx * dx = tx - px := by linarith [hx1]
    rcases le_or_lt px tx with hc | hc
    · rw [min_eq_left hc] at hbx1
      rw [max_eq_right hc] at hbx2
      rcases hsx with h | h <;> rw [hadef, h] <;> rw [h] at hxd <;>
        constructor <;> linarith [hxd, hbx1, hbx2, hdx]
    · rw [min_eq_right (le_of_lt hc)] at hbx1
      rw [max_eq_left (le_of_lt hc)] at hbx2
      rcases hsx with h | h <;> rw [hadef, h] <;> rw [h] at hxd <;>
        constructor <;> linarith [hxd, hbx1, hbx2, hdx]
  have hby : 0 ≤ b ∧ b ≤ dy := by
    have hyd : sy * dy = ty - py := by linarith [hy1]
    rcases le_or_lt py ty with hc | hc
    · rw [min_eq_left hc] at hby1
      rw [max_eq_right hc] at hby2
      rcases hsy with h | h <;> rw [hbdef, h] <;> rw [h] at hyd <;>
        constructor <;> linarith [hyd, hby1, hby2, hdy]
    · rw [min_eq_right (le_of_lt hc)] at hby1
      rw [max_eq_left (le_of_lt hc)] at hby2
      rcases hsy with h | h <;> rw [hbdef, h] <;> rw [h] at hyd <;>
        constructor <;> linarith [hyd, hby1, hby2, hdy]
  have hab : a * dy = b * dx := by
    have hxd : sx * dx = tx - px := by linarith [hx1]
    have hyd : sy * dy = ty - py := by linarith [hy1]
    rcases hsx with h | h <;> rcases hsy with h' | h' <;>
        rw [hadef, hbdef, h, h'] <;> rw [h] at hxd <;> rw [h'] at hyd
    · have hdx' : dx = tx - px := by linarith
      have hdy' : dy = ty - py := by linarith
      rw [hdx', hdy']
      linear_combination hcol
    · have hdx' : dx = tx - px := by linarith
      have hdy' : dy = py - ty := by linarith
      rw [hdx', hdy']
      linear_combination -hcol
    · have hdx' : dx = px - tx := by linarith
      have hdy' : dy = ty - py := by linarith
      rw [hdx', hdy']
      linear_combination -hcol
    · have hdx' : dx = px - tx := by linarith
      have hdy' : dy = py - ty := by linarith
      rw [hdx', hdy']
      linear_combination hcol
  have hneab : ¬ (a = dx ∧ b = dy) := by
    rintro ⟨ha, hb⟩
    apply hwne
    constructor
    · rw [← hwx, ha, ← hx1]
    · rw [← hwy, hb, ← hy1]
  have hne_true : has_line_of_sight d px py tx ty ≠ some true := by
    show losWalk d.grid d.width d.height tx ty dx dy sx sy
        ((dx + dy + 1).toNat)
        { x := px, y := py, err := dx - dy } ≠ some true
    have h0 : ({ x := px, y := py, err := dx - dy } : LosState) =
        { x := px + sx * 0, y := py + sy * 0,
          err := dx - dy - 0 * dy + 0 * dx } := by simp
    rw [hx1, hy1, h0]
    exact losWalk_ne_true d.grid d.width d.height px py dx dy sx sy a b
      hdx hdy hsx hsy hab hax.1 hax.2 hby.1 hby.2 hneab
      (by rw [hwx, hwy]; exact hin) (by rw [hwx, hwy]; exact hop)
      (dx + dy + 1).toNat 0 0 le_rfl hax.1 le_rfl hby.1
  have hsome := has_line_of_sight_isSome d px py tx ty
  cases hval : has_line_of_sight d px py tx ty with
  | none => rw [hval] at hsome; exact absurd hsome (by simp)
  | some bb =>
    cases bb
    · rfl
    · exact absurd hval hne_true

/-! ## `compute_fov` assembly lemmas -/

/-- Row lengths of a rectangular grid, index form. -/
theorem rect_rows {W H : Nat} {g : List (List Tile)}
    (hlen : g.length = H) (hrows : ∀ row ∈ g, row.length = W)
    (n : Nat) (hn : n < H) : (g.getD n []).length = W := by
  have hmem : g.getD n [] ∈ g := by
    have := get?_eq_some_getD [] n g (by omega)
    exact List.get?_mem this
  exact hrows _ hmem

/-- Rectangularity survives the visibility reset. -/
theorem resetVis_rect {W H : Nat} {g : List (List Tile)}
    (hlen : g.length = H) (hrows : ∀ row ∈ g, row.length = W) :
    (resetVis g).length = H ∧ ∀ row ∈ resetVis g, row.length = W := by
  constructor
  · simpa [resetVis] using hlen
  · intro row hrow
    unfold resetVis at hrow
    obtain ⟨row0, hrow0, rfl⟩ := List.mem_map.mp hrow
    simpa using hrows row0 hrow0

/-- The common skeleton of `compute_fov` facts: once the observer
marking succeeded, any invariant preserved by every `fovCell` step is
carried to the returned grid and visible set. -/
theorem compute_fov_fold (d : DState) (px py radius : Int)
    (g1 : List (List Tile))
    (hmt : modifyTile (resetVis d.grid) px py fovMark = some g1)
    (P : List (List Tile) × List Pos → Prop)
    (hP0 : P (g1, [(px, py)]))
    (hstep : ∀ st x y,
      x ∈ intRange (max 0 (px - radius)) (min (d.width : Int) (px + radius + 1)) →
      y ∈ intRange (max 0 (py - radius)) (min (d.height : Int) (py + radius + 1)) →
      P st → ∃ st', fovCell d px py radius st x y = some st' ∧ P st') :
    ∃ st', compute_fov d px py radius =
      some ({ d with grid := st'.1 }, st'.2) ∧ P st' := by
  unfold compute_fov
  rw [hmt]
  simp only [Option.some_bind]
  obtain ⟨st', hfold, hP⟩ :=
    foldlM_option_invariant P
      (fun st y => (intRange (max 0 (px - radius))
          (min (d.width : Int) (px + radius + 1))).foldlM
        (fun st x => fovCell d px py radius st x y) st)
      (intRange (max 0 (py - radius)) (min (d.height : Int) (py + radius + 1)))
      (g1, [(px, py)]) hP0
      (fun st y hy hP =>
        foldlM_option_invariant P (fun st x => fovCell d px py radius st x y)
          (intRange (max 0 (px - radius)) (min (d.width : Int) (px + radius + 1)))
          st hP (fun st' x hx hP' => hstep st' x y hx hy hP'))
  rw [hfold]
  exact ⟨st', by simp, hP⟩

theorem insertPos_of_mem {l : List Pos} {p : Pos} (h : p ∈ l) :
    insertPos l p = l := by
  unfold insertPos
  rw [if_pos h]

theorem fovMark_type (t : Tile) : (fovMark t).type = t.type := rfl

/-- Marking the observer after the reset never changes any tile type. -/
theorem type_after_obs_mark (g : List (List Tile)) (nx ny : Nat) :
    ∀ a b : Nat,
      (tileAt (gridModify (resetVis g) nx ny fovMark) a b).type =
        (tileAt g a b).type := by
  intro a b
  rw [tileAt_gridModify]
  split
  · rw [fovMark_type, tileAt_reset]
  · rw [tileAt_reset]

/-! ## C10 -/

/-- C10: confirmed.  If the in-bounds observer stands on a
non-transparent tile, `compute_fov` returns exactly the singleton set of
the observer's own cell, for every radius: the Bresenham walk tests the
observer's starting cell itself, so every other target is blocked at the
first step. -/
theorem c10_opaque_observer_sees_self (d : DState) (px py radius : Int)
    (hrect : d.Rect)
    (hin : inBoundsB d.width d.height (px, py) = true)
    (hop : (tileAt d.grid px.toNat py.toNat).is_transparent = false) :
    ∃ d', compute_fov d px py radius = some (d', [(px, py)]) := by
  obtain ⟨hlen, hrows⟩ := hrect
  obtain ⟨hrlen, hrrows⟩ := resetVis_rect hlen hrows
  have hbin : 0 ≤ px ∧ px < (d.width : Int) ∧ 0 ≤ py ∧ py < (d.height : Int) := by
    simpa [inBoundsB, and_assoc] using hin
  have hmt : modifyTile (resetVis d.grid) px py fovMark =
      some (gridModify (resetVis d.grid) px.toNat py.toNat fovMark) :=
    modifyTile_inbounds _ _ _ _ hbin.2.2.1 (by rw [hrlen]; omega) hbin.1
      (by rw [rect_rows hrlen hrrows py.toNat (by omega)]; omega)
  obtain ⟨st', hfov, hP⟩ := compute_fov_fold d px py radius _ hmt
    (fun st => st.2 = [(px, py)] ∧
      ∀ a b : Nat, (tileAt st.1 a b).type = (tileAt d.grid a b).type)
    ⟨rfl, type_after_obs_mark d.grid px.toNat py.toNat⟩
    (by
      intro st x y _ _ hP
      unfold fovCell
      split
      · exact ⟨st, rfl, hP⟩
      · by_cases hxy : x = px ∧ y = py
        · obtain ⟨hx', hy'⟩ := hxy
          subst hx'; subst hy'
          rw [has_line_of_sight_self]
          simp only [Option.some_bind, if_true]
          refine ⟨_, rfl, ?_, ?_⟩
          · show insertPos st.2 (x, y) = [(x, y)]
            rw [hP.1]
            exact insertPos_of_mem (List.mem_singleton.mpr rfl)
          · intro a b
            rw [tileAt_gridModify]
            split
            · rw [fovMark_type, hP.2 a b]
            · exact hP.2 a b
        · have hblk : has_line_of_sight
              { width := d.width, height := d.height, grid := st.1 } px py x y =
              some false :=
            has_line_of_sight_start_blocked _ px py x y hin
              (by rw [is_transparent_congr (hP.2 px.toNat py.toNat)]; exact hop)
              (fun hc => hxy ⟨hc.1.symm, hc.2.symm⟩)
          rw [hblk]
          simp only [Option.some_bind, Bool.false_eq_true, if_false]
          exact ⟨st, rfl, hP⟩)
  exact ⟨{ d with grid := st'.1 }, by rw [hfov, hP.1]⟩

/-- C10 witness: on a 2 × 2 grid whose cell `(1, 0)` is a wall, the
observer standing there sees only its own cell. -/
theorem c10_opaque_observer_sees_self_witness :
    ∃ d', compute_fov
      { width := 2, height := 2
        grid := [[{ type := TileType.floor }, { type := TileType.wall }],
                 [{ type := TileType.floor }, { type := TileType.floor }]] }
      1 0 3 = some (d', [(1, 0)]) :=
  c10_opaque_observer_sees_self _ 1 0 3 (by constructor <;> decide)
    (by decide) (by decide)

/-! ## C6, amended behaviour -/

theorem pyNat_some_of {len : Nat} {i : Int} (h1 : -(len : Int) ≤ i)
    (h2 : i < len) : ∃ n, pyNat len i = some n ∧ n < len := by
  unfold pyNat
  by_cases h : 0 ≤ i
  · rw [if_pos h, if_pos h2]
    exact ⟨i.toNat, rfl, by omega⟩
  · rw [if_neg h, if_pos (by omega)]
    exact ⟨(i + len).toNat, rfl, by omega⟩

theorem pyNat_none_of {len : Nat} {i : Int}
    (h : i < -(len : Int) ∨ (len : Int) ≤ i) : pyNat len i = none := by
  unfold pyNat
  rcases h with h | h
  · rw [if_neg (by omega), if_neg (by omega)]
  · rw [if_pos (by omega), if_neg (by omega)]

theorem modifyTile_some_of_range {W H : Nat} {g : List (List Tile)}
    (hlen : g.length = H) (hrows : ∀ row ∈ g, row.length = W)
    {x y : Int} (f : Tile → Tile)
    (hy1 : -(H : Int) ≤ y) (hy2 : y < H) (hx1 : -(W : Int) ≤ x) (hx2 : x < W) :
    ∃ g', modifyTile g x y f = some g' := by
  obtain ⟨ny, hny, hnylt⟩ := pyNat_some_of hy1 hy2
  have hrlen : (g.getD ny []).length = W := rect_rows hlen hrows ny hnylt
  obtain ⟨nx, hnx, hnxlt⟩ := pyNat_some_of hx1 hx2
  unfold modifyTile pyIdx pySet
  rw [hlen, hny]
  simp only [Option.some_bind]
  rw [get?_eq_some_getD [] ny g (by omega)]
  simp only [Option.some_bind]
  rw [hrlen, hnx]
  simp only [Option.some_bind]
  rw [get?_eq_some_getD ({} : Tile) nx _ (by omega)]
  simp only [Option.some_bind, Option.map_some']
  exact ⟨_, rfl⟩

theorem modifyTile_none_of_range {W H : Nat} {g : List (List Tile)}
    (hlen : g.length = H) (hrows : ∀ row ∈ g, row.length = W)
    {x y : Int} (f : Tile → Tile)
    (h : y < -(H : Int) ∨ (H : Int) ≤ y ∨ x < -(W : Int) ∨ (W : Int) ≤ x) :
    modifyTile g x y f = none := by
  by_cases hy : y < -(H : Int) ∨ (H : Int) ≤ y
  · unfold modifyTile pyIdx
    rw [hlen, pyNat_none_of hy]
    rfl
  · have hx : x < -(W : Int) ∨ (W : Int) ≤ x := by tauto
    push_neg at hy
    obtain ⟨ny, hny, hnylt⟩ :=
      @pyNat_some_of H y (by omega) (by omega)
    have hrlen : (g.getD ny []).length = W := rect_rows hlen hrows ny hnylt
    unfold modifyTile pyIdx
    rw [hlen, hny]
    simp only [Option.some_bind]
    rw [get?_eq_some_getD [] ny g (by omega)]
    simp only [Option.some_bind]
    rw [hrlen, pyNat_none_of hx]
    rfl

/-- C6, amended: `compute_fov` raises `IndexError` (modelled `none`)
exactly when the observer coordinates fall outside Python's indexable
range `[-width, width) × [-height, height)`; inside that range (negative
coordinates wrap to the far edge — nothing is clamped) it succeeds and
the returned visible set contains the raw observer pair. -/
theorem c6_fov_python_range (d : DState) (px py radius : Int)
    (hrect : d.Rect) :
    ((-(d.height : Int) ≤ py ∧ py < d.height ∧
      -(d.width : Int) ≤ px ∧ px < d.width) →
      ∃ d' s, compute_fov d px py radius = some (d', s) ∧ (px, py) ∈ s) ∧
    ((py < -(d.height : Int) ∨ (d.height : Int) ≤ py ∨
      px < -(d.width : Int) ∨ (d.width : Int) ≤ px) →
      compute_fov d px py radius = none) := by
  obtain ⟨hlen, hrows⟩ := hrect
  obtain ⟨hrlen, hrrows⟩ := resetVis_rect hlen hrows
  constructor
  · rintro ⟨h1, h2, h3, h4⟩
    obtain ⟨g1, hmt⟩ := modifyTile_some_of_range hrlen hrrows fovMark h1 h2 h3 h4
    obtain ⟨st', hfov, hP⟩ := compute_fov_fold d px py radius g1 hmt
      (fun st => (px, py) ∈ st.2) (by simp)
      (by
        intro st x y _ _ hP
        unfold fovCell
        split
        · exact ⟨st, rfl, hP⟩
        · have hsome := has_line_of_sight_isSome
            { width := d.width, height := d.height, grid := st.1 } px py x y
          cases hlos : has_line_of_sight
              { width := d.width, height := d.height, grid := st.1 } px py x y with
          | none => rw [hlos] at hsome; exact absurd hsome (by simp)
          | some sight =>
            simp only [Option.some_bind]
            cases sight
            · simp only [Bool.false_eq_true, if_false]
              exact ⟨st, rfl, hP⟩
            · simp only [if_true]
              exact ⟨_, rfl, insertPos_mem _ _ _ hP⟩)
    exact ⟨_, st'.2, hfov, hP⟩
  · intro h
    unfold compute_fov
    rw [modifyTile_none_of_range hrlen hrrows fovMark h]
    rfl

/-- C6 witness: on the 2 × 2 grid, observer `(-1, 0)` wraps and succeeds
with the raw pair in the returned set, while observer `(3, 0)` raises. -/
theorem c6_fov_python_range_witness :
    (∃ d' s, compute_fov c6D (-1) 0 1 = some (d', s) ∧
      ((-1 : Int), (0 : Int)) ∈ s) ∧
    compute_fov c6D 3 0 1 = none :=
  ⟨(c6_fov_python_range c6D (-1) 0 1 (by constructor <;> decide)).1 (by decide),
   (c6_fov_python_range c6D 3 0 1 (by constructor <;> decide)).2 (by decide)⟩

/-! ## C4 -/

theorem insertPos_not_mem {l : List Pos} {p q : Pos} (h : q ∉ l) (hne : q ≠ p) :
    q ∉ insertPos l p := by
  unfold insertPos
  split
  · exact h
  · intro hc
    rcases List.mem_append.mp hc with hc | hc
    · exact h hc
    · exact hne (by simpa using hc)

theorem is_transparent_false_of_wall {t : Tile} (h : t.type = TileType.wall) :
    t.is_transparent = false := by
  unfold Tile.is_transparent
  rw [h]

/-- C4: confirmed.  A target collinear with the observer and separated
from it by an in-bounds wall tile lying on the segment between them is
never part of the returned visible set, and its `visible` flag stays
false, for every radius. -/
theorem c4_occlusion (d : DState) (px py radius tx ty wx wy : Int)
    (hrect : d.Rect)
    (hobs : inBoundsB d.width d.height (px, py) = true)
    (htin : inBoundsB d.width d.height (tx, ty) = true)
    (hcol : (wx - px) * (ty - py) = (wy - py) * (tx - px))
    (hbx1 : min px tx ≤ wx) (hbx2 : wx ≤ max px tx)
    (hby1 : min py ty ≤ wy) (hby2 : wy ≤ max py ty)
    (hwne : ¬ (wx = tx ∧ wy = ty))
    (hwin : inBoundsB d.width d.height (wx, wy) = true)
    (hww : (tileAt d.grid wx.toNat wy.toNat).type = TileType.wall) :
    ∃ d' s, compute_fov d px py radius = some (d', s) ∧ (tx, ty) ∉ s ∧
      (tileAt d'.grid tx.toNat ty.toNat).visible = false := by
  obtain ⟨hlen, hrows⟩ := hrect
  obtain ⟨hrlen, hrrows⟩ := resetVis_rect hlen hrows
  have hbo : 0 ≤ px ∧ px < (d.width : Int) ∧ 0 ≤ py ∧ py < (d.height : Int) := by
    simpa [inBoundsB, and_assoc] using hobs
  have hbt : 0 ≤ tx ∧ tx < (d.width : Int) ∧ 0 ≤ ty ∧ ty < (d.height : Int) := by
    simpa [inBoundsB, and_assoc] using htin
  have hto : ¬ (tx = px ∧ ty = py) := by
    rintro ⟨h1, h2⟩
    apply hwne
    rw [h1] at hbx1 hbx2
    rw [h2] at hby1 hby2
    simp only [min_self, max_self] at hbx1 hbx2 hby1 hby2
    exact ⟨by omega, by omega⟩
  have hmt : modifyTile (resetVis d.grid) px py fovMark =
      some (gridModify (resetVis d.grid) px.toNat py.toNat fovMark) :=
    modifyTile_inbounds _ _ _ _ hbo.2.2.1 (by rw [hrlen]; omega) hbo.1
      (by rw [rect_rows hrlen hrrows py.toNat (by omega)]; omega)
  obtain ⟨st', hfov, hP⟩ := compute_fov_fold d px py radius _ hmt
    (fun st => ((tx, ty) ∉ st.2) ∧
      (tileAt st.1 tx.toNat ty.toNat).visible = false ∧
      ∀ a b : Nat, (tileAt st.1 a b).type = (tileAt d.grid a b).type)
    (by
      refine ⟨?_, ?_, type_after_obs_mark d.grid px.toNat py.toNat⟩
      · intro hc
        rcases List.mem_singleton.mp hc with hc
        exact hto ⟨congrArg Prod.fst hc, congrArg Prod.snd hc⟩
      · rw [tileAt_gridModify]
        split
        · rename_i hcond
          exact absurd ⟨by omega, by omega⟩ hto
        · rw [tileAt_reset])
    (by
      intro st x y hx hy hP
      obtain ⟨hx1, hx2⟩ := intRange_mem hx
      obtain ⟨hy1', hy2'⟩ := intRange_mem hy
      have hx0 : 0 ≤ x := le_trans (le_max_left 0 _) hx1
      have hy0 : 0 ≤ y := le_trans (le_max_left 0 _) hy1'
      unfold fovCell
      split
      · exact ⟨st, rfl, hP⟩
      · by_cases hxy : x = tx ∧ y = ty
        · obtain ⟨hcx, hcy⟩ := hxy
          subst hcx; subst hcy
          rw [has_line_of_sight_wall_blocked
            { width := d.width, height := d.height, grid := st.1 }
            px py x y wx wy hcol hbx1 hbx2 hby1 hby2 hwne hwin
            (by
              rw [is_transparent_congr (hP.2.2 wx.toNat wy.toNat)]
              exact is_transparent_false_of_wall hww)]
          simp only [Option.some_bind, Bool.false_eq_true, if_false]
          exact ⟨st, rfl, hP⟩
        · have hsome := has_line_of_sight_isSome
            { width := d.width, height := d.height, grid := st.1 } px py x y
          cases hlos : has_line_of_sight
              { width := d.width, height := d.height, grid := st.1 } px py x y with
          | none => rw [hlos] at hsome; exact absurd hsome (by simp)
          | some sight =>
            simp only [Option.some_bind]
            cases sight
            · simp only [Bool.false_eq_true, if_false]
              exact ⟨st, rfl, hP⟩
            · simp only [if_true]
              refine ⟨_, rfl, ?_, ?_, ?_⟩
              · exact insertPos_not_mem hP.1
                  (fun hc => hxy ⟨(congrArg Prod.fst hc).symm,
                    (congrArg Prod.snd hc).symm⟩)
              · rw [tileAt_gridModify]
                split
                · rename_i hcond
                  exact absurd ⟨by omega, by omega⟩
                    (fun hc => hxy hc)
                · exact hP.2.1
              · intro a b
                rw [tileAt_gridModify]
                split
                · rw [fovMark_type, hP.2.2 a b]
                · exact hP.2.2 a b)
  exact ⟨{ d with grid := st'.1 }, st'.2, hfov, hP.1, hP.2.1⟩

/-- C4 witness: on a 3 × 1 strip floor–wall–floor, the cell behind the
wall is not visible from the left end. -/
theorem c4_occlusion_witness :
    ∃ d' s, compute_fov
      { width := 3, height := 1
        grid := [[{ type := TileType.floor }, { type := TileType.wall },
                  { type := TileType.floor }]] } 0 0 8 = some (d', s) ∧
      ((2 : Int), (0 : Int)) ∉ s ∧
      (tileAt d'.grid (2 : Int).toNat (0 : Int).toNat).visible = false :=
  c4_occlusion _ 0 0 8 2 0 1 0 (by constructor <;> decide) (by decide)
    (by decide) (by decide) (by decide) (by decide) (by decide) (by decide)
    (by decide) (by decide) (by decide)

/-! ## C3 -/

/-- A sequence of `compute_fov` calls `(x, y, radius)`, threading the
grid state; a raised exception aborts the sequence. -/
def applyCalls (d : DState) : List (Int × Int × Int) → Option DState
  | [] => some d
  | c :: rest => (compute_fov d c.1 c.2.1 c.2.2).bind fun r => applyCalls r.1 rest

/-- Pointwise monotonicity of the `explored` flags. -/
def ExplMono (g g' : List (List Tile)) : Prop :=
  ∀ x y : Nat, (tileAt g x y).explored = true → (tileAt g' x y).explored = true

theorem explMono_refl (g : List (List Tile)) : ExplMono g g := fun _ _ h => h

theorem explMono_trans {g1 g2 g3 : List (List Tile)}
    (h12 : ExplMono g1 g2) (h23 : ExplMono g2 g3) : ExplMono g1 g3 :=
  fun x y h => h23 x y (h12 x y h)

theorem explMono_reset (g : List (List Tile)) : ExplMono g (resetVis g) := by
  intro x y h
  rw [tileAt_reset]
  exact h

theorem explMono_gridModify (g : List (List Tile)) (x y : Nat) (f : Tile → Tile)
    (hf : ∀ t, t.explored = true → (f t).explored = true) :
    ExplMono g (gridModify g x y f) := by
  intro a b h
  rw [tileAt_gridModify]
  split
  · exact hf _ h
  · exact h

/-- One `compute_fov` call only ever raises `explored` flags. -/
theorem compute_fov_explMono {d : DState} {px py r : Int} {d' : DState}
    {s : List Pos} (h : compute_fov d px py r = some (d', s)) :
    ExplMono d.grid d'.grid := by
  unfold compute_fov at h
  cases hmt : modifyTile (resetVis d.grid) px py fovMark with
  | none => rw [hmt] at h; exact absurd h (by simp)
  | some g1 =>
    rw [hmt] at h
    simp only [Option.some_bind] at h
    obtain ⟨nx, ny, _, _, hg1⟩ := modifyTile_some_inv hmt
    have h01 : ExplMono d.grid g1 := by
      rw [hg1]
      exact explMono_trans (explMono_reset d.grid)
        (explMono_gridModify _ _ _ _ (fun t _ => by simp [fovMark]))
    cases hfold : (intRange (max 0 (py - r)) (min (d.height : Int) (py + r + 1))).foldlM
        (fun st y => (intRange (max 0 (px - r))
            (min (d.width : Int) (px + r + 1))).foldlM
          (fun st x => fovCell d px py r st x y) st)
        (g1, [(px, py)]) with
    | none => rw [hfold] at h; exact absurd h (by simp)
    | some st' =>
      rw [hfold] at h
      simp only [Option.map_some'] at h
      have hgrid : d'.grid = st'.1 := by
        have := (Prod.mk.injEq _ _ _ _).mp (Option.some.inj h)
        rw [← this.1]
      have hfoldmono : ExplMono g1 st'.1 := by
        have := foldlM_option_rel (fun a b => ExplMono a.1 b.1)
          (fun b => explMono_refl b.1)
          (fun a b c hab hbc => by exact explMono_trans hab hbc)
          _ _ _ st' hfold
          (fun st e st'' _ hstep =>
            foldlM_option_rel (fun a b => ExplMono a.1 b.1)
              (fun b => explMono_refl b.1)
              (fun a b c hab hbc => by exact explMono_trans hab hbc)
              _ _ _ st'' hstep
              (fun st2 e2 st2' _ hcell => by
                rcases fovCell_inv hcell with h | h
                · rw [h]; exact explMono_refl _
                · rw [h]
                  exact explMono_gridModify _ _ _ _
                    (fun t _ => by simp [fovMark])))
        exact this
      rw [hgrid]
      exact explMono_trans h01 hfoldmono

theorem applyCalls_explMono {calls : List (Int × Int × Int)} :
    ∀ {d d' : DState}, applyCalls d calls = some d' →
      ExplMono d.grid d'.grid := by
  induction calls with
  | nil =>
    intro d d' h
    unfold applyCalls at h
    cases Option.some.inj h
    exact explMono_refl _
  | cons c rest ih =>
    intro d d' h
    unfold applyCalls at h
    cases hfov : compute_fov d c.1 c.2.1 c.2.2 with
    | none => rw [hfov] at h; exact absurd h (by simp)
    | some r =>
      rw [hfov] at h
      simp only [Option.some_bind] at h
      exact explMono_trans (compute_fov_explMono hfov) (ih h)

/-- C3: confirmed.  Across any sequence of `compute_fov` calls, a tile
once explored remains explored: every call only resets `visible` flags
and only ever sets `explored` to true. -/
theorem c3_explored_monotone (d : DState) (calls : List (Int × Int × Int))
    (d' : DState) (h : applyCalls d calls = some d') (x y : Nat)
    (hexp : (tileAt d.grid x y).explored = true) :
    (tileAt d'.grid x y).explored = true :=
  applyCalls_explMono h x y hexp

/-- C3 witness: a 2 × 2 floor grid whose corner is already explored
keeps it explored across two observer moves. -/
theorem c3_explored_monotone_witness :
    ∃ d', applyCalls
      { width := 2, height := 2
        grid := [[{ type := TileType.floor, explored := true },
                  { type := TileType.floor }],
                 [{ type := TileType.floor }, { type := TileType.floor }]] }
      [(1, 1, 2), (0, 1, 2)] = some d' ∧
      (tileAt d'.grid 0 0).explored = true := by
  cases hap : applyCalls
      { width := 2, height := 2
        grid := [[{ type := TileType.floor, explored := true },
                  { type := TileType.floor }],
                 [{ type := TileType.floor }, { type := TileType.floor }]] }
      [(1, 1, 2), (0, 1, 2)] with
  | none => exact absurd hap (by decide)
  | some dd =>
    exact ⟨dd, rfl, c3_explored_monotone _ _ dd hap 0 0 (by decide)⟩

/-! ## C9 -/

/-- Overwrite one cell of a walkability mask (in-bounds nonnegative
coordinates). -/
def setCellB (g : List (List Bool)) (p : Pos) (b : Bool) : List (List Bool) :=
  listModify (fun row => listModify (fun _ => b) p.1.toNat row) p.2.toNat g

theorem setCellB_gridHeight (g : List (List Bool)) (p : Pos) (b : Bool) :
    gridHeight (setCellB g p b) = gridHeight g := by
  unfold gridHeight setCellB
  exact listModify_length _ _ _

theorem setCellB_gridWidth (g : List (List Bool)) (p : Pos) (b : Bool) :
    gridWidth (setCellB g p b) = gridWidth g := by
  unfold gridWidth setCellB
  cases g with
  | nil => cases p.2.toNat <;> rfl
  | cons row rest =>
    cases hp : p.2.toNat with
    | zero => simp [listModify, listModify_length]
    | succ n => simp [listModify]

theorem walkAt_setCellB_ne (g : List (List Bool)) (p q : Pos) (b : Bool)
    (hp : 0 ≤ p.1 ∧ 0 ≤ p.2) (hq : 0 ≤ q.1 ∧ 0 ≤ q.2) (hne : q ≠ p) :
    walkAt (setCellB g p b) q = walkAt g q := by
  unfold walkAt setCellB
  have hcoord : p.2.toNat ≠ q.2.toNat ∨ p.1.toNat ≠ q.1.toNat := by
    by_contra hc
    push_neg at hc
    exact hne (Prod.ext (by omega) (by omega))
  rw [getD_listModify]
  rcases hcoord with h | h
  · rw [if_neg (fun hc => h hc.1)]
  · split
    · rw [getD_listModify, if_neg (fun hc => h hc.1)]
    · rfl

theorem relax_eq (grid : List (List Bool)) (W H : Nat) (goal cur : Pos)
    (gc : Nat) (st : AState) (d : Pos) :
    relax grid W H goal cur gc st d =
      if ¬ inBoundsB W H (cur.1 + d.1, cur.2 + d.2) then st
      else if ¬ walkAt grid (cur.1 + d.1, cur.2 + d.2) ∨
          (cur.1 + d.1, cur.2 + d.2) ∈ st.closedSet then st
      else if (match alookup st.gScore (cur.1 + d.1, cur.2 + d.2) with
               | none => true
               | some gn => decide (gc + 1 < gn)) then
        { st with
          cameFrom := aupdate st.cameFrom (cur.1 + d.1, cur.2 + d.2) cur
          gScore := aupdate st.gScore (cur.1 + d.1, cur.2 + d.2) (gc + 1)
          fScore := aupdate st.fScore (cur.1 + d.1, cur.2 + d.2)
            (gc + 1 + heuristic (cur.1 + d.1, cur.2 + d.2) goal)
          openSet :=
            if (cur.1 + d.1, cur.2 + d.2) ∈ st.openSet.map Prod.snd then
              st.openSet
            else st.openSet ++
              [(gc + 1 + heuristic (cur.1 + d.1, cur.2 + d.2) goal,
                (cur.1 + d.1, cur.2 + d.2))] }
      else st := rfl

theorem relax_closedSet (grid : List (List Bool)) (W H : Nat) (goal cur : Pos)
    (gc : Nat) (st : AState) (d : Pos) :
    (relax grid W H goal cur gc st d).closedSet = st.closedSet := by
  rw [relax_eq]
  split
  · rfl
  · split
    · rfl
    · split
      · rfl
      · rfl

theorem relax_congr (g1 g2 : List (List Bool)) (W H : Nat) (goal cur s : Pos)
    (gc : Nat) (st : AState) (d : Pos)
    (hw : ∀ n : Pos, inBoundsB W H n = true → n ≠ s → walkAt g1 n = walkAt g2 n)
    (hcur : s ∈ st.closedSet ∨ cur = s) (hd : d ≠ ((0 : Int), (0 : Int))) :
    relax g1 W H goal cur gc st d = relax g2 W H goal cur gc st d := by
  rw [relax_eq, relax_eq]
  by_cases hb : inBoundsB W H (cur.1 + d.1, cur.2 + d.2) = true
  · rw [if_neg (not_not_intro hb), if_neg (not_not_intro hb)]
    by_cases hn : (cur.1 + d.1, cur.2 + d.2) = s
    · have hsl : s ∈ st.closedSet := by
        rcases hcur with h | h
        · exact h
        · exfalso
          apply hd
          have h1 : cur.1 + d.1 = s.1 := congrArg Prod.fst hn
          have h2 : cur.2 + d.2 = s.2 := congrArg Prod.snd hn
          rw [h] at h1 h2
          exact Prod.ext (by omega) (by omega)
      have hmem : (cur.1 + d.1, cur.2 + d.2) ∈ st.closedSet := hn ▸ hsl
      have hc1 : ¬ walkAt g1 (cur.1 + d.1, cur.2 + d.2) = true ∨
          (cur.1 + d.1, cur.2 + d.2) ∈ st.closedSet := Or.inr hmem
      have hc2 : ¬ walkAt g2 (cur.1 + d.1, cur.2 + d.2) = true ∨
          (cur.1 + d.1, cur.2 + d.2) ∈ st.closedSet := Or.inr hmem
      rw [if_pos hc1, if_pos hc2]
    · rw [hw (cur.1 + d.1, cur.2 + d.2) hb hn]
  · rw [if_pos hb, if_pos hb]

theorem relaxFold_congr (g1 g2 : List (List Bool)) (W H : Nat) (goal cur s : Pos)
    (gc : Nat)
    (hw : ∀ n : Pos, inBoundsB W H n = true → n ≠ s → walkAt g1 n = walkAt g2 n) :
    ∀ (l : List Pos), (∀ d ∈ l, d ≠ ((0 : Int), (0 : Int))) →
      ∀ (st : AState), (s ∈ st.closedSet ∨ cur = s) →
      l.foldl (relax g1 W H goal cur gc) st = l.foldl (relax g2 W H goal cur gc) st
  | [], _, st, _ => rfl
  | d :: t, hl, st, hcur => by
    simp only [List.foldl_cons]
    rw [relax_congr g1 g2 W H goal cur s gc st d hw hcur (hl d (by simp))]
    exact relaxFold_congr g1 g2 W H goal cur s gc hw t
      (fun d' hd' => hl d' (by simp [hd'])) _
      (by rw [relax_closedSet]; exact hcur)

theorem relaxFold_closedSet (grid : List (List Bool)) (W H : Nat)
    (goal cur : Pos) (gc : Nat) :
    ∀ (l : List Pos) (st : AState),
      (l.foldl (relax grid W H goal cur gc) st).closedSet = st.closedSet
  | [], _ => rfl
  | d :: t, st => by
    simp only [List.foldl_cons]
    rw [relaxFold_closedSet grid W H goal cur gc t, relax_closedSet]

theorem astarLoop_congr (g1 g2 : List (List Bool)) (W H : Nat) (goal s : Pos)
    (hw : ∀ n : Pos, inBoundsB W H n = true → n ≠ s → walkAt g1 n = walkAt g2 n) :
    ∀ (fuel : Nat) (st : AState), s ∈ st.closedSet →
      astarLoop g1 W H goal fuel st = astarLoop g2 W H goal fuel st
  | 0, _, _ => rfl
  | fuel + 1, st, hs => by
    rw [astarLoop, astarLoop]
    cases hpop : popMin st.openSet with
    | none => rfl
    | some er =>
      by_cases hg : er.1.2 = goal
      · simp only [hg, eq_self_iff_true, if_true]
      · simp only [if_neg hg]
        rw [relaxFold_congr g1 g2 W H goal er.1.2 s
          ((alookup st.gScore er.1.2).getD 0) hw directions (by decide)
          { openSet := er.2, closedSet := er.1.2 :: st.closedSet,
            gScore := st.gScore, fScore := st.fScore, cameFrom := st.cameFrom }
          (Or.inl (List.mem_cons_of_mem _ hs))]
        exact astarLoop_congr g1 g2 W H goal s hw fuel _
          (by rw [relaxFold_closedSet]; exact List.mem_cons_of_mem _ hs)

theorem astar_eq (grid : List (List Bool)) (start goal : Pos) :
    astar grid start goal =
      if ¬ inBoundsB (gridWidth grid) (gridHeight grid) start ∨
          ¬ inBoundsB (gridWidth grid) (gridHeight grid) goal then some []
      else if start = goal then some [start]
      else if ¬ walkAt grid goal then some []
      else
        astarLoop grid (gridWidth grid) (gridHeight grid) goal
          (astarFuel (gridWidth grid) (gridHeight grid))
          { openSet := [(heuristic start goal, start)]
            closedSet := []
            gScore := [(start, 0)]
            fScore := [(start, heuristic start goal)]
            cameFrom := [] } := rfl

/-- C9: confirmed.  `astar` never consults the walkability of the start
cell when `start ≠ goal`: flipping that cell's value changes nothing
(the start is closed after the first expansion, so the one read that can
touch it is short-circuited by the closed-set test), and in particular a
path returned from a non-walkable start exists. -/
theorem c9_start_walkability_ignored :
    (∀ (grid : List (List Bool)) (s g : Pos) (b : Bool), s ≠ g →
      astar grid s g = astar (setCellB grid s b) s g) ∧
    walkAt c9Grid (0, 0) = false ∧
    astar c9Grid (0, 0) (2, 0) = some [(0, 0), (1, 0), (2, 0)] := by
  refine ⟨?_, by decide, by decide⟩
  intro grid s g b hsg
  rw [astar_eq, astar_eq, setCellB_gridWidth, setCellB_gridHeight]
  by_cases hbs : inBoundsB (gridWidth grid) (gridHeight grid) s = true
  · by_cases hbg : inBoundsB (gridWidth grid) (gridHeight grid) g = true
    · have hcb : ¬ (¬ inBoundsB (gridWidth grid) (gridHeight grid) s = true ∨
          ¬ inBoundsB (gridWidth grid) (gridHeight grid) g = true) := by
        simp [hbs, hbg]
      rw [if_neg hcb, if_neg hcb, if_neg hsg, if_neg hsg]
      have hnn : 0 ≤ s.1 ∧ 0 ≤ s.2 := by
        have := hbs
        simp only [inBoundsB, Bool.and_eq_true, decide_eq_true_eq] at this
        exact ⟨this.1.1.1, this.1.2⟩
      have hgn : 0 ≤ g.1 ∧ 0 ≤ g.2 := by
        have := hbg
        simp only [inBoundsB, Bool.and_eq_true, decide_eq_true_eq] at this
        exact ⟨this.1.1.1, this.1.2⟩
      rw [walkAt_setCellB_ne grid s g b hnn hgn (Ne.symm hsg)]
      by_cases hwg : walkAt grid g = true
      · rw [if_neg (not_not_intro hwg), if_neg (not_not_intro hwg)]
        have hw : ∀ n : Pos,
            inBoundsB (gridWidth grid) (gridHeight grid) n = true → n ≠ s →
            walkAt grid n = walkAt (setCellB grid s b) n := by
          intro n hb hn
          have hnb : 0 ≤ n.1 ∧ 0 ≤ n.2 := by
            have := hb
            simp only [inBoundsB, Bool.and_eq_true, decide_eq_true_eq] at this
            exact ⟨this.1.1.1, this.1.2⟩
          exact (walkAt_setCellB_ne grid s n b hnn hnb hn).symm
        have hstep : ∀ (gr : List (List Bool)) (fuel : Nat),
            astarLoop gr (gridWidth grid) (gridHeight grid) g (fuel + 1)
              { openSet := [(heuristic s g, s)], closedSet := [],
                gScore := [(s, 0)], fScore := [(s, heuristic s g)],
                cameFrom := [] } =
            if s = g then reconstruct [] 1 s [s]
            else
              astarLoop gr (gridWidth grid) (gridHeight grid) g fuel
                (directions.foldl
                  (relax gr (gridWidth grid) (gridHeight grid) g s
                    ((alookup [((s : Pos), (0 : Nat))] s).getD 0))
                  { openSet := [], closedSet := [s], gScore := [(s, 0)],
                    fScore := [(s, heuristic s g)], cameFrom := [] }) :=
          fun _ _ => rfl
        rw [show astarFuel (gridWidth grid) (gridHeight grid) =
            (5 * (gridWidth grid * gridHeight grid) + 5) + 1 from rfl,
          hstep, hstep, if_neg hsg, if_neg hsg]
        rw [relaxFold_congr grid (setCellB grid s b) (gridWidth grid)
          (gridHeight grid) g s s ((alookup [((s : Pos), (0 : Nat))] s).getD 0)
          hw directions (by decide)
          { openSet := [], closedSet := [s], gScore := [(s, 0)],
            fScore := [(s, heuristic s g)], cameFrom := [] }
          (Or.inr rfl)]
        exact astarLoop_congr grid (setCellB grid s b) (gridWidth grid)
          (gridHeight grid) g s hw _ _
          (by rw [relaxFold_closedSet]; exact List.mem_cons_self _ _)
      · rw [if_pos hwg, if_pos hwg]
    · rw [if_pos (Or.inr hbg), if_pos (Or.inr hbg)]
  · rw [if_pos (Or.inl hbs), if_pos (Or.inl hbs)]

/-- C9 witness: flipping the (non-walkable) start cell of `c9Grid` to
walkable leaves the returned path unchanged. -/
theorem c9_start_walkability_ignored_witness :
    astar c9Grid (0, 0) (2, 0) =
      astar (setCellB c9Grid (0, 0) true) (0, 0) (2, 0) :=
  c9_start_walkability_ignored.1 c9Grid (0, 0) (2, 0) true (by decide)

/-! ## C7, amended behaviour

The claim's `is_position_valid` and `astar` parts hold; the
line-of-sight part does not: the walk steps over an out-of-bounds cell
without blocking (the bounds conjunct short-circuits the opacity test),
so out-of-range cells act transparent, not opaque.  The `astar` part
needs an in-bounds invariant of the loop state: every position in the
open set and every parent recorded in `came_from` passed the explicit
neighbour bounds check, so a returned path contains only in-bounds
cells. -/

theorem alookup_mem {α : Type} (p : Pos) (v : α) :
    ∀ l : List (Pos × α), alookup l p = some v → (p, v) ∈ l
  | [] => by intro h; exact absurd h (by simp [alookup])
  | (k, w) :: t => by
    intro h
    rw [alookup] at h
    by_cases hk : k = p
    · rw [if_pos hk] at h
      injection h with hv
      rw [← hk, ← hv]
      exact List.mem_cons_self _ _
    · rw [if_neg hk] at h
      exact List.mem_cons_of_mem _ (alookup_mem p v t h)

theorem aupdate_mem {α : Type} (p : Pos) (v : α) (kv : Pos × α) :
    ∀ l : List (Pos × α), kv ∈ aupdate l p v → kv = (p, v) ∨ kv ∈ l
  | [] => by
    intro h
    rw [aupdate] at h
    exact Or.inl (List.mem_singleton.mp h)
  | (k, w) :: t => by
    intro h
    rw [aupdate] at h
    by_cases hk : k = p
    · rw [if_pos hk] at h
      rcases List.mem_cons.mp h with h' | h'
      · exact Or.inl h'
      · exact Or.inr (List.mem_cons_of_mem _ h')
    · rw [if_neg hk] at h
      rcases List.mem_cons.mp h with h' | h'
      · exact Or.inr (h' ▸ List.mem_cons_self _ _)
      · rcases aupdate_mem p v kv t h' with h'' | h''
        · exact Or.inl h''
        · exact Or.inr (List.mem_cons_of_mem _ h'')

theorem popMin_mem :
    ∀ (l : List (Nat × Pos)) (e : Nat × Pos) (rest : List (Nat × Pos)),
      popMin l = some (e, rest) → e ∈ l ∧ ∀ x ∈ rest, x ∈ l
  | [], _, _, h => absurd h (by simp [popMin])
  | a :: t, e, rest, h => by
    rw [popMin] at h
    cases hp : popMin t with
    | none =>
      rw [hp] at h
      injection h with h'
      have h1 : a = e := congrArg Prod.fst h'
      have h2 : ([] : List (Nat × Pos)) = rest := congrArg Prod.snd h'
      subst h1
      subst h2
      exact ⟨List.mem_cons_self _ _, by simp⟩
    | some mr =>
      obtain ⟨m, r⟩ := mr
      rw [hp] at h
      dsimp only at h
      obtain ⟨ht1, ht2⟩ := popMin_mem t m r hp
      by_cases hle : entryLe a m = true
      · rw [if_pos hle] at h
        injection h with h'
        have h1 : a = e := congrArg Prod.fst h'
        have h2 : t = rest := congrArg Prod.snd h'
        subst h1
        subst h2
        exact ⟨List.mem_cons_self _ _, fun x hx => List.mem_cons_of_mem _ hx⟩
      · rw [if_neg hle] at h
        injection h with h'
        have h1 : m = e := congrArg Prod.fst h'
        have h2 : a :: r = rest := congrArg Prod.snd h'
        subst h1
        subst h2
        refine ⟨List.mem_cons_of_mem _ ht1, fun x hx => ?_⟩
        rcases List.mem_cons.mp hx with h'' | h''
        · exact h'' ▸ List.mem_cons_self _ _
        · exact List.mem_cons_of_mem _ (ht2 x h'')

theorem reconstruct_pred (P : Pos → Prop) (cameFrom : List (Pos × Pos))
    (hcf : ∀ kv ∈ cameFrom, P kv.2) :
    ∀ (fuel : Nat) (current : Pos) (acc l : List Pos),
      (∀ p ∈ acc, P p) →
      reconstruct cameFrom fuel current acc = some l → ∀ p ∈ l, P p
  | 0, _, _, _, _, h => absurd h (by simp [reconstruct])
  | fuel + 1, current, acc, l, hacc, h => by
    rw [reconstruct] at h
    cases hl : alookup cameFrom current with
    | some prev =>
      rw [hl] at h
      refine reconstruct_pred P cameFrom hcf fuel prev (prev :: acc) l
        (fun p hp => ?_) h
      rcases List.mem_cons.mp hp with h' | h'
      · exact h' ▸ hcf _ (alookup_mem current prev cameFrom hl)
      · exact hacc p h'
    | none =>
      rw [hl] at h
      injection h with h'
      exact h' ▸ hacc

theorem relax_inb (grid : List (List Bool)) (W H : Nat) (goal cur : Pos)
    (gc : Nat) (st : AState) (d : Pos) (hcur : inBoundsB W H cur = true)
    (hopen : ∀ e ∈ st.openSet, inBoundsB W H e.2 = true)
    (hcf : ∀ kv ∈ st.cameFrom, inBoundsB W H kv.2 = true) :
    (∀ e ∈ (relax grid W H goal cur gc st d).openSet,
        inBoundsB W H e.2 = true) ∧
    (∀ kv ∈ (relax grid W H goal cur gc st d).cameFrom,
        inBoundsB W H kv.2 = true) := by
  rw [relax_eq]
  by_cases hb : inBoundsB W H (cur.1 + d.1, cur.2 + d.2) = true
  · rw [if_neg (not_not_intro hb)]
    split
    · exact ⟨hopen, hcf⟩
    · split
      · constructor
        · intro e he
          dsimp only at he
          split at he
          · exact hopen e he
          · rcases List.mem_append.mp he with h' | h'
            · exact hopen e h'
            · rw [List.mem_singleton.mp h']
              exact hb
        · intro kv hkv
          dsimp only at hkv
          rcases aupdate_mem _ cur kv st.cameFrom hkv with h' | h'
          · rw [h']
            exact hcur
          · exact hcf kv h'
      · exact ⟨hopen, hcf⟩
  · rw [if_pos hb]
    exact ⟨hopen, hcf⟩

theorem relaxFold_inb (grid : List (List Bool)) (W H : Nat) (goal cur : Pos)
    (gc : Nat) (hcur : inBoundsB W H cur = true) :
    ∀ (l : List Pos) (st : AState),
      (∀ e ∈ st.openSet, inBoundsB W H e.2 = true) →
      (∀ kv ∈ st.cameFrom, inBoundsB W H kv.2 = true) →
      (∀ e ∈ (l.foldl (relax grid W H goal cur gc) st).openSet,
          inBoundsB W H e.2 = true) ∧
      (∀ kv ∈ (l.foldl (relax grid W H goal cur gc) st).cameFrom,
          inBoundsB W H kv.2 = true)
  | [], _, hopen, hcf => ⟨hopen, hcf⟩
  | d :: t, st, hopen, hcf => by
    simp only [List.foldl_cons]
    obtain ⟨h1, h2⟩ := relax_inb grid W H goal cur gc st d hcur hopen hcf
    exact relaxFold_inb grid W H goal cur gc hcur t _ h1 h2

theorem astarLoop_inb (grid : List (List Bool)) (W H : Nat) (goal : Pos) :
    ∀ (fuel : Nat) (st : AState) (l : List Pos),
      (∀ e ∈ st.openSet, inBoundsB W H e.2 = true) →
      (∀ kv ∈ st.cameFrom, inBoundsB W H kv.2 = true) →
      astarLoop grid W H goal fuel st = some l →
      ∀ p ∈ l, inBoundsB W H p = true
  | 0, _, _, _, _, h => absurd h (by simp [astarLoop])
  | fuel + 1, st, l, hopen, hcf, h => by
    rw [astarLoop] at h
    cases hpop : popMin st.openSet with
    | none =>
      rw [hpop] at h
      injection h with h'
      intro p hp
      rw [← h'] at hp
      exact absurd hp (List.not_mem_nil p)
    | some er =>
      obtain ⟨e, rest⟩ := er
      rw [hpop] at h
      dsimp only at h
      have hein : inBoundsB W H e.2 = true :=
        hopen e (popMin_mem st.openSet e rest hpop).1
      by_cases hg : e.2 = goal
      · rw [if_pos hg] at h
        refine reconstruct_pred (fun p => inBoundsB W H p = true) st.cameFrom
          hcf _ _ _ l (fun p hp => ?_) h
        rw [List.mem_singleton.mp hp]
        exact hein
      · rw [if_neg hg] at h
        obtain ⟨h1, h2⟩ := relaxFold_inb grid W H goal e.2
          ((alookup st.gScore e.2).getD 0) hein directions
          { st with openSet := rest, closedSet := e.2 :: st.closedSet }
          (fun x hx => hopen x ((popMin_mem st.openSet e rest hpop).2 x hx))
          hcf
        exact astarLoop_inb grid W H goal fuel _ l h1 h2 h

theorem astar_path_inbounds (grid : List (List Bool)) (s g : Pos)
    (l : List Pos) (h : astar grid s g = some l) :
    ∀ p ∈ l, inBoundsB (gridWidth grid) (gridHeight grid) p = true := by
  rw [astar_eq] at h
  by_cases hb : (¬ inBoundsB (gridWidth grid) (gridHeight grid) s = true ∨
      ¬ inBoundsB (gridWidth grid) (gridHeight grid) g = true)
  · rw [if_pos hb] at h
    injection h with h'
    intro p hp
    rw [← h'] at hp
    exact absurd hp (List.not_mem_nil p)
  · rw [if_neg hb] at h
    push_neg at hb
    obtain ⟨hbs, hbg⟩ := hb
    by_cases hsg : s = g
    · rw [if_pos hsg] at h
      injection h with h'
      intro p hp
      rw [← h'] at hp
      rw [List.mem_singleton.mp hp]
      exact hbs
    · rw [if_neg hsg] at h
      by_cases hwg : ¬ walkAt grid g = true
      · rw [if_pos hwg] at h
        injection h with h'
        intro p hp
        rw [← h'] at hp
        exact absurd hp (List.not_mem_nil p)
      · rw [if_neg hwg] at h
        refine astarLoop_inb grid (gridWidth grid) (gridHeight grid) g _ _ l
          (fun e he => ?_) (fun kv hkv => absurd hkv (List.not_mem_nil kv)) h
        rw [List.mem_singleton.mp he]
        exact hbs

/-- C7: corrected.  Out-of-bounds coordinates are rejected by
`is_position_valid` and never appear in a path returned by `astar`
(both as the claim says), but the line-of-sight walk does not treat
them as opaque: an out-of-bounds current cell that is not the target is
stepped over without blocking, whatever the grid holds there, so
out-of-range cells act transparent to sight. -/
theorem c7_oob_treatment :
    (∀ (d : DState) (x y : Int),
        inBoundsB d.width d.height (x, y) = false →
        is_position_valid d x y = false) ∧
    (∀ (grid : List (List Bool)) (s g : Pos) (l : List Pos),
        astar grid s g = some l →
        ∀ p ∈ l, inBoundsB (gridWidth grid) (gridHeight grid) p = true) ∧
    (∀ (g : List (List Tile)) (W H : Nat) (x1 y1 dx dy sx sy : Int)
        (fuel : Nat) (s : LosState),
        ¬ inBoundsB W H (s.x, s.y) = true → ¬ (s.x = x1 ∧ s.y = y1) →
        losWalk g W H x1 y1 dx dy sx sy (fuel + 1) s =
          losWalk g W H x1 y1 dx dy sx sy fuel (losStep dx dy sx sy s)) := by
  refine ⟨?_, astar_path_inbounds, ?_⟩
  · intro d x y h
    simp [is_position_valid, h]
  · intro g W H x1 y1 dx dy sx sy fuel s hoob hne
    rw [losWalk, if_neg hne, if_neg fun hc => hoob hc.1]

/-- C7 witness: a concrete out-of-bounds rejection by
`is_position_valid`, an in-bounds `astar` path, and one blocking-free
out-of-bounds step of the sight walk. -/
theorem c7_oob_treatment_witness :
    is_position_valid c7D (-1) 0 = false ∧
    (∀ p ∈ ([(0, 0), (1, 0), (2, 0)] : List Pos),
        inBoundsB (gridWidth c9Grid) (gridHeight c9Grid) p = true) ∧
    losWalk c7D.grid c7D.width c7D.height 1 0 3 0 1 1 3
        { x := -2, y := 0, err := 3 } =
      losWalk c7D.grid c7D.width c7D.height 1 0 3 0 1 1 2
        (losStep 3 0 1 1 { x := -2, y := 0, err := 3 }) :=
  ⟨c7_oob_treatment.1 c7D (-1) 0 (by decide),
   c7_oob_treatment.2.1 c9Grid (0, 0) (2, 0) [(0, 0), (1, 0), (2, 0)]
     (by decide),
   c7_oob_treatment.2.2 c7D.grid c7D.width c7D.height 1 0 3 0 1 1 2
     { x := -2, y := 0, err := 3 } (by decide) (by decide)⟩

/-! ## C1: completeness of `astar`

The claim needs that `astar` returns a non-empty path whenever the goal
is reachable; the suboptimality bug (C2) does not affect this.  The
development: heap-pop facts, dictionary-update facts, the
`came_from`/`g_score` chain structure that makes `reconstruct`
terminate, the loop-state invariants, a decreasing measure that fits
the fuel `astarFuel`, and the frontier property that rules out open-set
exhaustion while a reachable goal is unexpanded. -/

theorem popMin_none : ∀ l : List (Nat × Pos), popMin l = none → l = []
  | [], _ => rfl
  | a :: t, h => by
    rw [popMin] at h
    cases hp : popMin t with
    | none =>
      rw [hp] at h
      exact absurd h (by simp)
    | some mr =>
      obtain ⟨m, r⟩ := mr
      rw [hp] at h
      dsimp only at h
      by_cases hle : entryLe a m = true
      · rw [if_pos hle] at h
        exact absurd h (by simp)
      · rw [if_neg hle] at h
        exact absurd h (by simp)

theorem popMin_perm : ∀ (l : List (Nat × Pos)) (e : Nat × Pos)
    (rest : List (Nat × Pos)), popMin l = some (e, rest) →
    l.Perm (e :: rest)
  | [], _, _, h => absurd h (by simp [popMin])
  | a :: t, e, rest, h => by
    rw [popMin] at h
    cases hp : popMin t with
    | none =>
      rw [hp] at h
      injection h with h'
      have h1 : a = e := congrArg Prod.fst h'
      have h2 : ([] : List (Nat × Pos)) = rest := congrArg Prod.snd h'
      subst h1
      subst h2
      rw [popMin_none t hp]
    | some mr =>
      obtain ⟨m, r⟩ := mr
      rw [hp] at h
      dsimp only at h
      have htp : t.Perm (m :: r) := popMin_perm t m r hp
      by_cases hle : entryLe a m = true
      · rw [if_pos hle] at h
        injection h with h'
        have h1 : a = e := congrArg Prod.fst h'
        have h2 : t = rest := congrArg Prod.snd h'
        subst h1
        subst h2
        exact List.Perm.refl _
      · rw [if_neg hle] at h
        injection h with h'
        have h1 : m = e := congrArg Prod.fst h'
        have h2 : a :: r = rest := congrArg Prod.snd h'
        subst h1
        subst h2
        exact (htp.cons a).trans (List.Perm.swap m a r)

theorem alookup_aupdate_self {α : Type} (p : Pos) (v : α) :
    ∀ l : List (Pos × α), alookup (aupdate l p v) p = some v
  | [] => by simp [aupdate, alookup]
  | (k, w) :: t => by
    rw [aupdate]
    by_cases hk : k = p
    · rw [if_pos hk, alookup, if_pos rfl]
    · rw [if_neg hk, alookup, if_neg hk]
      exact alookup_aupdate_self p v t

theorem alookup_aupdate_ne {α : Type} (p q : Pos) (v : α) (hne : q ≠ p) :
    ∀ l : List (Pos × α), alookup (aupdate l p v) q = alookup l q
  | [] => by
    simp [aupdate, alookup, Ne.symm hne]
  | (k, w) :: t => by
    rw [aupdate]
    by_cases hk : k = p
    · have hkq : ¬ k = q := by rw [hk]; exact Ne.symm hne
      rw [if_pos hk, alookup, if_neg (Ne.symm hne), alookup, if_neg hkq]
    · rw [if_neg hk, alookup, alookup]
      by_cases hkq : k = q
      · rw [if_pos hkq, if_pos hkq]
      · rw [if_neg hkq, if_neg hkq]
        exact alookup_aupdate_ne p q v hne t

/-- One non-empty-heap iteration of the main loop, written out. -/
theorem astarLoop_succ_eq (grid : List (List Bool)) (W H : Nat) (g : Pos)
    (fuel : Nat) (st : AState) (e : Nat × Pos) (rest : List (Nat × Pos))
    (hpop : popMin st.openSet = some (e, rest)) :
    astarLoop grid W H g (fuel + 1) st =
      if e.2 = g then
        reconstruct st.cameFrom (st.cameFrom.length + 1) e.2 [e.2]
      else
        astarLoop grid W H g fuel
          (directions.foldl
            (relax grid W H g e.2 ((alookup st.gScore e.2).getD 0))
            { st with openSet := rest, closedSet := e.2 :: st.closedSet }) := by
  rw [astarLoop, hpop]

/-- Every `g_score` value `n > 0` heads a strictly descending parent
chain, yielding `n` distinct `came_from` keys. -/
theorem gchain_list (cf : List (Pos × Pos)) (gs : List (Pos × Nat))
    (hch : ∀ k v, alookup cf k = some v →
      ∃ gk gv, alookup gs k = some gk ∧ alookup gs v = some gv ∧
        gk = gv + 1)
    (hpos : ∀ k n, alookup gs k = some n → 0 < n →
      ∃ v, alookup cf k = some v) :
    ∀ (n : Nat) (k : Pos), alookup gs k = some n →
      ∃ l : List Pos, l.length = n ∧ l.Nodup ∧
        ∀ x ∈ l, (∃ m, alookup gs x = some m ∧ 1 ≤ m ∧ m ≤ n) ∧
          ∃ v, alookup cf x = some v
  | 0, _, _ => ⟨[], rfl, List.nodup_nil, by simp⟩
  | n + 1, k, h => by
    obtain ⟨v, hv⟩ := hpos k (n + 1) h (Nat.succ_pos n)
    obtain ⟨gk, gv, hgk, hgv, heq⟩ := hch k v hv
    have hgkn : gk = n + 1 := by
      rw [h] at hgk
      exact (Option.some.inj hgk).symm
    have hgvn : alookup gs v = some n := by
      rw [hgv]
      congr 1
      omega
    obtain ⟨l', hlen, hnd, hmem⟩ := gchain_list cf gs hch hpos n v hgvn
    refine ⟨k :: l', by simp [hlen], ?_, ?_⟩
    · refine List.nodup_cons.mpr ⟨?_, hnd⟩
      intro hkl
      obtain ⟨⟨m, hm, _, hm2⟩, _⟩ := hmem k hkl
      rw [h] at hm
      have : n + 1 = m := Option.some.inj hm
      omega
    · intro x hx
      rcases List.mem_cons.mp hx with h' | h'
      · subst h'
        exact ⟨⟨n + 1, h, by omega, le_refl _⟩, v, hv⟩
      · obtain ⟨⟨m, hm, hm1, hm2⟩, hcf⟩ := hmem x h'
        exact ⟨⟨m, hm, hm1, by omega⟩, hcf⟩

/-- Hence every `g_score` value is at most the size of `came_from`. -/
theorem gval_le_len (cf : List (Pos × Pos)) (gs : List (Pos × Nat))
    (hch : ∀ k v, alookup cf k = some v →
      ∃ gk gv, alookup gs k = some gk ∧ alookup gs v = some gv ∧
        gk = gv + 1)
    (hpos : ∀ k n, alookup gs k = some n → 0 < n →
      ∃ v, alookup cf k = some v)
    (k : Pos) (n : Nat) (h : alookup gs k = some n) : n ≤ cf.length := by
  obtain ⟨l, hlen, hnd, hmem⟩ := gchain_list cf gs hch hpos n k h
  have hsub : l ⊆ cf.map Prod.fst := by
    intro x hx
    obtain ⟨_, v, hv⟩ := hmem x hx
    exact List.mem_map.mpr ⟨(x, v), alookup_mem x v cf hv, rfl⟩
  have hle := (hnd.subperm hsub).length_le
  rw [hlen, List.length_map] at hle
  exact hle

/-- `reconstruct` succeeds (and keeps the accumulator non-empty) as soon
as the fuel exceeds the `g_score` of the entry point, because the
parent chain descends one `g_score` unit per step. -/
theorem reconstruct_some (cf : List (Pos × Pos)) (gs : List (Pos × Nat))
    (hch : ∀ k v, alookup cf k = some v →
      ∃ gk gv, alookup gs k = some gk ∧ alookup gs v = some gv ∧
        gk = gv + 1) :
    ∀ (fuel : Nat) (cur : Pos) (n : Nat) (acc : List Pos),
      alookup gs cur = some n → n < fuel → acc ≠ [] →
      ∃ l, reconstruct cf fuel cur acc = some l ∧ l ≠ []
  | 0, _, n, _, _, hlt, _ => absurd hlt (by omega)
  | fuel + 1, cur, n, acc, hg, hlt, hacc => by
    rw [reconstruct]
    cases hl : alookup cf cur with
    | none => exact ⟨acc, rfl, hacc⟩
    | some prev =>
      obtain ⟨gk, gv, hgk, hgv, heq⟩ := hch cur prev hl
      have hkn : gk = n := by
        rw [hg] at hgk
        exact (Option.some.inj hgk).symm
      exact reconstruct_some cf gs hch fuel prev gv (prev :: acc) hgv
        (by omega) (by simp)

theorem dir_ne_zero : ∀ d ∈ directions, d ≠ ((0 : Int), (0 : Int)) := by
  decide

theorem relax_nb_ne_cur (cur d : Pos) (hd : d ∈ directions) :
    ((cur.1 + d.1, cur.2 + d.2) : Pos) ≠ cur := by
  intro h
  have h1 : cur.1 + d.1 = cur.1 := congrArg Prod.fst h
  have h2 : cur.2 + d.2 = cur.2 := congrArg Prod.snd h
  exact dir_ne_zero d hd (Prod.ext (by omega) (by omega))

theorem relax_open_mono (grid : List (List Bool)) (W H : Nat) (goal cur : Pos)
    (gc : Nat) (st : AState) (d : Pos) (x : Pos)
    (hx : x ∈ st.openSet.map Prod.snd) :
    x ∈ (relax grid W H goal cur gc st d).openSet.map Prod.snd := by
  rw [relax_eq]
  split
  · exact hx
  split
  · exact hx
  split
  · dsimp only
    split
    · exact hx
    · rw [List.map_append]
      exact List.mem_append_left _ hx
  · exact hx

theorem relax_open_len (grid : List (List Bool)) (W H : Nat) (goal cur : Pos)
    (gc : Nat) (st : AState) (d : Pos) :
    (relax grid W H goal cur gc st d).openSet.length ≤
      st.openSet.length + 1 := by
  rw [relax_eq]
  split
  · omega
  split
  · omega
  split
  · dsimp only
    split
    · omega
    · simp
  · omega

/-- State invariants of the `astar` main loop other than the frontier
property: bounds, duplicate-freeness, open/closed disjointness,
`g_score` coverage, and the `came_from` parent-chain structure. -/
structure CoreInv (W H : Nat) (s g : Pos) (st : AState) : Prop where
  openB : ∀ e ∈ st.openSet, inBoundsB W H e.2 = true
  closedB : ∀ z ∈ st.closedSet, inBoundsB W H z = true
  openND : (st.openSet.map Prod.snd).Nodup
  closedND : st.closedSet.Nodup
  disj : ∀ e ∈ st.openSet, e.2 ∉ st.closedSet
  gkey : ∀ e ∈ st.openSet, ∃ n, alookup st.gScore e.2 = some n
  goc : ∀ k n, alookup st.gScore k = some n →
    k ∈ st.closedSet ∨ k ∈ st.openSet.map Prod.snd
  pclosed : ∀ k v, alookup st.cameFrom k = some v → v ∈ st.closedSet
  chains : ∀ k v, alookup st.cameFrom k = some v →
    ∃ gk gv, alookup st.gScore k = some gk ∧
      alookup st.gScore v = some gv ∧ gk = gv + 1
  gpos : ∀ k n, alookup st.gScore k = some n → 0 < n →
    ∃ v, alookup st.cameFrom k = some v
  startIn : s ∈ st.closedSet ∨ s ∈ st.openSet.map Prod.snd
  gnc : g ∉ st.closedSet

/-- The frontier property at one closed cell: each walkable in-bounds
neighbour has been put into the closed or open set. -/
def NbcAt (grid : List (List Bool)) (W H : Nat) (st : AState) (z : Pos) :
    Prop :=
  ∀ d ∈ directions, inBoundsB W H (z.1 + d.1, z.2 + d.2) = true →
    walkAt grid (z.1 + d.1, z.2 + d.2) = true →
    (z.1 + d.1, z.2 + d.2) ∈ st.closedSet ∨
    (z.1 + d.1, z.2 + d.2) ∈ st.openSet.map Prod.snd

theorem relax_core (grid : List (List Bool)) (W H : Nat) (s g goal cur : Pos)
    (gc : Nat) (st : AState) (d : Pos) (hd : d ∈ directions)
    (hcur : cur ∈ st.closedSet)
    (hgc : alookup st.gScore cur = some gc)
    (hI : CoreInv W H s g st) :
    CoreInv W H s g (relax grid W H goal cur gc st d) ∧
    alookup (relax grid W H goal cur gc st d).gScore cur = some gc := by
  have hnbc : ((cur.1 + d.1, cur.2 + d.2) : Pos) ≠ cur :=
    relax_nb_ne_cur cur d hd
  rw [relax_eq]
  by_cases hb : inBoundsB W H (cur.1 + d.1, cur.2 + d.2) = true
  · rw [if_neg (not_not_intro hb)]
    by_cases hB : ¬ walkAt grid (cur.1 + d.1, cur.2 + d.2) = true ∨
        (cur.1 + d.1, cur.2 + d.2) ∈ st.closedSet
    · rw [if_pos hB]
      exact ⟨hI, hgc⟩
    · rw [if_neg hB]
      push_neg at hB
      obtain ⟨hwalk, hnc⟩ := hB
      split
      · constructor
        · constructor
          · intro e he
            dsimp only at he ⊢
            split at he
            · exact hI.openB e he
            · rcases List.mem_append.mp he with h' | h'
              · exact hI.openB e h'
              · rw [congrArg Prod.snd (List.mem_singleton.mp h')]
                exact hb
          · intro z hz
            dsimp only at hz
            exact hI.closedB z hz
          · dsimp only
            split
            · exact hI.openND
            · rename_i hmem
              simp only [List.map_append, List.map_cons, List.map_nil]
              exact ((List.perm_append_singleton _ _).nodup_iff).mpr
                (List.nodup_cons.mpr ⟨hmem, hI.openND⟩)
          · exact hI.closedND
          · intro e he
            dsimp only at he ⊢
            split at he
            · exact hI.disj e he
            · rcases List.mem_append.mp he with h' | h'
              · exact hI.disj e h'
              · rw [congrArg Prod.snd (List.mem_singleton.mp h')]
                exact hnc
          · intro e he
            dsimp only at he ⊢
            by_cases hq : e.2 = (cur.1 + d.1, cur.2 + d.2)
            · exact ⟨gc + 1, by rw [hq]; exact alookup_aupdate_self _ _ _⟩
            · rw [alookup_aupdate_ne _ _ _ hq]
              split at he
              · exact hI.gkey e he
              · rcases List.mem_append.mp he with h' | h'
                · exact hI.gkey e h'
                · exact absurd
                    (congrArg Prod.snd (List.mem_singleton.mp h')) hq
          · intro k n hkn
            dsimp only at hkn ⊢
            by_cases hq : k = (cur.1 + d.1, cur.2 + d.2)
            · subst hq
              refine Or.inr ?_
              split
              · rename_i hmem
                exact hmem
              · rw [List.map_append]
                simp
            · rw [alookup_aupdate_ne _ _ _ hq] at hkn
              rcases hI.goc k n hkn with h' | h'
              · exact Or.inl h'
              · refine Or.inr ?_
                split
                · exact h'
                · rw [List.map_append]
                  exact List.mem_append_left _ h'
          · intro k v hkv
            dsimp only at hkv ⊢
            by_cases hq : k = (cur.1 + d.1, cur.2 + d.2)
            · rw [hq, alookup_aupdate_self] at hkv
              rw [← Option.some.inj hkv]
              exact hcur
            · rw [alookup_aupdate_ne _ _ _ hq] at hkv
              exact hI.pclosed k v hkv
          · intro k v hkv
            dsimp only at hkv ⊢
            by_cases hq : k = (cur.1 + d.1, cur.2 + d.2)
            · rw [hq, alookup_aupdate_self] at hkv
              have hv : v = cur := (Option.some.inj hkv).symm
              subst hv
              refine ⟨gc + 1, gc, ?_, ?_, rfl⟩
              · rw [hq]
                exact alookup_aupdate_self _ _ _
              · rw [alookup_aupdate_ne _ _ _ (Ne.symm hnbc)]
                exact hgc
            · rw [alookup_aupdate_ne _ _ _ hq] at hkv
              obtain ⟨gk, gv, hgk, hgv, heq⟩ := hI.chains k v hkv
              have hvc : v ∈ st.closedSet := hI.pclosed k v hkv
              have hvne : v ≠ ((cur.1 + d.1, cur.2 + d.2) : Pos) :=
                fun h => hnc (h ▸ hvc)
              exact ⟨gk, gv, by rw [alookup_aupdate_ne _ _ _ hq]; exact hgk,
                by rw [alookup_aupdate_ne _ _ _ hvne]; exact hgv, heq⟩
          · intro k n hkn hn
            dsimp only at hkn ⊢
            by_cases hq : k = (cur.1 + d.1, cur.2 + d.2)
            · exact ⟨cur, by rw [hq]; exact alookup_aupdate_self _ _ _⟩
            · rw [alookup_aupdate_ne _ _ _ hq] at hkn
              obtain ⟨v, hv⟩ := hI.gpos k n hkn hn
              exact ⟨v, by rw [alookup_aupdate_ne _ _ _ hq]; exact hv⟩
          · dsimp only
            rcases hI.startIn with h' | h'
            · exact Or.inl h'
            · refine Or.inr ?_
              split
              · exact h'
              · rw [List.map_append]
                exact List.mem_append_left _ h'
          · exact hI.gnc
        · dsimp only
          rw [alookup_aupdate_ne _ _ _ (Ne.symm hnbc)]
          exact hgc
      · exact ⟨hI, hgc⟩
  · rw [if_pos hb]
    exact ⟨hI, hgc⟩

theorem relax_self_nbc (grid : List (List Bool)) (W H : Nat)
    (s g goal cur : Pos) (gc : Nat) (st : AState) (d : Pos)
    (hI : CoreInv W H s g st)
    (hb : inBoundsB W H (cur.1 + d.1, cur.2 + d.2) = true)
    (hw : walkAt grid (cur.1 + d.1, cur.2 + d.2) = true) :
    (cur.1 + d.1, cur.2 + d.2) ∈ (relax grid W H goal cur gc st d).closedSet ∨
    (cur.1 + d.1, cur.2 + d.2) ∈
      (relax grid W H goal cur gc st d).openSet.map Prod.snd := by
  rw [relax_eq, if_neg (not_not_intro hb)]
  by_cases hB : ¬ walkAt grid (cur.1 + d.1, cur.2 + d.2) = true ∨
      (cur.1 + d.1, cur.2 + d.2) ∈ st.closedSet
  · rw [if_pos hB]
    rcases hB with h' | h'
    · exact absurd hw h'
    · exact Or.inl h'
  · rw [if_neg hB]
    push_neg at hB
    obtain ⟨_, hnc⟩ := hB
    split
    · refine Or.inr ?_
      dsimp only
      split
      · rename_i hmem
        exact hmem
      · rw [List.map_append]
        simp
    · rename_i hbet
      cases hgn : alookup st.gScore (cur.1 + d.1, cur.2 + d.2) with
      | none => exact absurd (by rw [hgn]) hbet
      | some gn =>
        rcases hI.goc _ gn hgn with h' | h'
        · exact absurd h' hnc
        · exact Or.inr h'

theorem relaxFold_open_mono (grid : List (List Bool)) (W H : Nat)
    (goal cur : Pos) (gc : Nat) :
    ∀ (l : List Pos) (st : AState) (x : Pos),
      x ∈ st.openSet.map Prod.snd →
      x ∈ (l.foldl (relax grid W H goal cur gc) st).openSet.map Prod.snd
  | [], _, _, hx => hx
  | d :: t, st, x, hx => by
    simp only [List.foldl_cons]
    exact relaxFold_open_mono grid W H goal cur gc t _ x
      (relax_open_mono grid W H goal cur gc st d x hx)

theorem relaxFold_open_len (grid : List (List Bool)) (W H : Nat)
    (goal cur : Pos) (gc : Nat) :
    ∀ (l : List Pos) (st : AState),
      (l.foldl (relax grid W H goal cur gc) st).openSet.length ≤
        st.openSet.length + l.length
  | [], st => by simp
  | d :: t, st => by
    simp only [List.foldl_cons, List.length_cons]
    have h1 := relax_open_len grid W H goal cur gc st d
    have h2 := relaxFold_open_len grid W H goal cur gc t
      (relax grid W H goal cur gc st d)
    omega

theorem relaxFold_core (grid : List (List Bool)) (W H : Nat)
    (s g goal cur : Pos) (gc : Nat) :
    ∀ (l : List Pos), (∀ x ∈ l, x ∈ directions) →
      ∀ st : AState, CoreInv W H s g st → cur ∈ st.closedSet →
        alookup st.gScore cur = some gc →
        CoreInv W H s g (l.foldl (relax grid W H goal cur gc) st) ∧
        ∀ d ∈ l, inBoundsB W H (cur.1 + d.1, cur.2 + d.2) = true →
          walkAt grid (cur.1 + d.1, cur.2 + d.2) = true →
          (cur.1 + d.1, cur.2 + d.2) ∈
            (l.foldl (relax grid W H goal cur gc) st).closedSet ∨
          (cur.1 + d.1, cur.2 + d.2) ∈
            (l.foldl (relax grid W H goal cur gc) st).openSet.map Prod.snd
  | [], _, st, hI, _, _ => ⟨hI, by simp⟩
  | d :: t, hl, st, hI, hc, hg => by
    simp only [List.foldl_cons]
    have hd : d ∈ directions := hl d (by simp)
    obtain ⟨hI1, hg1⟩ := relax_core grid W H s g goal cur gc st d hd hc hg hI
    have hc1 : cur ∈ (relax grid W H goal cur gc st d).closedSet := by
      rw [relax_closedSet]
      exact hc
    obtain ⟨hIf, hnbf⟩ := relaxFold_core grid W H s g goal cur gc t
      (fun x hx => hl x (by simp [hx])) _ hI1 hc1 hg1
    refine ⟨hIf, ?_⟩
    intro d' hd' hbb hww
    rcases List.mem_cons.mp hd' with h' | h'
    · subst h'
      have h0 := relax_self_nbc grid W H s g goal cur gc st d' hI hbb hww
      rcases h0 with hc' | ho'
      · refine Or.inl ?_
        rw [relaxFold_closedSet]
        exact hc'
      · exact Or.inr (relaxFold_open_mono grid W H goal cur gc t _ _ ho')
    · exact hnbf d' h' hbb hww

/-- 4-directional reachability over a walkability mask: each step moves
onto a walkable in-bounds cell (the origin's own walkability is not
required, matching `astar`). -/
inductive ReachesB (grid : List (List Bool)) (W H : Nat) : Pos → Pos → Prop
  | refl (p : Pos) : ReachesB grid W H p p
  | step {p q : Pos} (d : Pos) : ReachesB grid W H p q → d ∈ directions →
      inBoundsB W H (q.1 + d.1, q.2 + d.2) = true →
      walkAt grid (q.1 + d.1, q.2 + d.2) = true →
      ReachesB grid W H p (q.1 + d.1, q.2 + d.2)

/-- A duplicate-free list of in-bounds cells has at most `W * H`
entries. -/
theorem inb_card (W H : Nat) :
    ∀ l : List Pos, l.Nodup → (∀ z ∈ l, inBoundsB W H z = true) →
      l.length ≤ W * H := by
  intro l hnd hin
  have hmapnd :
      (l.map fun z : Pos => z.1.toNat + z.2.toNat * W).Nodup := by
    refine List.Nodup.map_on ?_ hnd
    intro x hx y hy hxy
    have hxb := hin x hx
    have hyb := hin y hy
    simp only [inBoundsB, Bool.and_eq_true, decide_eq_true_eq] at hxb hyb
    obtain ⟨⟨⟨hx1, hx2⟩, hx3⟩, hx4⟩ := hxb
    obtain ⟨⟨⟨hy1, hy2⟩, hy3⟩, hy4⟩ := hyb
    have hxW : x.1.toNat < W := by omega
    have hyW : y.1.toNat < W := by omega
    have ha : x.1.toNat = y.1.toNat := by
      calc x.1.toNat = x.1.toNat % W := (Nat.mod_eq_of_lt hxW).symm
        _ = (x.1.toNat + x.2.toNat * W) % W :=
          (Nat.add_mul_mod_self_right _ _ _).symm
        _ = (y.1.toNat + y.2.toNat * W) % W := by rw [hxy]
        _ = y.1.toNat % W := Nat.add_mul_mod_self_right _ _ _
        _ = y.1.toNat := Nat.mod_eq_of_lt hyW
    have hW : 0 < W := by omega
    rw [ha] at hxy
    have hb : x.2.toNat = y.2.toNat :=
      Nat.eq_of_mul_eq_mul_right hW (Nat.add_left_cancel hxy)
    exact Prod.ext (by omega) (by omega)
  have hsub : (l.map fun z : Pos => z.1.toNat + z.2.toNat * W) ⊆
      List.range (W * H) := by
    intro m hm
    obtain ⟨z, hz, rfl⟩ := List.mem_map.mp hm
    have hzb := hin z hz
    simp only [inBoundsB, Bool.and_eq_true, decide_eq_true_eq] at hzb
    obtain ⟨⟨⟨hz1, hz2⟩, hz3⟩, hz4⟩ := hzb
    refine List.mem_range.mpr ?_
    have h1 : z.1.toNat < W := by omega
    have h2 : z.2.toNat + 1 ≤ H := by omega
    have h3 : (z.2.toNat + 1) * W ≤ H * W := Nat.mul_le_mul_right W h2
    rw [Nat.succ_mul] at h3
    have hc : W * H = H * W := Nat.mul_comm W H
    linarith
  have hle := (hmapnd.subperm hsub).length_le
  rw [List.length_map, List.length_range] at hle
  exact hle

/-- Main-loop completeness: with the invariants in force and fuel above
the measure, the loop returns a non-empty path whenever the goal is
reachable from the start. -/
theorem astarLoop_complete (grid : List (List Bool)) (W H : Nat) (s g : Pos)
    (hreach : ReachesB grid W H s g) :
    ∀ (fuel : Nat) (st : AState), CoreInv W H s g st →
      (∀ z ∈ st.closedSet, NbcAt grid W H st z) →
      st.openSet.length + 5 * (W * H - st.closedSet.length) < fuel →
      ∃ l, astarLoop grid W H g fuel st = some l ∧ l ≠ []
  | 0, _, _, _, hm => absurd hm (by omega)
  | fuel + 1, st, hI, hnbc, hm => by
    cases hpop : popMin st.openSet with
    | none =>
      exfalso
      have hempty : st.openSet = [] := popMin_none _ hpop
      have hall : ∀ z : Pos, ReachesB grid W H s z → z ∈ st.closedSet := by
        intro z hz
        induction hz with
        | refl =>
          rcases hI.startIn with h' | h'
          · exact h'
          · rw [hempty] at h'
            exact absurd h' (by simp)
        | step d hq hd hb hw ih =>
          rcases hnbc _ ih d hd hb hw with h' | h'
          · exact h'
          · rw [hempty] at h'
            exact absurd h' (by simp)
      exact hI.gnc (hall g hreach)
    | some er =>
      obtain ⟨e, rest⟩ := er
      have hperm := popMin_perm _ e rest hpop
      have hmem : e ∈ st.openSet := hperm.mem_iff.mpr (by simp)
      obtain ⟨gcur, hgcur⟩ := hI.gkey e hmem
      have hgetD : (alookup st.gScore e.2).getD 0 = gcur := by
        rw [hgcur]
        rfl
      rw [astarLoop_succ_eq grid W H g fuel st e rest hpop]
      by_cases hg : e.2 = g
      · rw [if_pos hg]
        have hbound : gcur ≤ st.cameFrom.length :=
          gval_le_len st.cameFrom st.gScore hI.chains hI.gpos e.2 gcur hgcur
        exact reconstruct_some st.cameFrom st.gScore hI.chains
          (st.cameFrom.length + 1) e.2 gcur [e.2] hgcur (by omega) (by simp)
      · rw [if_neg hg]
        have hndm : (e.2 :: rest.map Prod.snd).Nodup := by
          have := (hperm.map Prod.snd).nodup_iff.mp hI.openND
          simpa using this
        have hrestsub : ∀ x ∈ rest, x ∈ st.openSet := fun x hx =>
          hperm.mem_iff.mpr (List.mem_cons_of_mem _ hx)
        have hcurnotin : e.2 ∉ st.closedSet := hI.disj e hmem
        have hopeniff : ∀ x : Pos, x ∈ st.openSet.map Prod.snd →
            x ∈ e.2 :: rest.map Prod.snd := by
          intro x hx
          have hpm := (hperm.map Prod.snd).mem_iff.mp hx
          simpa using hpm
        have hI1 : CoreInv W H s g
            { st with openSet := rest, closedSet := e.2 :: st.closedSet } := by
          constructor
          · intro x hx
            exact hI.openB x (hrestsub x hx)
          · intro z hz
            rcases List.mem_cons.mp hz with h' | h'
            · rw [h']
              exact hI.openB e hmem
            · exact hI.closedB z h'
          · exact (List.nodup_cons.mp hndm).2
          · exact List.nodup_cons.mpr ⟨hcurnotin, hI.closedND⟩
          · intro x hx hxc
            rcases List.mem_cons.mp hxc with h' | h'
            · exact (List.nodup_cons.mp hndm).1
                (h' ▸ List.mem_map.mpr ⟨x, hx, rfl⟩)
            · exact hI.disj x (hrestsub x hx) h'
          · intro x hx
            exact hI.gkey x (hrestsub x hx)
          · intro k n hkn
            rcases hI.goc k n hkn with h' | h'
            · exact Or.inl (List.mem_cons_of_mem _ h')
            · rcases List.mem_cons.mp (hopeniff k h') with h'' | h''
              · exact Or.inl (h'' ▸ List.mem_cons_self _ _)
              · exact Or.inr h''
          · intro k v hkv
            exact List.mem_cons_of_mem _ (hI.pclosed k v hkv)
          · exact hI.chains
          · exact hI.gpos
          · rcases hI.startIn with h' | h'
            · exact Or.inl (List.mem_cons_of_mem _ h')
            · rcases List.mem_cons.mp (hopeniff s h') with h'' | h''
              · exact Or.inl (h'' ▸ List.mem_cons_self _ _)
              · exact Or.inr h''
          · intro hgc'
            rcases List.mem_cons.mp hgc' with h' | h'
            · exact hg h'.symm
            · exact hI.gnc h'
        have hnbcOld : ∀ z ∈ st.closedSet, NbcAt grid W H
            { st with openSet := rest, closedSet := e.2 :: st.closedSet }
            z := by
          intro z hz d hd hb hw
          rcases hnbc z hz d hd hb hw with h' | h'
          · exact Or.inl (List.mem_cons_of_mem _ h')
          · rcases List.mem_cons.mp (hopeniff _ h') with h'' | h''
            · exact Or.inl (h'' ▸ List.mem_cons_self _ _)
            · exact Or.inr h''
        obtain ⟨hIf, hself⟩ := relaxFold_core grid W H s g g e.2
          ((alookup st.gScore e.2).getD 0) directions (fun x hx => hx)
          { st with openSet := rest, closedSet := e.2 :: st.closedSet }
          hI1 (List.mem_cons_self _ _) (by rw [hgetD]; exact hgcur)
        have hnbcF : ∀ z ∈ (directions.foldl
            (relax grid W H g e.2 ((alookup st.gScore e.2).getD 0))
            { st with openSet := rest, closedSet := e.2 :: st.closedSet }).closedSet,
            NbcAt grid W H (directions.foldl
              (relax grid W H g e.2 ((alookup st.gScore e.2).getD 0))
              { st with openSet := rest, closedSet := e.2 :: st.closedSet }) z := by
          intro z hz d hd hb hw
          rw [relaxFold_closedSet] at hz
          rcases List.mem_cons.mp hz with h' | h'
          · subst h'
            exact hself d hd hb hw
          · rcases hnbcOld z h' d hd hb hw with h'' | h''
            · refine Or.inl ?_
              rw [relaxFold_closedSet]
              exact h''
            · exact Or.inr
                (relaxFold_open_mono grid W H g e.2 _ directions _ _ h'')
        have hL1 : st.openSet.length = rest.length + 1 := by
          have := hperm.length_eq
          simpa using this
        have hL2 : (directions.foldl
            (relax grid W H g e.2 ((alookup st.gScore e.2).getD 0))
            { st with openSet := rest, closedSet := e.2 :: st.closedSet }).openSet.length ≤
            rest.length + 4 := by
          have := relaxFold_open_len grid W H g e.2
            ((alookup st.gScore e.2).getD 0) directions
            { st with openSet := rest, closedSet := e.2 :: st.closedSet }
          simpa using this
        have hclen : (directions.foldl
            (relax grid W H g e.2 ((alookup st.gScore e.2).getD 0))
            { st with openSet := rest, closedSet := e.2 :: st.closedSet }).closedSet.length =
            st.closedSet.length + 1 := by
          rw [relaxFold_closedSet]
          rfl
        have hcbound : st.closedSet.length + 1 ≤ W * H := by
          have := inb_card W H (e.2 :: st.closedSet)
            (List.nodup_cons.mpr ⟨hcurnotin, hI.closedND⟩)
            (by
              intro z hz
              rcases List.mem_cons.mp hz with h' | h'
              · rw [h']
                exact hI.openB e hmem
              · exact hI.closedB z h')
          simpa using this
        refine astarLoop_complete grid W H s g hreach fuel _ hIf hnbcF ?_
        rw [hclen]
        generalize hA : W * H = A at hm hcbound ⊢
        omega

/-- `astar` returns a non-empty path whenever start and goal are in
bounds, the goal is walkable and reachable from the start. -/
theorem astar_complete (grid : List (List Bool)) (s g : Pos)
    (hbs : inBoundsB (gridWidth grid) (gridHeight grid) s = true)
    (hbg : inBoundsB (gridWidth grid) (gridHeight grid) g = true)
    (hwg : walkAt grid g = true)
    (hr : ReachesB grid (gridWidth grid) (gridHeight grid) s g) :
    ∃ l, astar grid s g = some l ∧ l ≠ [] := by
  rw [astar_eq]
  have hcb : ¬ (¬ inBoundsB (gridWidth grid) (gridHeight grid) s = true ∨
      ¬ inBoundsB (gridWidth grid) (gridHeight grid) g = true) := by
    simp [hbs, hbg]
  rw [if_neg hcb]
  by_cases hsg : s = g
  · rw [if_pos hsg]
    exact ⟨[s], rfl, by simp⟩
  · rw [if_neg hsg, if_neg (not_not_intro hwg)]
    refine astarLoop_complete grid (gridWidth grid) (gridHeight grid) s g hr
      (astarFuel (gridWidth grid) (gridHeight grid)) _ ?_ ?_ ?_
    · constructor
      · intro e he
        have he2 : e = (heuristic s g, s) := List.mem_singleton.mp he
        subst he2
        exact hbs
      · intro z hz
        exact absurd hz (List.not_mem_nil z)
      · simp
      · exact List.nodup_nil
      · intro e _ h
        exact absurd h (List.not_mem_nil _)
      · intro e he
        have he2 : e = (heuristic s g, s) := List.mem_singleton.mp he
        subst he2
        exact ⟨0, by simp [alookup]⟩
      · intro k n hkn
        rw [alookup] at hkn
        by_cases hk : s = k
        · subst hk
          refine Or.inr ?_
          simp
        · rw [if_neg hk] at hkn
          exact absurd hkn (by simp [alookup])
      · intro k v hkv
        exact absurd hkv (by simp [alookup])
      · intro k v hkv
        exact absurd hkv (by simp [alookup])
      · intro k n hkn hn
        rw [alookup] at hkn
        by_cases hk : s = k
        · rw [if_pos hk] at hkn
          have : (0 : Nat) = n := Option.some.inj hkn
          omega
        · rw [if_neg hk] at hkn
          exact absurd hkn (by simp [alookup])
      · refine Or.inr ?_
        simp
      · intro h
        exact absurd h (List.not_mem_nil g)
    · intro z hz
      exact absurd hz (List.not_mem_nil z)
    · show (1 : Nat) + 5 * (gridWidth grid * gridHeight grid - 0) <
        astarFuel (gridWidth grid) (gridHeight grid)
      rw [astarFuel, Nat.sub_zero]
      generalize gridWidth grid * gridHeight grid = A
      omega

/-! ## C1: connectivity of generated dungeons

`generate` carves every room and corridor as `FLOOR`, later touching
cells only with walkable types (`DOOR`, `STAIRS_DOWN`) or a variant
change, so walkability only ever grows during generation; each room
placed after the first is immediately connected by an L-corridor to an
already placed room.  Reaching between any two room centers over the
final walkability mask follows, and with `astar_complete` the claim. -/

/-- The walkability mask of a tile grid, the `grid` argument that the
pathfinder receives. -/
def maskOf (g : List (List Tile)) : List (List Bool) :=
  g.map fun row => row.map Tile.is_walkable

/-- Rectangular shape of a tile grid. -/
def RectG (W H : Nat) (g : List (List Tile)) : Prop :=
  g.length = H ∧ ∀ row ∈ g, row.length = W

theorem maskOf_gridHeight (g : List (List Tile)) :
    gridHeight (maskOf g) = g.length := by
  simp [gridHeight, maskOf]

theorem maskOf_gridWidth (g : List (List Tile)) (W H : Nat)
    (hr : RectG W H g) (hH : 0 < H) : gridWidth (maskOf g) = W := by
  cases g with
  | nil =>
    have h0 : H = 0 := by simpa using hr.1.symm
    exact absurd hH (by omega)
  | cons row rest =>
    show (row.map Tile.is_walkable).length = W
    rw [List.length_map]
    exact hr.2 row (List.mem_cons_self _ _)

theorem walkAt_maskOf (g : List (List Tile)) (W H : Nat) (hr : RectG W H g)
    (p : Pos) (hb : inBoundsB W H p = true) :
    walkAt (maskOf g) p = (tileAt g p.1.toNat p.2.toNat).is_walkable := by
  obtain ⟨hlen, hrows⟩ := hr
  simp only [inBoundsB, Bool.and_eq_true, decide_eq_true_eq] at hb
  obtain ⟨⟨⟨h1, h2⟩, h3⟩, h4⟩ := hb
  unfold walkAt maskOf tileAt
  rw [getD_map_of _ [] [] p.2.toNat g, if_pos (by rw [hlen]; omega)]
  rw [getD_map_of Tile.is_walkable false {} p.1.toNat (g.getD p.2.toNat [])]
  rw [if_pos (by rw [rect_rows hlen hrows p.2.toNat (by omega)]; omega)]

/-- Pointwise walkability growth between two tile grids. -/
def gmono (g g' : List (List Tile)) : Prop :=
  ∀ x y : Nat, (tileAt g x y).is_walkable = true →
    (tileAt g' x y).is_walkable = true

theorem gmono_refl (g : List (List Tile)) : gmono g g := fun _ _ h => h

theorem gmono_trans {g1 g2 g3 : List (List Tile)} (h1 : gmono g1 g2)
    (h2 : gmono g2 g3) : gmono g1 g3 :=
  fun x y h => h2 x y (h1 x y h)

theorem listModify_mem {α : Type} (f : α → α) :
    ∀ (n : Nat) (l : List α) (a : α), a ∈ listModify f n l →
      a ∈ l ∨ ∃ b ∈ l, a = f b
  | _, [], a, h => by simp [listModify] at h
  | 0, x :: t, a, h => by
    rcases List.mem_cons.mp h with h' | h'
    · exact Or.inr ⟨x, List.mem_cons_self _ _, h'⟩
    · exact Or.inl (List.mem_cons_of_mem _ h')
  | n + 1, x :: t, a, h => by
    rcases List.mem_cons.mp h with h' | h'
    · exact Or.inl (h' ▸ List.mem_cons_self _ _)
    · rcases listModify_mem f n t a h' with h'' | ⟨b, hb, hab⟩
      · exact Or.inl (List.mem_cons_of_mem _ h'')
      · exact Or.inr ⟨b, List.mem_cons_of_mem _ hb, hab⟩

theorem gridModify_rect {W H : Nat} {g : List (List Tile)} (x y : Nat)
    (f : Tile → Tile) (hr : RectG W H g) :
    RectG W H (gridModify g x y f) := by
  constructor
  · unfold gridModify
    rw [listModify_length]
    exact hr.1
  · intro row hrow
    unfold gridModify at hrow
    rcases listModify_mem _ y g row hrow with h' | ⟨b, hb, hab⟩
    · exact hr.2 row h'
    · rw [hab, listModify_length]
      exact hr.2 b hb

/-- A mutation that writes a walkable type (or keeps the type) grows
walkability. -/
theorem gridModify_gmono (g : List (List Tile)) (x y : Nat)
    (f : Tile → Tile)
    (hf : ∀ t : Tile, t.is_walkable = true → (f t).is_walkable = true) :
    gmono g (gridModify g x y f) := by
  intro a b hw
  rw [tileAt_gridModify]
  split
  · rename_i hcond
    rw [← hcond.1, ← hcond.2.2.1]
    exact hf _ (by rw [hcond.1, hcond.2.2.1]; exact hw)
  · exact hw

theorem carve_gmono (g : List (List Tile)) (x y : Int) :
    gmono g (carveCell g x y) := by
  refine gridModify_gmono g _ _ _ ?_
  intro t _
  rfl

theorem carve_rect {W H : Nat} {g : List (List Tile)} (x y : Int)
    (hr : RectG W H g) : RectG W H (carveCell g x y) :=
  gridModify_rect _ _ _ hr

theorem tileAt_carve_self (g : List (List Tile)) (W H : Nat)
    (hr : RectG W H g) (x y : Int) (hx : 0 ≤ x ∧ x < (W : Int))
    (hy : 0 ≤ y ∧ y < (H : Int)) :
    tileAt (carveCell g x y) x.toNat y.toNat = { type := TileType.floor } := by
  unfold carveCell
  rw [tileAt_gridModify]
  rw [if_pos ⟨rfl, by rw [hr.1]; omega, rfl,
    by rw [rect_rows hr.1 hr.2 y.toNat (by omega)]; omega⟩]

theorem foldl_pres {α β : Type} (P : β → Prop) (f : β → α → β)
    (hf : ∀ b a, P b → P (f b a)) :
    ∀ (l : List α) (b : β), P b → P (l.foldl f b)
  | [], _, h => h
  | a :: t, b, h => foldl_pres P f hf t (f b a) (hf b a h)

theorem foldl_estab {α β : Type} (P : β → Prop) (f : β → α → β)
    (hpres : ∀ b a, P b → P (f b a)) (a0 : α) (hest : ∀ b, P (f b a0)) :
    ∀ (l : List α) (b : β), a0 ∈ l → P (l.foldl f b)
  | [], _, h => absurd h (List.not_mem_nil _)
  | a :: t, b, h => by
    rcases List.mem_cons.mp h with h' | h'
    · subst h'
      simp only [List.foldl_cons]
      exact foldl_pres P f hpres t _ (hest b)
    · simp only [List.foldl_cons]
      exact foldl_estab P f hpres a0 hest t _ h'

theorem reachesB_trans {grid : List (List Bool)} {W H : Nat} {a b c : Pos}
    (h1 : ReachesB grid W H a b) (h2 : ReachesB grid W H b c) :
    ReachesB grid W H a c := by
  induction h2 with
  | refl => exact h1
  | step d hq hd hb hw ih => exact ReachesB.step d ih hd hb hw

/-- Reachability is monotone in the mask. -/
theorem reachesB_mono {g1 g2 : List (List Bool)} {W H : Nat} {a b : Pos}
    (hm : ∀ p : Pos, inBoundsB W H p = true → walkAt g1 p = true →
      walkAt g2 p = true)
    (h : ReachesB g1 W H a b) : ReachesB g2 W H a b := by
  induction h with
  | refl => exact ReachesB.refl _
  | step d hq hd hb hw ih => exact ReachesB.step d ih hd hb (hm _ hb hw)

/-- Walking a straight carved segment of `n` unit steps. -/
theorem reach_line (grid : List (List Bool)) (W H : Nat) (dx dy : Int)
    (hd : ((dx, dy) : Pos) ∈ directions) (px py : Int) :
    ∀ n : Nat, (∀ i : Nat, 1 ≤ i → i ≤ n →
      inBoundsB W H (px + (i : Int) * dx, py + (i : Int) * dy) = true ∧
      walkAt grid (px + (i : Int) * dx, py + (i : Int) * dy) = true) →
    ReachesB grid W H (px, py)
      (px + (n : Int) * dx, py + (n : Int) * dy)
  | 0, _ => by
    rw [show ((px + ((0 : Nat) : Int) * dx, py + ((0 : Nat) : Int) * dy) :
        Pos) = ((px, py) : Pos) from Prod.ext (by push_cast; ring)
        (by push_cast; ring)]
    exact ReachesB.refl _
  | n + 1, h => by
    have hprev := reach_line grid W H dx dy hd px py n
      (fun i h1 h2 => h i h1 (by omega))
    have hn1 := h (n + 1) (by omega) (le_refl _)
    rw [show ((px + ((n + 1 : Nat) : Int) * dx,
        py + ((n + 1 : Nat) : Int) * dy) : Pos) =
        ((px + (n : Int) * dx + dx, py + (n : Int) * dy + dy) : Pos) from
        Prod.ext (by push_cast; ring) (by push_cast; ring)] at hn1 ⊢
    exact ReachesB.step (dx, dy) hprev hd hn1.1 hn1.2

/-- Horizontal segment between two columns whose whole span is walkable
and in bounds. -/
theorem reach_horiz (grid : List (List Bool)) (W H : Nat) (x1 x2 y : Int)
    (h : ∀ x : Int, min x1 x2 ≤ x → x ≤ max x1 x2 →
      inBoundsB W H (x, y) = true ∧ walkAt grid (x, y) = true) :
    ReachesB grid W H (x1, y) (x2, y) := by
  rcases le_total x1 x2 with hle | hle
  · have h0 := reach_line grid W H 1 0 (by decide) x1 y (x2 - x1).toNat
      (fun i h1 h2 => by
        rw [show ((x1 + (i : Int) * 1, y + (i : Int) * 0) : Pos) =
            ((x1 + (i : Int), y) : Pos) from Prod.ext (by ring) (by ring)]
        exact h (x1 + (i : Int)) (by omega) (by omega))
    rw [show ((x1 + ((x2 - x1).toNat : Int) * 1,
        y + ((x2 - x1).toNat : Int) * 0) : Pos) = ((x2, y) : Pos) from
        Prod.ext (by omega) (by ring)] at h0
    exact h0
  · have h0 := reach_line grid W H (-1) 0 (by decide) x1 y (x1 - x2).toNat
      (fun i h1 h2 => by
        rw [show ((x1 + (i : Int) * (-1), y + (i : Int) * 0) : Pos) =
            ((x1 - (i : Int), y) : Pos) from Prod.ext (by ring) (by ring)]
        exact h (x1 - (i : Int)) (by omega) (by omega))
    rw [show ((x1 + ((x1 - x2).toNat : Int) * (-1),
        y + ((x1 - x2).toNat : Int) * 0) : Pos) = ((x2, y) : Pos) from
        Prod.ext (by omega) (by ring)] at h0
    exact h0

/-- Vertical segment between two rows whose whole span is walkable and
in bounds. -/
theorem reach_vert (grid : List (List Bool)) (W H : Nat) (y1 y2 x : Int)
    (h : ∀ y : Int, min y1 y2 ≤ y → y ≤ max y1 y2 →
      inBoundsB W H (x, y) = true ∧ walkAt grid (x, y) = true) :
    ReachesB grid W H (x, y1) (x, y2) := by
  rcases le_total y1 y2 with hle | hle
  · have h0 := reach_line grid W H 0 1 (by decide) x y1 (y2 - y1).toNat
      (fun i h1 h2 => by
        rw [show ((x + (i : Int) * 0, y1 + (i : Int) * 1) : Pos) =
            ((x, y1 + (i : Int)) : Pos) from Prod.ext (by ring) (by ring)]
        exact h (y1 + (i : Int)) (by omega) (by omega))
    rw [show ((x + ((y2 - y1).toNat : Int) * 0,
        y1 + ((y2 - y1).toNat : Int) * 1) : Pos) = ((x, y2) : Pos) from
        Prod.ext (by ring) (by omega)] at h0
    exact h0
  · have h0 := reach_line grid W H 0 (-1) (by decide) x y1 (y1 - y2).toNat
      (fun i h1 h2 => by
        rw [show ((x + (i : Int) * 0, y1 + (i : Int) * (-1)) : Pos) =
            ((x, y1 - (i : Int)) : Pos) from Prod.ext (by ring) (by ring)]
        exact h (y1 - (i : Int)) (by omega) (by omega))
    rw [show ((x + ((y1 - y2).toNat : Int) * 0,
        y1 + ((y1 - y2).toNat : Int) * (-1)) : Pos) = ((x, y2) : Pos) from
        Prod.ext (by ring) (by omega)] at h0
    exact h0

theorem intRange_mem_of {a b v : Int} (h1 : a ≤ v) (h2 : v < b) :
    v ∈ intRange a b := by
  unfold intRange
  exact List.mem_map.mpr
    ⟨(v - a).toNat, List.mem_range.mpr (by omega), by omega⟩

theorem inBoundsB_of (W H : Nat) (p : Pos) (h1 : 0 ≤ p.1)
    (h2 : p.1 < (W : Int)) (h3 : 0 ≤ p.2) (h4 : p.2 < (H : Int)) :
    inBoundsB W H p = true := by
  simp only [inBoundsB, Bool.and_eq_true, decide_eq_true_eq]
  exact ⟨⟨⟨h1, h2⟩, h3⟩, h4⟩

theorem foldl_estab_inv {α β : Type} (P Q : β → Prop) (f : β → α → β)
    (hq : ∀ b a, Q b → Q (f b a))
    (hpres : ∀ b a, P b → P (f b a))
    (a0 : α) (hest : ∀ b, Q b → P (f b a0)) :
    ∀ (l : List α) (b : β), Q b → a0 ∈ l → P (l.foldl f b)
  | [], _, _, h => absurd h (List.not_mem_nil _)
  | a :: t, b, hQ, h => by
    rcases List.mem_cons.mp h with h' | h'
    · subst h'
      simp only [List.foldl_cons]
      exact foldl_pres P f hpres t _ (hest b hQ)
    · simp only [List.foldl_cons]
      exact foldl_estab_inv P Q f hq hpres a0 hest t _ (hq b a hQ) h'

theorem h_tunnel_rect {W H : Nat} {g : List (List Tile)} (x1 x2 y : Int)
    (hr : RectG W H g) : RectG W H (create_h_tunnel g x1 x2 y) := by
  unfold create_h_tunnel
  exact foldl_pres (RectG W H) _ (fun b a hb => carve_rect a y hb) _ g hr

theorem v_tunnel_rect {W H : Nat} {g : List (List Tile)} (y1 y2 x : Int)
    (hr : RectG W H g) : RectG W H (create_v_tunnel g y1 y2 x) := by
  unfold create_v_tunnel
  exact foldl_pres (RectG W H) _ (fun b a hb => carve_rect x a hb) _ g hr

theorem h_tunnel_gmono (g : List (List Tile)) (x1 x2 y : Int) :
    gmono g (create_h_tunnel g x1 x2 y) := by
  unfold create_h_tunnel
  exact foldl_pres (gmono g) _
    (fun b a hb => gmono_trans hb (carve_gmono b a y)) _ g (gmono_refl g)

theorem v_tunnel_gmono (g : List (List Tile)) (y1 y2 x : Int) :
    gmono g (create_v_tunnel g y1 y2 x) := by
  unfold create_v_tunnel
  exact foldl_pres (gmono g) _
    (fun b a hb => gmono_trans hb (carve_gmono b x a)) _ g (gmono_refl g)

theorem h_tunnel_floor {W H : Nat} {g : List (List Tile)} (hr : RectG W H g)
    (x1 x2 y x : Int) (hx : min x1 x2 ≤ x ∧ x ≤ max x1 x2)
    (hxb : 0 ≤ x ∧ x < (W : Int)) (hyb : 0 ≤ y ∧ y < (H : Int)) :
    (tileAt (create_h_tunnel g x1 x2 y) x.toNat y.toNat).is_walkable =
      true := by
  unfold create_h_tunnel
  refine foldl_estab_inv
    (fun g' => (tileAt g' x.toNat y.toNat).is_walkable = true) (RectG W H) _
    (fun b a hb => carve_rect a y hb)
    (fun b a hb => carve_gmono b a y x.toNat y.toNat hb) x
    (fun b hb => by dsimp only; rw [tileAt_carve_self b W H hb x y hxb hyb]; rfl)
    _ g hr (intRange_mem_of hx.1 (by omega))

theorem v_tunnel_floor {W H : Nat} {g : List (List Tile)} (hr : RectG W H g)
    (y1 y2 x y : Int) (hy : min y1 y2 ≤ y ∧ y ≤ max y1 y2)
    (hxb : 0 ≤ x ∧ x < (W : Int)) (hyb : 0 ≤ y ∧ y < (H : Int)) :
    (tileAt (create_v_tunnel g y1 y2 x) x.toNat y.toNat).is_walkable =
      true := by
  unfold create_v_tunnel
  refine foldl_estab_inv
    (fun g' => (tileAt g' x.toNat y.toNat).is_walkable = true) (RectG W H) _
    (fun b a hb => carve_rect x a hb)
    (fun b a hb => carve_gmono b x a x.toNat y.toNat hb) y
    (fun b hb => by dsimp only; rw [tileAt_carve_self b W H hb x y hxb hyb]; rfl)
    _ g hr (intRange_mem_of hy.1 (by omega))

theorem add_room_rect {W H : Nat} {g : List (List Tile)} (room : Room)
    (hr : RectG W H g) : RectG W H (add_room g room) := by
  unfold add_room
  refine foldl_pres (RectG W H) _ ?_ _ g hr
  intro b a hb
  exact foldl_pres (RectG W H) _ (fun b' a' hb' => carve_rect a' a hb') _ b hb

theorem add_room_gmono (g : List (List Tile)) (room : Room) :
    gmono g (add_room g room) := by
  unfold add_room
  refine foldl_pres (gmono g) _ ?_ _ g (gmono_refl g)
  intro b a hb
  refine gmono_trans hb ?_
  exact foldl_pres (gmono b) _
    (fun b' a' hb' => gmono_trans hb' (carve_gmono b' a' a)) _ b
    (gmono_refl b)

theorem add_room_walk {W H : Nat} {g : List (List Tile)} (hr : RectG W H g)
    (room : Room) (x y : Int)
    (hx : room.x ≤ x ∧ x < room.x + room.width)
    (hy : room.y ≤ y ∧ y < room.y + room.height)
    (hxb : 0 ≤ x ∧ x < (W : Int)) (hyb : 0 ≤ y ∧ y < (H : Int)) :
    (tileAt (add_room g room) x.toNat y.toNat).is_walkable = true := by
  unfold add_room
  refine foldl_estab_inv
    (fun g' => (tileAt g' x.toNat y.toNat).is_walkable = true) (RectG W H) _
    ?_ ?_ y ?_ _ g hr (intRange_mem_of hy.1 hy.2)
  · intro b a hb
    exact foldl_pres (RectG W H) _ (fun b' a' hb' => carve_rect a' a hb') _
      b hb
  · intro b a hb
    exact foldl_pres
      (fun g' => (tileAt g' x.toNat y.toNat).is_walkable = true) _
      (fun b' a' hb' => carve_gmono b' a' a x.toNat y.toNat hb') _ b hb
  · intro b hb
    refine foldl_estab_inv
      (fun g' => (tileAt g' x.toNat y.toNat).is_walkable = true) (RectG W H)
      _ (fun b' a' hb' => carve_rect a' y hb')
      (fun b' a' hb' => carve_gmono b' a' y x.toNat y.toNat hb') x
      (fun b' hb' => by dsimp only; rw [tileAt_carve_self b' W H hb' x y hxb hyb]; rfl)
      _ b hb (intRange_mem_of hx.1 hx.2)

/-- Bounds of a room's center inside its rectangle. -/
theorem center_in_room (r : Room) (hw : 1 ≤ r.width) (hh : 1 ≤ r.height) :
    r.x ≤ r.center.1 ∧ r.center.1 < r.x + r.width ∧
    r.y ≤ r.center.2 ∧ r.center.2 < r.y + r.height := by
  unfold Room.center
  dsimp only
  rw [Int.fdiv_eq_ediv _ (by omega), Int.fdiv_eq_ediv _ (by omega)]
  omega

theorem connect_rooms_eq (σ : Nat → Nat) (g : List (List Tile))
    (room1 room2 : Room) (k : Nat) :
    connect_rooms σ g room1 room2 k =
      if (randBool σ k).1 then
        (create_v_tunnel
          (create_h_tunnel g room1.center.1 room2.center.1 room1.center.2)
          room1.center.2 room2.center.2 room2.center.1, (randBool σ k).2)
      else
        (create_h_tunnel
          (create_v_tunnel g room1.center.2 room2.center.2 room1.center.1)
          room1.center.1 room2.center.1 room2.center.2,
          (randBool σ k).2) := rfl

/-- `connect_rooms` keeps the shape, only grows walkability, and links
the two centers in both directions over the resulting mask. -/
theorem connect_rooms_reach (σ : Nat → Nat) (g : List (List Tile))
    (room1 room2 : Room) (k : Nat) (W H : Nat) (hr : RectG W H g)
    (hb1 : 0 ≤ room1.center.1 ∧ room1.center.1 < (W : Int) ∧
      0 ≤ room1.center.2 ∧ room1.center.2 < (H : Int))
    (hb2 : 0 ≤ room2.center.1 ∧ room2.center.1 < (W : Int) ∧
      0 ≤ room2.center.2 ∧ room2.center.2 < (H : Int)) :
    RectG W H (connect_rooms σ g room1 room2 k).1 ∧
    gmono g (connect_rooms σ g room1 room2 k).1 ∧
    ReachesB (maskOf (connect_rooms σ g room1 room2 k).1) W H
      room1.center room2.center ∧
    ReachesB (maskOf (connect_rooms σ g room1 room2 k).1) W H
      room2.center room1.center := by
  have hcell : ∀ (gg : List (List Tile)), RectG W H gg →
      ∀ x y : Int, 0 ≤ x → x < (W : Int) → 0 ≤ y → y < (H : Int) →
      (tileAt gg x.toNat y.toNat).is_walkable = true →
      inBoundsB W H (x, y) = true ∧ walkAt (maskOf gg) (x, y) = true := by
    intro gg hgg x y p1 p2 p3 p4 hw
    have hbb := inBoundsB_of W H (x, y) p1 p2 p3 p4
    exact ⟨hbb, by rw [walkAt_maskOf gg W H hgg (x, y) hbb]; exact hw⟩
  rw [connect_rooms_eq]
  split
  · -- horizontal first, then vertical at room2's column
    have hrH : RectG W H
        (create_h_tunnel g room1.center.1 room2.center.1 room1.center.2) :=
      h_tunnel_rect _ _ _ hr
    have hrV : RectG W H (create_v_tunnel
        (create_h_tunnel g room1.center.1 room2.center.1 room1.center.2)
        room1.center.2 room2.center.2 room2.center.1) :=
      v_tunnel_rect _ _ _ hrH
    have hmono : gmono g (create_v_tunnel
        (create_h_tunnel g room1.center.1 room2.center.1 room1.center.2)
        room1.center.2 room2.center.2 room2.center.1) :=
      gmono_trans (h_tunnel_gmono g _ _ _) (v_tunnel_gmono _ _ _ _)
    have hhor : ∀ x : Int, min room1.center.1 room2.center.1 ≤ x →
        x ≤ max room1.center.1 room2.center.1 →
        inBoundsB W H (x, room1.center.2) = true ∧
        walkAt (maskOf (create_v_tunnel
          (create_h_tunnel g room1.center.1 room2.center.1 room1.center.2)
          room1.center.2 room2.center.2 room2.center.1))
          (x, room1.center.2) = true := by
      intro x hx1 hx2
      refine hcell _ hrV x room1.center.2 (by omega) (by omega) (by omega)
        (by omega) ?_
      refine v_tunnel_gmono _ _ _ _ x.toNat room1.center.2.toNat ?_
      exact h_tunnel_floor hr _ _ _ x ⟨hx1, hx2⟩ ⟨by omega, by omega⟩
        ⟨by omega, by omega⟩
    have hvert : ∀ y : Int, min room1.center.2 room2.center.2 ≤ y →
        y ≤ max room1.center.2 room2.center.2 →
        inBoundsB W H (room2.center.1, y) = true ∧
        walkAt (maskOf (create_v_tunnel
          (create_h_tunnel g room1.center.1 room2.center.1 room1.center.2)
          room1.center.2 room2.center.2 room2.center.1))
          (room2.center.1, y) = true := by
      intro y hy1 hy2
      refine hcell _ hrV room2.center.1 y (by omega) (by omega) (by omega)
        (by omega) ?_
      exact v_tunnel_floor hrH _ _ _ y ⟨hy1, hy2⟩ ⟨by omega, by omega⟩
        ⟨by omega, by omega⟩
    have r1 := reach_horiz _ W H room1.center.1 room2.center.1
      room1.center.2 hhor
    have r2 := reach_vert _ W H room1.center.2 room2.center.2
      room2.center.1 hvert
    have r2s := reach_vert _ W H room2.center.2 room1.center.2
      room2.center.1 (fun y h1 h2 => hvert y (by omega) (by omega))
    have r1s := reach_horiz _ W H room2.center.1 room1.center.1
      room1.center.2 (fun x h1 h2 => hhor x (by omega) (by omega))
    exact ⟨hrV, hmono, reachesB_trans r1 r2, reachesB_trans r2s r1s⟩
  · -- vertical first at room1's column, then horizontal at room2's row
    have hrV : RectG W H
        (create_v_tunnel g room1.center.2 room2.center.2 room1.center.1) :=
      v_tunnel_rect _ _ _ hr
    have hrH : RectG W H (create_h_tunnel
        (create_v_tunnel g room1.center.2 room2.center.2 room1.center.1)
        room1.center.1 room2.center.1 room2.center.2) :=
      h_tunnel_rect _ _ _ hrV
    have hmono : gmono g (create_h_tunnel
        (create_v_tunnel g room1.center.2 room2.center.2 room1.center.1)
        room1.center.1 room2.center.1 room2.center.2) :=
      gmono_trans (v_tunnel_gmono g _ _ _) (h_tunnel_gmono _ _ _ _)
    have hvert : ∀ y : Int, min room1.center.2 room2.center.2 ≤ y →
        y ≤ max room1.center.2 room2.center.2 →
        inBoundsB W H (room1.center.1, y) = true ∧
        walkAt (maskOf (create_h_tunnel
          (create_v_tunnel g room1.center.2 room2.center.2 room1.center.1)
          room1.center.1 room2.center.1 room2.center.2))
          (room1.center.1, y) = true := by
      intro y hy1 hy2
      refine hcell _ hrH room1.center.1 y (by omega) (by omega) (by omega)
        (by omega) ?_
      refine h_tunnel_gmono _ _ _ _ room1.center.1.toNat y.toNat ?_
      exact v_tunnel_floor hr _ _ _ y ⟨hy1, hy2⟩ ⟨by omega, by omega⟩
        ⟨by omega, by omega⟩
    have hhor : ∀ x : Int, min room1.center.1 room2.center.1 ≤ x →
        x ≤ max room1.center.1 room2.center.1 →
        inBoundsB W H (x, room2.center.2) = true ∧
        walkAt (maskOf (create_h_tunnel
          (create_v_tunnel g room1.center.2 room2.center.2 room1.center.1)
          room1.center.1 room2.center.1 room2.center.2))
          (x, room2.center.2) = true := by
      intro x hx1 hx2
      refine hcell _ hrH x room2.center.2 (by omega) (by omega) (by omega)
        (by omega) ?_
      exact h_tunnel_floor hrV _ _ _ x ⟨hx1, hx2⟩ ⟨by omega, by omega⟩
        ⟨by omega, by omega⟩
    have r1 := reach_vert _ W H room1.center.2 room2.center.2
      room1.center.1 hvert
    have r2 := reach_horiz _ W H room1.center.1 room2.center.1
      room2.center.2 hhor
    have r2s := reach_horiz _ W H room2.center.1 room1.center.1
      room2.center.2 (fun x h1 h2 => hhor x (by omega) (by omega))
    have r1s := reach_vert _ W H room2.center.2 room1.center.2
      room1.center.1 (fun y h1 h2 => hvert y (by omega) (by omega))
    exact ⟨hrH, hmono, reachesB_trans r1 r2, reachesB_trans r2s r1s⟩

/-- Shape facts about a room produced by the placement loop: the room
rests strictly inside the border with at least one cell of body. -/
def RoomOK (W H : Nat) (r : Room) : Prop :=
  1 ≤ r.x ∧ 1 ≤ r.y ∧ 1 ≤ r.width ∧ 1 ≤ r.height ∧
  r.x + r.width ≤ (W : Int) - 2 ∧ r.y + r.height ≤ (H : Int) - 2

theorem roomOK_center {W H : Nat} {r : Room} (h : RoomOK W H r) :
    0 ≤ r.center.1 ∧ r.center.1 < (W : Int) ∧
    0 ≤ r.center.2 ∧ r.center.2 < (H : Int) := by
  obtain ⟨h1, h2, h3, h4, h5, h6⟩ := h
  have hc := center_in_room r h3 h4
  omega

theorem randint_bounds {σ : Nat → Nat} {a b : Int} {k : Nat}
    {v : Int} {k' : Nat} (h : randint σ a b k = some (v, k')) :
    a ≤ v ∧ v ≤ b ∧ k' = k + 1 := by
  unfold randint at h
  split at h
  · rename_i hab
    injection h with h'
    have h1 : a + ((σ k % (b - a + 1).toNat : Nat) : Int) = v :=
      congrArg Prod.fst h'
    have h2 : k + 1 = k' := congrArg Prod.snd h'
    have hmod : σ k % (b - a + 1).toNat < (b - a + 1).toNat :=
      Nat.mod_lt _ (by omega)
    omega
  · exact absurd h (by simp)

theorem choiceIdx_bounds {σ : Nat → Nat} {n k i k' : Nat}
    (h : choiceIdx σ n k = some (i, k')) : i < n ∧ k' = k + 1 := by
  unfold choiceIdx at h
  split at h
  · exact absurd h (by simp)
  · rename_i hn
    injection h with h'
    have h1 : σ k % n = i := congrArg Prod.fst h'
    have h2 : k + 1 = k' := congrArg Prod.snd h'
    have hmod : σ k % n < n := Nat.mod_lt _ (by omega)
    omega

/-- Reachability over a grid's mask is preserved by walkability
growth. -/
theorem reach_gmono {W H : Nat} {g g' : List (List Tile)}
    (hr : RectG W H g) (hr' : RectG W H g') (hm : gmono g g')
    {a b : Pos} (h : ReachesB (maskOf g) W H a b) :
    ReachesB (maskOf g') W H a b := by
  refine reachesB_mono ?_ h
  intro p hpb hpw
  rw [walkAt_maskOf g' W H hr' p hpb]
  rw [walkAt_maskOf g W H hr p hpb] at hpw
  exact hm _ _ hpw

/-- A reachability with distinct endpoints ends with a step, so its
target cell is walkable. -/
theorem reachesB_target {grid : List (List Bool)} {W H : Nat} {a b : Pos}
    (h : ReachesB grid W H a b) : a = b ∨ walkAt grid b = true := by
  induction h with
  | refl => exact Or.inl rfl
  | step d hq hd hb hw ih => exact Or.inr hw

/-- An index below the length selects a member of the list. -/
theorem mem_getD_index {α : Type} (d : α) {l : List α} {i : Nat}
    (h : i < l.length) : l.getD i d ∈ l :=
  List.get?_mem (get?_eq_some_getD d i l h)

/-- Every member sits at some index, read back by `getD`. -/
theorem mem_index_getD {α : Type} (d : α) :
    ∀ (l : List α) (a : α), a ∈ l → ∃ i, i < l.length ∧ l.getD i d = a
  | [], a, h => absurd h (List.not_mem_nil a)
  | b :: l, a, h => by
    rcases List.mem_cons.mp h with h' | h'
    · exact ⟨0, by simp, by rw [h']; rfl⟩
    · obtain ⟨i, hi, hg⟩ := mem_index_getD d l a h'
      exact ⟨i + 1, by simp only [List.length_cons]; omega, hg⟩

theorem getD_set_self (v : Bool) :
    ∀ (l : List Bool) (n : Nat), n < l.length →
      (l.set n v).getD n false = v
  | [], _, h => absurd h (by simp)
  | _ :: _, 0, _ => rfl
  | _ :: l, n + 1, h => getD_set_self v l n (by simpa using h)

theorem getD_set_ne (v : Bool) :
    ∀ (l : List Bool) (n m : Nat), m ≠ n →
      (l.set n v).getD m false = l.getD m false
  | [], _, _, _ => rfl
  | _ :: _, 0, 0, h => absurd rfl h
  | _ :: _, 0, _ + 1, _ => rfl
  | _ :: _, _ + 1, 0, _ => rfl
  | _ :: l, n + 1, m + 1, h => getD_set_ne v l n m (by omega)

theorem getD_replicate_false : ∀ (n i : Nat),
    (List.replicate n false).getD i false = false
  | 0, _ => rfl
  | _ + 1, 0 => rfl
  | n + 1, i + 1 => getD_replicate_false n i

/-- No member lives in a list whose `isEmpty` test passed. -/
theorem not_mem_of_isEmpty {α : Type} {l : List α} (h : l.isEmpty = true)
    {a : α} (hm : a ∈ l) : False := by
  cases l with
  | nil => exact absurd hm (List.not_mem_nil a)
  | cons b t => exact absurd h (by simp [List.isEmpty])

/-- A Boolean list whose every `getD` read is `true` passes `all`. -/
theorem all_of_getD : ∀ (conn : List Bool),
    (∀ i, i < conn.length → conn.getD i false = true) →
    conn.all (fun b => b) = true
  | [], _ => rfl
  | b :: t, h => by
    have hb : b = true := h 0 (by simp)
    have ht := all_of_getD t (fun i hi =>
      h (i + 1) (by simp only [List.length_cons]; omega))
    simp only [List.all_cons, ht, Bool.and_true]
    exact hb

/-- A fold that either keeps its accumulator or installs the scanned
element yields an element of the list (or the initial accumulator). -/
theorem foldl_opt_mem {α β : Type} (f : Option β → α → Option β)
    (pr : β → α)
    (hf : ∀ b a q, f b a = some q → pr q = a ∨ b = some q) :
    ∀ (l : List α) (b : Option β) (q : β),
      l.foldl f b = some q → pr q ∈ l ∨ b = some q
  | [], _, _, h => Or.inr h
  | a :: l, b, q, h => by
    rcases foldl_opt_mem f pr hf l (f b a) q h with h' | h'
    · exact Or.inl (List.mem_cons_of_mem a h')
    · rcases hf b a q h' with h'' | h''
      · exact Or.inl (by rw [h'']; exact List.mem_cons_self a l)
      · exact Or.inr h''

/-- A pair produced by `closestPair` joins a connected index with an
unconnected one. -/
theorem closestPair_mem (rooms : List Room) (conn : List Bool)
    (ij : Nat × Nat) (h : closestPair rooms conn = some ij) :
    ij.1 ∈ (List.range rooms.length).filter
      (fun i => conn.getD i false) ∧
    ij.2 ∈ (List.range rooms.length).filter
      (fun i => ¬ conn.getD i false) := by
  unfold closestPair at h
  dsimp only at h
  obtain ⟨q, hfold, hq⟩ := Option.map_eq_some'.mp h
  rcases foldl_opt_mem _ Prod.fst
    (by
      intro b a q' hba
      cases b with
      | none =>
        dsimp only at hba
        injection hba with hba'
        exact Or.inl (by rw [← hba'])
      | some qm =>
        dsimp only at hba
        split at hba
        · injection hba with hba'
          exact Or.inl (by rw [← hba'])
        · exact Or.inr hba)
    _ _ _ hfold with hmem | hmem
  · obtain ⟨i, hi, hij⟩ := List.mem_flatMap.mp hmem
    obtain ⟨j, hj, hij'⟩ := List.mem_map.mp hij
    rw [hq] at hij'
    rw [← hij']
    exact ⟨hi, hj⟩
  · exact absurd hmem (by simp)

theorem mem_filter_range_conn {n : Nat} {conn : List Bool} {i : Nat}
    (h : i ∈ (List.range n).filter (fun i => conn.getD i false)) :
    i < n ∧ conn.getD i false = true := by
  obtain ⟨h1, h2⟩ := List.mem_filter.mp h
  exact ⟨List.mem_range.mp h1, h2⟩

theorem mem_filter_range_unconn {n : Nat} {conn : List Bool} {i : Nat}
    (h : i ∈ (List.range n).filter (fun i => ¬ conn.getD i false)) :
    i < n ∧ conn.getD i false = false := by
  obtain ⟨h1, h2⟩ := List.mem_filter.mp h
  refine ⟨List.mem_range.mp h1, ?_⟩
  simpa using h2

/-- If the unconnected-index list is empty the `all` test must have
passed. -/
theorem ensure_exit_unconn (conn : List Bool) (n : Nat)
    (hlen : conn.length = n)
    (hnall : ¬ (conn.all (fun b => b)) = true)
    (hue : ((List.range n).filter
      (fun i => ¬ conn.getD i false)).isEmpty = true) : False := by
  apply hnall
  apply all_of_getD
  intro i hi
  by_contra hne
  have hgd : conn.getD i false = false := by
    cases hgd : conn.getD i false
    · rfl
    · exact absurd hgd hne
  have hmem : i ∈ (List.range n).filter
      (fun j => ¬ conn.getD j false) :=
    List.mem_filter.mpr ⟨List.mem_range.mpr (by omega),
      by rw [hgd]; decide⟩
  exact not_mem_of_isEmpty hue hmem

/-- With a flagged index at hand the connected-index list cannot be
empty (and with no rooms the `all` test passes). -/
theorem ensure_exit_conn (conn : List Bool) (rooms : List Room)
    (hlen : conn.length = rooms.length)
    (hnall : ¬ (conn.all (fun b => b)) = true)
    (hex : rooms = [] ∨ ∃ i, i < rooms.length ∧ conn.getD i false = true)
    (hce : ((List.range rooms.length).filter
      (fun i => conn.getD i false)).isEmpty = true) : False := by
  rcases hex with hnil | ⟨i, hi, hti⟩
  · apply hnall
    have hcn : conn = [] := List.length_eq_zero.mp (by rw [hlen, hnil]; rfl)
    rw [hcn]
    rfl
  · exact not_mem_of_isEmpty hce (List.mem_filter.mpr
      ⟨List.mem_range.mpr hi, hti⟩)

theorem connect_rect_gmono (σ : Nat → Nat) (g : List (List Tile))
    (r1 r2 : Room) (k : Nat) {W H : Nat} (hr : RectG W H g) :
    RectG W H (connect_rooms σ g r1 r2 k).1 ∧
    gmono g (connect_rooms σ g r1 r2 k).1 := by
  rw [connect_rooms_eq]
  split
  · exact ⟨v_tunnel_rect _ _ _ (h_tunnel_rect _ _ _ hr),
      gmono_trans (h_tunnel_gmono _ _ _ _) (v_tunnel_gmono _ _ _ _)⟩
  · exact ⟨h_tunnel_rect _ _ _ (v_tunnel_rect _ _ _ hr),
      gmono_trans (v_tunnel_gmono _ _ _ _) (h_tunnel_gmono _ _ _ _)⟩

theorem bind_some_inv {α β : Type} {o : Option α} {f : α → Option β}
    {r : β} (h : o.bind f = some r) : ∃ a, o = some a ∧ f a = some r := by
  cases o with
  | none => exact absurd h (by simp)
  | some a => exact ⟨a, rfl, h⟩

/-- The placement loop keeps the grid rectangular and every room — old
(retained from a failed pass) or newly placed — well-shaped. -/
theorem placeLoop_basic (σ : Nat → Nat) (W H maxRooms : Nat)
    (roomMin roomMax : Int) (hmin : 1 ≤ roomMin) :
    ∀ (att : Nat) (g : List (List Tile)) (rooms : List Room)
      (created k : Nat) (res : List (List Tile) × List Room × Nat),
      placeLoop σ W H maxRooms roomMin roomMax att g rooms created k =
        some res →
      RectG W H g → (∀ r ∈ rooms, RoomOK W H r) →
      RectG W H res.1 ∧ ∀ r ∈ res.2.1, RoomOK W H r
  | 0, g, rooms, created, k, res, h, hr, hok => by
    rw [placeLoop] at h
    injection h with h'
    rw [← h']
    exact ⟨hr, hok⟩
  | att + 1, g, rooms, created, k, res, h, hr, hok => by
    rw [placeLoop] at h
    split at h
    · injection h with h'
      rw [← h']
      exact ⟨hr, hok⟩
    · cases hw : randint σ roomMin roomMax k with
      | none =>
        rw [hw, Option.none_bind] at h
        exact absurd h (by simp)
      | some wk =>
      obtain ⟨wv, k1⟩ := wk
      rw [hw, Option.some_bind] at h
      cases hh : randint σ roomMin roomMax k1 with
      | none =>
        rw [hh, Option.none_bind] at h
        exact absurd h (by simp)
      | some hk =>
      obtain ⟨hv, k2⟩ := hk
      rw [hh, Option.some_bind] at h
      cases hx : randint σ 1 ((W : Int) - wv - 2) k2 with
      | none =>
        rw [hx, Option.none_bind] at h
        exact absurd h (by simp)
      | some xk =>
      obtain ⟨xv, k3⟩ := xk
      rw [hx, Option.some_bind] at h
      cases hy : randint σ 1 ((H : Int) - hv - 2) k3 with
      | none =>
        rw [hy, Option.none_bind] at h
        exact absurd h (by simp)
      | some yk =>
      obtain ⟨yv, k4⟩ := yk
      rw [hy, Option.some_bind] at h
      dsimp only at h
      have hokn : RoomOK W H
          { x := xv, y := yv, width := wv, height := hv } := by
        obtain ⟨hw1, hw2, _⟩ := randint_bounds hw
        obtain ⟨hh1, hh2, _⟩ := randint_bounds hh
        obtain ⟨hx1, hx2, _⟩ := randint_bounds hx
        obtain ⟨hy1, hy2, _⟩ := randint_bounds hy
        unfold RoomOK
        dsimp only
        omega
      have hok' : ∀ r ∈ rooms ++
          [({ x := xv, y := yv, width := wv, height := hv } : Room)],
          RoomOK W H r := by
        intro r hrm
        rcases List.mem_append.mp hrm with h' | h'
        · exact hok r h'
        · rw [List.mem_singleton.mp h']
          exact hokn
      split at h
      · split at h
        · cases hc : choiceIdx σ rooms.length k4 with
          | none =>
            rw [hc, Option.none_bind] at h
            exact absurd h (by simp)
          | some ik =>
            obtain ⟨iv, k5⟩ := ik
            rw [hc, Option.some_bind] at h
            dsimp only at h
            exact placeLoop_basic σ W H maxRooms roomMin roomMax hmin att
              _ _ _ _ res h
              (connect_rect_gmono σ (add_room g _) _ _ k5
                (add_room_rect _ hr)).1
              hok'
        · exact placeLoop_basic σ W H maxRooms roomMin roomMax hmin att
            _ _ _ _ res h (add_room_rect _ hr) hok'
      · exact placeLoop_basic σ W H maxRooms roomMin roomMax hmin att
          _ _ _ _ res h hr hok

theorem extraLoop_rect_gmono (σ : Nat → Nat) (rooms : List Room)
    {W H : Nat} :
    ∀ (n : Nat) (g : List (List Tile)) (k : Nat)
      (res : List (List Tile) × Nat),
      extraLoop σ rooms n g k = some res → RectG W H g →
      RectG W H res.1 ∧ gmono g res.1
  | 0, g, k, res, h, hr => by
    rw [extraLoop] at h
    injection h with h'
    rw [← h']
    exact ⟨hr, gmono_refl g⟩
  | n + 1, g, k, res, h, hr => by
    rw [extraLoop] at h
    cases hc : choiceIdx σ rooms.length k with
    | none =>
      rw [hc, Option.none_bind] at h
      exact absurd h (by simp)
    | some ik =>
      rw [hc, Option.some_bind] at h
      cases hj : choiceIdx σ rooms.length ik.2 with
      | none =>
        rw [hj, Option.none_bind] at h
        exact absurd h (by simp)
      | some jk =>
        rw [hj, Option.some_bind] at h
        dsimp only at h
        split at h
        · obtain ⟨hc1, hc2⟩ := connect_rect_gmono σ g _ _ jk.2 hr
          obtain ⟨hr', hm'⟩ := extraLoop_rect_gmono σ rooms n _ _ res h hc1
          exact ⟨hr', gmono_trans hc2 hm'⟩
        · exact extraLoop_rect_gmono σ rooms n _ _ res h hr

/-- One connecting pass of `ensure_connectivity`'s loop: carving the
corridor between a flagged room's center and an unflagged one's
re-establishes the loop invariant with both rooms flagged. -/
theorem ensureLoop_step (σ : Nat → Nat) (rooms : List Room) (W H : Nat)
    (hok : ∀ r ∈ rooms, RoomOK W H r) (g : List (List Tile))
    (conn : List Bool) (k : Nat) (i j : Nat)
    (hr : RectG W H g) (hlen : conn.length = rooms.length)
    (hi : i < rooms.length) (hj : j < rooms.length)
    (hti : conn.getD i false = true) ( _htj : conn.getD j false = false)
    (hpair : ∀ a b, a < rooms.length → b < rooms.length →
      conn.getD a false = true → conn.getD b false = true →
      ReachesB (maskOf g) W H (rooms.getD a default).center
        (rooms.getD b default).center) :
    RectG W H (connect_rooms σ g (rooms.getD i default)
      (rooms.getD j default) k).1 ∧
    gmono g (connect_rooms σ g (rooms.getD i default)
      (rooms.getD j default) k).1 ∧
    ((conn.set i true).set j true).length = rooms.length ∧
    (∃ m, m < rooms.length ∧
      ((conn.set i true).set j true).getD m false = true) ∧
    (∀ a b, a < rooms.length → b < rooms.length →
      ((conn.set i true).set j true).getD a false = true →
      ((conn.set i true).set j true).getD b false = true →
      ReachesB (maskOf (connect_rooms σ g (rooms.getD i default)
        (rooms.getD j default) k).1) W H
        (rooms.getD a default).center (rooms.getD b default).center) := by
  have hcbi := roomOK_center (hok _ (mem_getD_index default hi))
  have hcbj := roomOK_center (hok _ (mem_getD_index default hj))
  obtain ⟨hrc, hgm, hij, hji⟩ := connect_rooms_reach σ g
    (rooms.getD i default) (rooms.getD j default) k W H hr
    ⟨hcbi.1, hcbi.2.1, hcbi.2.2.1, hcbi.2.2.2⟩
    ⟨hcbj.1, hcbj.2.1, hcbj.2.2.1, hcbj.2.2.2⟩
  have hlen' : ((conn.set i true).set j true).length = rooms.length := by
    rw [List.length_set, List.length_set]
    exact hlen
  have hdec : ∀ m, m < rooms.length →
      ((conn.set i true).set j true).getD m false = true →
      m = j ∨ m = i ∨ conn.getD m false = true := by
    intro m hm hflag
    by_cases hej : m = j
    · exact Or.inl hej
    · rw [getD_set_ne true (conn.set i true) j m hej] at hflag
      by_cases hei : m = i
      · exact Or.inr (Or.inl hei)
      · rw [getD_set_ne true conn i m hei] at hflag
        exact Or.inr (Or.inr hflag)
  have hto : ∀ m, m < rooms.length →
      ((conn.set i true).set j true).getD m false = true →
      ReachesB (maskOf (connect_rooms σ g (rooms.getD i default)
        (rooms.getD j default) k).1) W H
        (rooms.getD m default).center (rooms.getD i default).center := by
    intro m hm hflag
    rcases hdec m hm hflag with he | he | hold
    · rw [he]
      exact hji
    · rw [he]
      exact ReachesB.refl _
    · exact reach_gmono hr hrc hgm (hpair m i hm hi hold hti)
  have hfrom : ∀ m, m < rooms.length →
      ((conn.set i true).set j true).getD m false = true →
      ReachesB (maskOf (connect_rooms σ g (rooms.getD i default)
        (rooms.getD j default) k).1) W H
        (rooms.getD i default).center (rooms.getD m default).center := by
    intro m hm hflag
    rcases hdec m hm hflag with he | he | hold
    · rw [he]
      exact hij
    · rw [he]
      exact ReachesB.refl _
    · exact reach_gmono hr hrc hgm (hpair i m hi hm hti hold)
  refine ⟨hrc, hgm, hlen', ⟨j, hj, ?_⟩, ?_⟩
  · exact getD_set_self true (conn.set i true) j
      (by rw [List.length_set]; omega)
  · intro a b ha hb hfa hfb
    exact reachesB_trans (hto a ha hfa) (hfrom b hb hfb)

/-- The closest-pair loop of `ensure_connectivity`: starting from any
flag state with at least one flagged room (unless there are none) whose
flagged rooms are pairwise linked, a successful run grows the grid
monotonically and ends with every pair of rooms linked
center-to-center. -/
theorem ensureLoop_conn (σ : Nat → Nat) (rooms : List Room) (W H : Nat)
    (hok : ∀ r ∈ rooms, RoomOK W H r) :
    ∀ (fuel : Nat) (g : List (List Tile)) (conn : List Bool) (k : Nat)
      (res : List (List Tile) × List Bool × Nat),
      ensureLoop σ rooms fuel g conn k = some res →
      RectG W H g →
      conn.length = rooms.length →
      (rooms = [] ∨ ∃ i, i < rooms.length ∧ conn.getD i false = true) →
      (∀ a b, a < rooms.length → b < rooms.length →
        conn.getD a false = true → conn.getD b false = true →
        ReachesB (maskOf g) W H (rooms.getD a default).center
          (rooms.getD b default).center) →
      RectG W H res.1 ∧ gmono g res.1 ∧
      (∀ a b, a < rooms.length → b < rooms.length →
        ReachesB (maskOf res.1) W H (rooms.getD a default).center
          (rooms.getD b default).center)
  | 0, _, _, _, _, h, _, _, _, _ => absurd h (by rw [ensureLoop]; simp)
  | fuel + 1, g, conn, k, res, h, hr, hlen, hex, hpair => by
    rw [ensureLoop] at h
    split at h
    · rename_i hall
      injection h with h'
      rw [← h']
      refine ⟨hr, gmono_refl g, ?_⟩
      intro a b ha hb
      have hfa : conn.getD a false = true :=
        List.all_eq_true.mp hall _ (mem_getD_index false (by omega))
      have hfb : conn.getD b false = true :=
        List.all_eq_true.mp hall _ (mem_getD_index false (by omega))
      exact hpair a b ha hb hfa hfb
    · rename_i hnall
      split at h
      · rename_i ij heq
        dsimp only at h
        split at h
        · rename_i hce
          exact (ensure_exit_conn conn rooms hlen hnall hex hce).elim
        · split at h
          · rename_i hue
            exact (ensure_exit_unconn conn rooms.length hlen hnall
              hue).elim
          · obtain ⟨hm1, hm2⟩ := closestPair_mem rooms conn ij heq
            obtain ⟨hi1, ht1⟩ := mem_filter_range_conn hm1
            obtain ⟨hi2, ht2⟩ := mem_filter_range_unconn hm2
            obtain ⟨hrc, hgm, hlen', hex', hpair'⟩ := ensureLoop_step σ
              rooms W H hok g conn k ij.1 ij.2 hr hlen hi1 hi2 ht1 ht2
              hpair
            obtain ⟨hrr, hmm, hfin⟩ := ensureLoop_conn σ rooms W H hok
              fuel _ _ _ res h hrc hlen' (Or.inr hex') hpair'
            exact ⟨hrr, gmono_trans hgm hmm, hfin⟩
      · dsimp only at h
        split at h
        · rename_i hce
          exact (ensure_exit_conn conn rooms hlen hnall hex hce).elim
        · split at h
          · rename_i hue
            exact (ensure_exit_unconn conn rooms.length hlen hnall
              hue).elim
          · obtain ⟨ck, hck, h⟩ := bind_some_inv h
            obtain ⟨uk, huk, h⟩ := bind_some_inv h
            have hcklt := (choiceIdx_bounds hck).1
            have huklt := (choiceIdx_bounds huk).1
            obtain ⟨hi1, ht1⟩ := mem_filter_range_conn
              (mem_getD_index 0 hcklt)
            obtain ⟨hi2, ht2⟩ := mem_filter_range_unconn
              (mem_getD_index 0 huklt)
            obtain ⟨hrc, hgm, hlen', hex', hpair'⟩ := ensureLoop_step σ
              rooms W H hok g conn uk.2 _ _ hr hlen hi1 hi2 ht1 ht2 hpair
            obtain ⟨hrr, hmm, hfin⟩ := ensureLoop_conn σ rooms W H hok
              fuel _ _ _ res h hrc hlen' (Or.inr hex') hpair'
            exact ⟨hrr, gmono_trans hgm hmm, hfin⟩

/-- `ensure_connectivity` links every pair of rooms center-to-center
over the resulting mask, growing the grid monotonically. -/
theorem ensure_conn_full (σ : Nat → Nat) (g : List (List Tile))
    (rooms : List Room) (k : Nat) (W H : Nat)
    (hok : ∀ r ∈ rooms, RoomOK W H r) (hr : RectG W H g)
    (res : List (List Tile) × Nat)
    (h : ensure_connectivity σ g rooms k = some res) :
    RectG W H res.1 ∧ gmono g res.1 ∧
    (∀ a b, a < rooms.length → b < rooms.length →
      ReachesB (maskOf res.1) W H (rooms.getD a default).center
        (rooms.getD b default).center) := by
  unfold ensure_connectivity at h
  dsimp only at h
  obtain ⟨gck, hgck, h⟩ := bind_some_inv h
  have hlen0 : ((List.replicate rooms.length false).set 0 true).length =
      rooms.length := by
    rw [List.length_set, List.length_replicate]
  have hflag : ∀ m, ((List.replicate rooms.length false).set 0
      true).getD m false = true → m = 0 := by
    intro m hm
    by_contra hne
    rw [getD_set_ne true (List.replicate rooms.length false) 0 m hne,
      getD_replicate_false] at hm
    exact absurd hm (by simp)
  have hex0 : rooms = [] ∨ ∃ i, i < rooms.length ∧
      ((List.replicate rooms.length false).set 0 true).getD i false =
        true := by
    cases hrl : rooms with
    | nil => exact Or.inl rfl
    | cons r t =>
      refine Or.inr ⟨0, by simp, ?_⟩
      exact getD_set_self true (List.replicate (r :: t).length false) 0
        (by rw [List.length_replicate]; simp)
  have hpair0 : ∀ a b, a < rooms.length → b < rooms.length →
      ((List.replicate rooms.length false).set 0 true).getD a false =
        true →
      ((List.replicate rooms.length false).set 0 true).getD b false =
        true →
      ReachesB (maskOf g) W H (rooms.getD a default).center
        (rooms.getD b default).center := by
    intro a b ha hb hfa hfb
    rw [hflag a hfa, hflag b hfb]
    exact ReachesB.refl _
  obtain ⟨hr1, hm1, hfin1⟩ := ensureLoop_conn σ rooms W H hok
    (rooms.length + 1) g _ k gck hgck hr hlen0 hex0 hpair0
  obtain ⟨hr2, hm2⟩ := extraLoop_rect_gmono σ rooms
    (max 1 (rooms.length / 10)) gck.1 gck.2.2 res h hr1
  refine ⟨hr2, gmono_trans hm1 hm2, ?_⟩
  intro a b ha hb
  exact reach_gmono hr1 hr2 hm2 (hfin1 a b ha hb)

theorem doorCell_rect_gmono (σ : Nat → Nat)
    (st : List (List Tile) × Nat) (x y : Int) {W H : Nat}
    (hr : RectG W H st.1) :
    RectG W H (doorCell σ st x y).1 ∧ gmono st.1 (doorCell σ st x y).1 := by
  unfold doorCell
  split
  · split
    · dsimp only
      split
      · split
        · exact ⟨gridModify_rect _ _ _ hr,
            gridModify_gmono _ _ _ _ (fun t _ => rfl)⟩
        · exact ⟨hr, gmono_refl _⟩
      · exact ⟨hr, gmono_refl _⟩
    · exact ⟨hr, gmono_refl _⟩
  · exact ⟨hr, gmono_refl _⟩

theorem add_doors_rect_gmono (σ : Nat → Nat) (W' H' : Nat)
    (g : List (List Tile)) (k : Nat) {W H : Nat} (hr : RectG W H g) :
    RectG W H (add_doors σ W' H' g k).1 ∧
    gmono g (add_doors σ W' H' g k).1 := by
  unfold add_doors
  refine foldl_pres
    (fun st : List (List Tile) × Nat => RectG W H st.1 ∧ gmono g st.1) _ ?_
    _ (g, k) ⟨hr, gmono_refl g⟩
  intro b a hb
  refine foldl_pres
    (fun st : List (List Tile) × Nat => RectG W H st.1 ∧ gmono g st.1) _ ?_
    _ b hb
  intro b' a' hb'
  obtain ⟨hd1, hd2⟩ := doorCell_rect_gmono σ b' a' a hb'.1
  exact ⟨hd1, gmono_trans hb'.2 hd2⟩

theorem variantCell_rect_gmono (σ : Nat → Nat)
    (st : List (List Tile) × Nat) (x y : Int) {W H : Nat}
    (hr : RectG W H st.1) :
    RectG W H (variantCell σ st x y).1 ∧
    gmono st.1 (variantCell σ st x y).1 := by
  unfold variantCell
  split
  · dsimp only
    split
    · refine ⟨gridModify_rect _ _ _ hr, gridModify_gmono _ _ _ _ ?_⟩
      intro t ht
      rw [is_walkable_congr (show (({ t with
        variant := 1 + σ ((randBool σ st.2).2) % 2 } : Tile)).type = t.type
        from rfl)]
      exact ht
    · exact ⟨hr, gmono_refl _⟩
  · exact ⟨hr, gmono_refl _⟩

theorem add_floor_variants_rect_gmono (σ : Nat → Nat) (W' H' : Nat)
    (g : List (List Tile)) (k : Nat) {W H : Nat} (hr : RectG W H g) :
    RectG W H (add_floor_variants σ W' H' g k).1 ∧
    gmono g (add_floor_variants σ W' H' g k).1 := by
  unfold add_floor_variants
  refine foldl_pres
    (fun st : List (List Tile) × Nat => RectG W H st.1 ∧ gmono g st.1) _ ?_
    _ (g, k) ⟨hr, gmono_refl g⟩
  intro b a hb
  refine foldl_pres
    (fun st : List (List Tile) × Nat => RectG W H st.1 ∧ gmono g st.1) _ ?_
    _ b hb
  intro b' a' hb'
  obtain ⟨hd1, hd2⟩ := variantCell_rect_gmono σ b' a' a hb'.1
  exact ⟨hd1, gmono_trans hb'.2 hd2⟩

theorem replicate_rect (W H : Nat) :
    RectG W H (List.replicate H (List.replicate W
      ({ type := TileType.wall } : Tile))) := by
  constructor
  · exact List.length_replicate _ _
  · intro row hrow
    rw [List.eq_of_mem_replicate hrow]
    exact List.length_replicate _ _

/-- Every successful `generate` pass, entered with any retained list of
well-shaped rooms, returns a rectangular grid, at least five well-shaped
rooms, and pairwise center reachability over the final mask. -/
theorem generateF_inv (σ : Nat → Nat) (W H maxRooms : Nat)
    (roomMin roomMax : Int) (hmin : 1 ≤ roomMin) :
    ∀ (retries : Nat) (rooms0 : List Room) (k : Nat)
      (res : List (List Tile) × List Room × Nat),
      generateF σ W H maxRooms roomMin roomMax retries rooms0 k =
        some res →
      (∀ r ∈ rooms0, RoomOK W H r) →
      RectG W H res.1 ∧ (∀ r ∈ res.2.1, RoomOK W H r) ∧
      5 ≤ res.2.1.length ∧
      (∀ a b, a < res.2.1.length → b < res.2.1.length →
        ReachesB (maskOf res.1) W H (res.2.1.getD a default).center
          (res.2.1.getD b default).center)
  | 0, _, _, _, h, _ => absurd h (by rw [generateF]; simp)
  | retries + 1, rooms0, k, res, h, hok0 => by
    rw [generateF] at h
    cases hpl : placeLoop σ W H maxRooms roomMin roomMax (maxRooms * 5)
        (List.replicate H (List.replicate W { type := TileType.wall }))
        rooms0 0 k with
    | none =>
      rw [hpl, Option.none_bind] at h
      exact absurd h (by simp)
    | some grk =>
      rw [hpl, Option.some_bind] at h
      dsimp only at h
      obtain ⟨hrg, hokg⟩ := placeLoop_basic σ W H maxRooms roomMin
        roomMax hmin (maxRooms * 5) _ rooms0 0 k grk hpl
        (replicate_rect W H) hok0
      split at h
      · exact generateF_inv σ W H maxRooms roomMin roomMax hmin retries
          grk.2.1 grk.2.2 res h hokg
      · rename_i hlen
        cases hec : ensure_connectivity σ grk.1 grk.2.1 grk.2.2 with
        | none =>
          rw [hec, Option.none_bind] at h
          exact absurd h (by simp)
        | some gk =>
          rw [hec, Option.some_bind] at h
          obtain ⟨hr1, hm1, hfin⟩ := ensure_conn_full σ grk.1 grk.2.1
            grk.2.2 W H hokg hrg gk hec
          injection h with h'
          rw [← h']
          dsimp only
          have hg2 : ∀ g2 : List (List Tile), RectG W H g2 →
              gmono gk.1 g2 →
              RectG W H (add_floor_variants σ W H
                (add_doors σ W H g2 gk.2).1
                (add_doors σ W H g2 gk.2).2).1 ∧
              (∀ r ∈ grk.2.1, RoomOK W H r) ∧
              5 ≤ grk.2.1.length ∧
              (∀ a b, a < grk.2.1.length → b < grk.2.1.length →
                ReachesB (maskOf (add_floor_variants σ W H
                  (add_doors σ W H g2 gk.2).1
                  (add_doors σ W H g2 gk.2).2).1) W H
                  (grk.2.1.getD a default).center
                  (grk.2.1.getD b default).center) := by
            intro g2 hr2 hm2
            obtain ⟨hr3, hm3⟩ := add_doors_rect_gmono σ W H g2 gk.2 hr2
            obtain ⟨hr4, hm4⟩ := add_floor_variants_rect_gmono σ W H
              (add_doors σ W H g2 gk.2).1 (add_doors σ W H g2 gk.2).2 hr3
            refine ⟨hr4, hokg, by omega, ?_⟩
            intro a b ha hb
            exact reach_gmono hr1 hr4
              (gmono_trans hm2 (gmono_trans hm3 hm4)) (hfin a b ha hb)
          split
          · exact hg2 _ (gridModify_rect _ _ _ hr1)
              (gridModify_gmono _ _ _ _ (fun t _ => rfl))
          · exact hg2 gk.1 hr1 (gmono_refl _)

/-- C1: confirmed.  For every successful `generate` run (any random
stream, any parameters with a positive minimum room size, any recursion
depth, rooms of failed passes retained across retries as in the source)
and every pair of rooms in the returned list, `astar` over the final
grid's walkability mask returns a non-empty path between the two rooms'
centers: `ensure_connectivity` re-links every room of the list — also
those retained from failed passes — center-to-center with carved
corridors, the later mutations never remove walkability, and `astar` is
complete. -/
theorem c1_generated_centers_connected :
    ∀ (σ : Nat → Nat) (W H maxRooms : Nat) (roomMin roomMax : Int)
      (retries : Nat) (d : DState) (rooms : List Room),
      generate σ W H maxRooms roomMin roomMax retries = some (d, rooms) →
      1 ≤ roomMin →
      ∀ r1 ∈ rooms, ∀ r2 ∈ rooms,
        ∃ l, astar (maskOf d.grid) r1.center r2.center = some l ∧
          l ≠ [] := by
  intro σ W H maxRooms roomMin roomMax retries d rooms hgen hmin r1 h1 r2
    h2
  unfold generate at hgen
  obtain ⟨grk, hgf, hpr⟩ := Option.map_eq_some'.mp hgen
  have hd : grk.1 = d.grid := congrArg DState.grid (congrArg Prod.fst hpr)
  have hrm : grk.2.1 = rooms := congrArg Prod.snd hpr
  subst hrm
  rw [← hd]
  obtain ⟨hrect, hok, hlen5, hreach⟩ := generateF_inv σ W H maxRooms
    roomMin roomMax hmin retries [] 0 grk hgf (by simp)
  obtain ⟨i, hi, hgi⟩ := mem_index_getD default grk.2.1 r1 h1
  obtain ⟨j, hj, hgj⟩ := mem_index_getD default grk.2.1 r2 h2
  have hre : ReachesB (maskOf grk.1) W H r1.center r2.center := by
    have hr0 := hreach i j hi hj
    rw [hgi, hgj] at hr0
    exact hr0
  have hcb1 := roomOK_center (hok r1 h1)
  have hcb2 := roomOK_center (hok r2 h2)
  have hH : 0 < H := by omega
  have hWm : gridWidth (maskOf grk.1) = W :=
    maskOf_gridWidth _ W H hrect hH
  have hHm : gridHeight (maskOf grk.1) = H := by
    rw [maskOf_gridHeight, hrect.1]
  by_cases hceq : r1.center = r2.center
  · rw [astar_eq]
    have hcb : ¬ (¬ inBoundsB (gridWidth (maskOf grk.1))
        (gridHeight (maskOf grk.1)) r1.center = true ∨
        ¬ inBoundsB (gridWidth (maskOf grk.1))
          (gridHeight (maskOf grk.1)) r2.center = true) := by
      rw [hWm, hHm]
      simp [inBoundsB_of W H _ hcb1.1 hcb1.2.1 hcb1.2.2.1 hcb1.2.2.2,
        inBoundsB_of W H _ hcb2.1 hcb2.2.1 hcb2.2.2.1 hcb2.2.2.2]
    rw [if_neg hcb, if_pos hceq]
    exact ⟨[r1.center], rfl, by simp⟩
  · have hwg : walkAt (maskOf grk.1) r2.center = true := by
      rcases reachesB_target hre with he | hw
      · exact absurd he hceq
      · exact hw
    refine astar_complete (maskOf grk.1) r1.center r2.center ?_ ?_ hwg ?_
    · rw [hWm, hHm]
      exact inBoundsB_of W H _ hcb1.1 hcb1.2.1 hcb1.2.2.1 hcb1.2.2.2
    · rw [hWm, hHm]
      exact inBoundsB_of W H _ hcb2.1 hcb2.2.1 hcb2.2.2.1 hcb2.2.2.2
    · rw [hWm, hHm]
      exact hre

/-- A concrete random stream (prefix then constant 1) that makes
`generate` place five 3 × 3 rooms on a 14 × 10 grid in its first
pass. -/
def c1Stream : Nat → Nat := fun k =>
  [0, 0, 0, 0, 0, 0, 4, 0, 0, 0, 0, 0, 8, 0, 0, 0, 0, 0, 0, 4, 0, 0,
   0, 0, 4, 4, 0, 0, 0, 0, 0, 1, 0].getD k 1

/-- C1 witness: the concrete 14 × 10 run succeeds and every center pair
is joined by a non-empty `astar` path. -/
theorem c1_generated_centers_connected_witness :
    ∃ (d : DState) (rooms : List Room),
      generate c1Stream 14 10 5 3 3 1 = some (d, rooms) ∧
      ∀ r1 ∈ rooms, ∀ r2 ∈ rooms,
        ∃ l, astar (maskOf d.grid) r1.center r2.center = some l ∧
          l ≠ [] := by
  cases hg : generateF c1Stream 14 10 5 3 3 1 [] 0 with
  | none => exact absurd hg (by decide)
  | some grk =>
    have hgen : generate c1Stream 14 10 5 3 3 1 =
        some ({ width := 14, height := 10, grid := grk.1 }, grk.2.1) := by
      unfold generate
      rw [hg]
      rfl
    exact ⟨_, _, hgen, c1_generated_centers_connected c1Stream 14 10 5 3
      3 1 _ _ hgen (by decide)⟩

end DungeonCrawler
